import Mathlib

/-!
# projektor: launch entries, command search, highlight markup and rank ordering

A shallow embedding of `launch_entry.go`, `cmd_entries.go` and the search handler of
`window.go`, followed by the properties established about them.

Conventions of the embedding.

* A Go `string` is its sequence of bytes (`GoString`); source literals are written
  `str "..."`, which is the UTF-8 encoding of the literal.
* A pointer to a `LaunchEntry` is the entry value; a `nil` list is the empty list.
* What the three files call but do not declare (helpers of other files of the program,
  the filesystem, the history, the configuration) is a parameter of the definitions.
* Functions of the Go standard library are modelled next to their first use, each with
  a note on what the model covers.
-/

namespace Projektor

/-! ## Strings -/

/-- A Go string: a sequence of bytes, each a natural number below 256. -/
abbrev GoString := List Nat

/-- The rune `utf8.RuneError` (U+FFFD). -/
def RuneError : Nat := 0xFFFD

/-- Standard library `utf8.EncodeRune`: the UTF-8 bytes of a rune; a surrogate or a value
above U+10FFFF is encoded as `RuneError`. -/
def EncodeRune (r : Nat) : GoString :=
  if r ≤ 0x7F then [r]
  else if r ≤ 0x7FF then [0xC0 + r / 64, 0x80 + r % 64]
  else if 0x10FFFF < r ∨ (0xD800 ≤ r ∧ r ≤ 0xDFFF) then [0xEF, 0xBF, 0xBD]
  else if r ≤ 0xFFFF then [0xE0 + r / 4096, 0x80 + r / 64 % 64, 0x80 + r % 64]
  else [0xF0 + r / 262144, 0x80 + r / 4096 % 64, 0x80 + r / 64 % 64, 0x80 + r % 64]

/-- The bytes of a sequence of runes. -/
def encodeRunes : List Nat → GoString
  | [] => []
  | r :: rest => EncodeRune r ++ encodeRunes rest

/-- The bytes of a text given by its characters. -/
def utf8 (cs : List Char) : GoString :=
  encodeRunes (cs.map Char.toNat)

/-- A string literal of the source. -/
def str (s : String) : GoString := utf8 s.toList

/-- Leading byte of a multi-byte sequence: its size and the range accepted for the second
byte (the tables `first` and `acceptRanges` of package `utf8`). -/
def leadInfo (b : Nat) : Option (Nat × Nat × Nat) :=
  if 0xC2 ≤ b ∧ b ≤ 0xDF then some (2, 0x80, 0xBF)
  else if b = 0xE0 then some (3, 0xA0, 0xBF)
  else if (0xE1 ≤ b ∧ b ≤ 0xEC) ∨ b = 0xEE ∨ b = 0xEF then some (3, 0x80, 0xBF)
  else if b = 0xED then some (3, 0x80, 0x9F)
  else if b = 0xF0 then some (4, 0x90, 0xBF)
  else if 0xF1 ≤ b ∧ b ≤ 0xF3 then some (4, 0x80, 0xBF)
  else if b = 0xF4 then some (4, 0x80, 0x8F)
  else none

/-- Standard library `utf8.DecodeRuneInString`: the first rune of `s` and its width in
bytes; `(RuneError, 0)` on the empty string and `(RuneError, 1)` on an invalid or
truncated sequence. -/
def DecodeRune (s : GoString) : Nat × Nat :=
  match s with
  | [] => (RuneError, 0)
  | s0 :: t =>
    if s0 < 0x80 then (s0, 1)
    else
      match leadInfo s0 with
      | none => (RuneError, 1)
      | some (sz, lo, hi) =>
        if t.length + 1 < sz then (RuneError, 1)
        else
          match t with
          | [] => (RuneError, 1)
          | s1 :: t1 =>
            if s1 < lo ∨ hi < s1 then (RuneError, 1)
            else if sz ≤ 2 then (s0 % 32 * 64 + s1 % 64, 2)
            else
              match t1 with
              | [] => (RuneError, 1)
              | s2 :: t2 =>
                if s2 < 0x80 ∨ 0xBF < s2 then (RuneError, 1)
                else if sz ≤ 3 then (s0 % 16 * 4096 + s1 % 64 * 64 + s2 % 64, 3)
                else
                  match t2 with
                  | [] => (RuneError, 1)
                  | s3 :: _ =>
                    if s3 < 0x80 ∨ 0xBF < s3 then (RuneError, 1)
                    else (s0 % 8 * 262144 + s1 % 64 * 4096 + s2 % 64 * 64 + s3 % 64, 4)

/-- Standard library `utf8.RuneStart`: the byte is not a continuation byte. -/
def RuneStart (b : Nat) : Bool := !(0x80 ≤ b && b ≤ 0xBF)

/-- Number of trailing bytes that `utf8.DecodeLastRuneInString` hands to the decoder, given
the bytes before the last one in reverse order: the nearest rune start among the three
preceding bytes, otherwise one byte before the four-byte limit (or the whole string). -/
def lastRuneSpan (before : GoString) : Nat :=
  match before with
  | [] => 1
  | b1 :: m1 =>
    if RuneStart b1 then 2
    else
      match m1 with
      | [] => 2
      | b2 :: m2 =>
        if RuneStart b2 then 3
        else
          match m2 with
          | [] => 3
          | b3 :: m3 =>
            if RuneStart b3 then 4
            else
              match m3 with
              | [] => 4
              | _ :: _ => 5

/-- Standard library `utf8.DecodeLastRuneInString`: the last rune of `s` and its width. -/
def DecodeLastRune (s : GoString) : Nat × Nat :=
  match s.reverse with
  | [] => (RuneError, 0)
  | b :: before =>
    if b < 0x80 then (b, 1)
    else
      let k := lastRuneSpan before
      let d := DecodeRune (s.drop (s.length - k))
      if d.2 = k then d else (RuneError, 1)

/-- Standard library `unicode.IsSpace`: the Latin-1 cases, then the `White_Space` table. -/
def IsSpace (r : Nat) : Bool :=
  if r ≤ 0xFF then
    r == 0x09 || r == 0x0A || r == 0x0B || r == 0x0C || r == 0x0D || r == 0x20
      || r == 0x85 || r == 0xA0
  else
    r == 0x1680 || (0x2000 ≤ r && r ≤ 0x200A) || r == 0x2028 || r == 0x2029
      || r == 0x202F || r == 0x205F || r == 0x3000

/-- Loop of `strings.TrimLeftFunc(s, unicode.IsSpace)`: runes are decoded from the front
and dropped while they are white space. Every step drops at least one byte, so
`s.length` steps always suffice. -/
def trimLeftLoop : Nat → GoString → GoString
  | 0, s => s
  | fuel + 1, s =>
    match s with
    | [] => []
    | _ :: _ =>
      let d := DecodeRune s
      if IsSpace d.1 then trimLeftLoop fuel (s.drop d.2) else s

/-- Loop of `strings.TrimRightFunc(s, unicode.IsSpace)`: runes are decoded from the back
and dropped while they are white space. -/
def trimRightLoop : Nat → GoString → GoString
  | 0, s => s
  | fuel + 1, s =>
    match s with
    | [] => []
    | _ :: _ =>
      let d := DecodeLastRune s
      if IsSpace d.1 then trimRightLoop fuel (s.take (s.length - d.2)) else s

/-- Standard library `strings.TrimSpace`: `s` without its leading and trailing white
space, as defined by Unicode. -/
def TrimSpace (s : GoString) : GoString :=
  let l := trimLeftLoop s.length s
  trimRightLoop l.length l

/-- Standard library `strings.ToLower`. A string of ASCII bytes has its letters `A`..`Z`
shifted to lower case; for a string with a byte from 0x80 on, the library maps every
rune through the Unicode case tables, which are the parameter `mapLower`. -/
def ToLower (mapLower : GoString → GoString) (s : GoString) : GoString :=
  if s.all (fun c => decide (c < 0x80)) then
    s.map (fun c => if 0x41 ≤ c ∧ c ≤ 0x5A then c + 32 else c)
  else mapLower s

/-- Standard library `strings.Contains`: `substr` occurs in `s`. -/
def Contains : GoString → GoString → Bool
  | [], substr => substr.isEmpty
  | c :: rest, substr => substr.isPrefixOf (c :: rest) || Contains rest substr

/-- The old strings of `strings.NewReplacer(" %f", "", " %F", "", " %u", "", " %U", "")`. -/
def placeholderOlds : List GoString := [str " %f", str " %F", str " %u", str " %U"]

/-- The `Replace` method of `strings.NewReplacer(" %f", "", " %F", "", " %u", "", " %U", "")`:
one pass from the left; where one of the four old strings starts it is dropped and the
scan resumes after it, otherwise the byte is copied. All old strings are three bytes long,
so at most one of them starts at a position. -/
def replacePlaceholders : GoString → GoString
  | a :: b :: c :: rest =>
    if [a, b, c] ∈ placeholderOlds then replacePlaceholders rest
    else a :: replacePlaceholders (b :: c :: rest)
  | s => s

/-! ## launch_entry.go: the data model -/

/-- The constants of `EntryType`. -/
inductive EntryType where
  | ApplicatioEntry
  | CommandlineEntry
  | FileEntry
  | UrlEntry
  | HistEntry
  | CalcEntry
  | WebSearchEntry
  deriving DecidableEq

open EntryType

/-- The struct `LaunchEntry`; the field `Type` of the source is `Typ` here. -/
structure LaunchEntry where
  Typ : EntryType := ApplicatioEntry
  Name : GoString := []
  LoCaseName : GoString := []
  MarkupName : GoString := []
  TabName : GoString := []
  Icon : GoString := []
  Cmdline : GoString := []
  QueryIndex : Int := 0
  deriving DecidableEq

/-- The slice type `LaunchEntriesList`. -/
abbrev LaunchEntriesList := List LaunchEntry

/-- An `error` value, identified with its message. -/
abbrev GoError := GoString

/-- A section of a parsed desktop file, seen through the two accessors the source calls,
`section.Str(key)` and `section.Bool(key)` of package `conf`. -/
structure Section where
  Str : GoString → GoString
  Bool : GoString → Bool

/-- A parsed desktop file: `cf.Sections[name]`, a missing section being the zero value. -/
structure ConfFile where
  Sections : GoString → Section

/-- The part `Config.URL` of the configuration. -/
structure URLConfig where
  Icon : GoString

/-- The part `Config.WebSearch` of the configuration. -/
structure WebSearchConfig where
  Icon : GoString
  Engine : GoString

/-- The global `Config`, as far as the constructors read it. -/
structure ConfigT where
  URL : URLConfig
  WebSearch : WebSearchConfig

/-- Helpers that `launch_entry.go` calls and that are declared elsewhere: the escaping
functions of the program, `url.QueryEscape`, `fmt.Sprintf` with one operand, the Unicode
part of `strings.ToLower`, and the configuration. -/
structure Helpers where
  EscapeAmpersand : GoString → GoString
  EscapeHTML : GoString → GoString
  QueryEscape : GoString → GoString
  Sprintf : GoString → GoString → GoString
  mapLower : GoString → GoString
  Config : ConfigT

/-! ## launch_entry.go: the constructors -/

/-- `NewEntryFromDesktopFile`. `osOpen` is `os.Open` (the file's content, or an error) and
`confRead` is `conf.Read`; the result is the pair `(le, err)` of the source. -/
def NewEntryFromDesktopFile (h : Helpers) (osOpen : GoString → Except GoError GoString)
    (confRead : GoString → Except GoError ConfFile) (filepath : GoString) :
    Option LaunchEntry × Option GoError :=
  match osOpen filepath with
  | .error err => (none, some err)
  | .ok fd =>
    match confRead fd with
    | .error err => (none, some err)
    | .ok cf =>
      let sec := cf.Sections (str "Desktop Entry")
      if sec.Bool (str "Hidden") then (none, some (str "desktop entry hidden"))
      else if sec.Bool (str "NoDisplay") then (none, some (str "desktop entry not displayed"))
      else
        let le : LaunchEntry := { Typ := ApplicatioEntry }
        let le := { le with Name := sec.Str (str "Name") }
        let le := { le with LoCaseName := ToLower h.mapLower le.Name }
        let le := { le with Icon := sec.Str (str "Icon") }
        let le := { le with Cmdline := replacePlaceholders (sec.Str (str "Exec")) }
        let le := { le with TabName := le.Cmdline }
        (some le, none)

/-- `NewEntryFromCommand`. -/
def NewEntryFromCommand (h : Helpers) (command : GoString) : LaunchEntry :=
  { Typ := CommandlineEntry
    Icon := str "application-default-icon"
    Name := command
    MarkupName := str "→ <b>" ++ h.EscapeAmpersand command ++ str "</b>"
    TabName := command
    Cmdline := command }

/-- `NewEntryForFile`. `queryIcon path` is the icon string that
`gio.NewFileForPath(path).QueryInfo(...)` followed by `GetIcon().ToString()` yields, or the
error of `QueryInfo`. -/
def NewEntryForFile (h : Helpers) (queryIcon : GoString → Except GoError GoString)
    (path displayName tabName : GoString) : Option LaunchEntry × Option GoError :=
  match queryIcon path with
  | .error fiErr => (none, some fiErr)
  | .ok icon =>
    (some
      { Typ := FileEntry
        Icon := icon
        Name := path
        MarkupName := h.EscapeAmpersand displayName
        TabName := tabName
        Cmdline := str "xdg-open " ++ path }, none)

/-- `NewUrlLaunchEntry`. -/
def NewUrlLaunchEntry (h : Helpers) (url : GoString) : LaunchEntry :=
  { Typ := UrlEntry
    Icon := h.Config.URL.Icon
    Name := url
    MarkupName := h.EscapeAmpersand url
    TabName := url
    Cmdline := str "xdg-open " ++ url }

/-- `NewCalcLaunchEntry`. The value is kept abstract; `fmtV val` is its `%v` rendering, which
both `fmt.Sprint(val)` and the verb of `fmt.Sprintf("= <b>%v</b>", val)` produce. -/
def NewCalcLaunchEntry {F : Type} (fmtV : F → GoString) (val : F) : LaunchEntry :=
  let valStr := fmtV val
  { Typ := CalcEntry
    Icon := str "gnome-calculator"
    Name := valStr
    MarkupName := str "= <b>" ++ fmtV val ++ str "</b>"
    TabName := valStr
    Cmdline := str "" }

/-- `NewWebSearchEntry`. -/
def NewWebSearchEntry (h : Helpers) (q : GoString) : LaunchEntry :=
  { Typ := WebSearchEntry
    Icon := h.Config.WebSearch.Icon
    Name := q
    MarkupName := str "Search for: <b>" ++ h.EscapeHTML q ++ str "</b>"
    TabName := q
    Cmdline := str "xdg-open " ++ h.Sprintf h.Config.WebSearch.Engine (h.QueryEscape q) }

/-! ## launch_entry.go: highlight markup -/

/-- `LaunchEntry.UpdateMarkupName`. The result is `none` where the source panics, which is
when one of the slice expressions `le.Name[:index]`, `le.Name[index:index2]`,
`le.Name[index2:]` is out of range; the bounds are byte positions. The sum
`index + length` is taken in the integers: for 64-bit arguments a wrapped sum is below
`index` or above every string length, so it is rejected either way. -/
def UpdateMarkupName (h : Helpers) (le : LaunchEntry) (index length : Int) :
    Option LaunchEntry :=
  let index2 := index + length
  if 0 ≤ index ∧ index ≤ index2 ∧ index2 ≤ (le.Name.length : Int) then
    let i := index.toNat
    let i2 := index2.toNat
    let m := h.EscapeAmpersand
      (le.Name.take i ++ str "<b>" ++ (le.Name.drop i).take (i2 - i) ++ str "</b>"
        ++ le.Name.drop i2)
    let m := if le.Typ = CommandlineEntry then str "→ " ++ m else m
    let m := if le.Typ = HistEntry then str "⌚ " ++ m else m
    some { le with MarkupName := m }
  else none

/-- Removal of the bold tags `<b>` and `</b>` from a markup string, one pass from the left
(the check that the highlight round trip is stated with; it is not part of the program). -/
def stripBold : GoString → GoString
  | a :: b :: c :: d :: rest =>
    if [a, b, c] = str "<b>" then stripBold (d :: rest)
    else if [a, b, c, d] = str "</b>" then stripBold rest
    else a :: stripBold (b :: c :: d :: rest)
  | [a, b, c] => if [a, b, c] = str "<b>" then [] else [a, b, c]
  | s => s

/-- The glyph that `UpdateMarkupName` puts in front of the markup, by entry type. -/
def glyphOf (t : EntryType) : GoString :=
  match t with
  | CommandlineEntry => str "→ "
  | HistEntry => str "⌚ "
  | _ => []

/-! ## launch_entry.go: ordering -/

/-- `lelSortableByIndex.Less`, on the two entries `list[i]` and `list[j]`; Go compares
strings byte by byte, which is the lexicographic order of byte lists. -/
def lelSortableByIndex.Less (a b : LaunchEntry) : Bool :=
  if a.QueryIndex = b.QueryIndex then decide (a.LoCaseName < b.LoCaseName)
  else decide (a.QueryIndex < b.QueryIndex)

/-- `lelSortableByName.Less`, on the two entries `list[i]` and `list[j]`. -/
def lelSortableByName.Less (a b : LaunchEntry) : Bool :=
  decide (a.LoCaseName < b.LoCaseName)

/-! ### Package `sort` of the standard library

`sort.Sort` is the pattern-defeating quicksort of the library (Go 1.19 and later): `pdqsort`
with `insertionSort`, `heapSort`, `partition`, `partitionEqual`, `partialInsertionSort`,
`breakPatterns`, `choosePivot` and `reverseRange`, all of them written against `Len`, `Less`
and `Swap` of the data only. The data is the list; `lessAt` is `data.Less(i, j)` and
`swapAt` is `data.Swap(i, j)`, which for both sortable types of `launch_entry.go` is
`list[i], list[j] = list[j], list[i]`. Every function is translated statement by statement.
A loop is a recursion on the number of rounds that are left at most; the number is given
with each loop, and it is never the reason for a loop to end early. An index outside the
data, on which Go panics, does not occur in a run of `Sort`; `lessAt` is false and `swapAt`
changes nothing there. -/

/-- `data.Less(i, j)` for data compared by `less`. -/
def lessAt {α : Type} (less : α → α → Bool) (l : List α) (i j : Nat) : Bool :=
  match l[i]?, l[j]? with
  | some x, some y => less x y
  | _, _ => false

/-- `data.Swap(i, j)`. -/
def swapAt {α : Type} (l : List α) (i j : Nat) : List α :=
  match l[i]?, l[j]? with
  | some x, some y => (l.set i y).set j x
  | _, _ => l

/-- Inner loop of `insertionSort`, `for j := i; j > a && data.Less(j, j-1); j--`, with the
body `data.Swap(j, j-1)`; `j` is `a + k`. -/
def insertDown {α : Type} (less : α → α → Bool) (a : Nat) : Nat → List α → List α
  | 0, l => l
  | k + 1, l =>
    if lessAt less l (a + k + 1) (a + k) then insertDown less a k (swapAt l (a + k + 1) (a + k))
    else l

/-- Outer loop of `insertionSort`, `for i := a + 1; i < b; i++`; `n` is `b - i`. -/
def insertionSortFrom {α : Type} (less : α → α → Bool) (a : Nat) :
    Nat → Nat → List α → List α
  | 0, _, l => l
  | n + 1, i, l => insertionSortFrom less a n (i + 1) (insertDown less a (i - a) l)

/-- `insertionSort(data, a, b)`. -/
def insertionSort {α : Type} (less : α → α → Bool) (l : List α) (a b : Nat) : List α :=
  insertionSortFrom less a (b - (a + 1)) (a + 1) l

/-- `siftDown(data, lo, hi, first)`, started at `root = lo`; `root` grows in every round and
stays below `hi`, so `hi` rounds suffice. -/
def siftDown {α : Type} (less : α → α → Bool) (hi first : Nat) : Nat → Nat → List α → List α
  | 0, _, l => l
  | fuel + 1, root, l =>
    let child := 2 * root + 1
    if child ≥ hi then l
    else
      let child :=
        if child + 1 < hi && lessAt less l (first + child) (first + child + 1) then child + 1
        else child
      if !lessAt less l (first + root) (first + child) then l
      else siftDown less hi first fuel child (swapAt l (first + root) (first + child))

/-- First loop of `heapSort`, `for i := (hi - 1) / 2; i >= 0; i--`; the argument is `i + 1`. -/
def heapBuild {α : Type} (less : α → α → Bool) (hi first : Nat) : Nat → List α → List α
  | 0, l => l
  | i + 1, l => heapBuild less hi first i (siftDown less hi first hi i l)

/-- Second loop of `heapSort`, `for i := hi - 1; i >= 0; i--`; the argument is `i + 1`. -/
def heapPop {α : Type} (less : α → α → Bool) (first : Nat) : Nat → List α → List α
  | 0, l => l
  | i + 1, l => heapPop less first i (siftDown less i first i 0 (swapAt l first (first + i)))

/-- `heapSort(data, a, b)`. -/
def heapSort {α : Type} (less : α → α → Bool) (l : List α) (a b : Nat) : List α :=
  let first := a
  let hi := b - a
  heapPop less first hi (heapBuild less hi first ((hi - 1) / 2 + 1) l)

/-- The loop `for i <= j && data.Less(i, a) { i++ }`; `n` is `j + 1 - i`. -/
def scanLessUp {α : Type} (less : α → α → Bool) (l : List α) (a : Nat) : Nat → Nat → Nat
  | 0, i => i
  | n + 1, i => if lessAt less l i a then scanLessUp less l a n (i + 1) else i

/-- The loop `for i <= j && !data.Less(j, a) { j-- }`; `n` is `j + 1 - i`. -/
def scanNotLessDown {α : Type} (less : α → α → Bool) (l : List α) (a : Nat) : Nat → Nat → Nat
  | 0, j => j
  | n + 1, j => if !lessAt less l j a then scanNotLessDown less l a n (j - 1) else j

/-- The `for` loop of `partition`; every round but the last moves `i` and `j` towards each
other, so `j + 1 - i` rounds suffice. The result is the data and `j`. -/
def partitionLoop {α : Type} (less : α → α → Bool) (a : Nat) :
    Nat → List α → Nat → Nat → List α × Nat
  | 0, l, _, j => (l, j)
  | fuel + 1, l, i, j =>
    let i := scanLessUp less l a (j + 1 - i) i
    let j := scanNotLessDown less l a (j + 1 - i) j
    if i > j then (l, j)
    else partitionLoop less a fuel (swapAt l i j) (i + 1) (j - 1)

/-- `partition(data, a, b, pivot)`: the data, `newpivot` and `alreadyPartitioned`. -/
def partition {α : Type} (less : α → α → Bool) (l : List α) (a b pivot : Nat) :
    List α × Nat × Bool :=
  let l := swapAt l a pivot
  let i := a + 1
  let j := b - 1
  let i := scanLessUp less l a (j + 1 - i) i
  let j := scanNotLessDown less l a (j + 1 - i) j
  if i > j then (swapAt l j a, j, true)
  else
    let l := swapAt l i j
    let i := i + 1
    let j := j - 1
    let r := partitionLoop less a (j + 1 - i) l i j
    (swapAt r.1 r.2 a, r.2, false)

/-- The loop `for i <= j && !data.Less(a, i) { i++ }`; `n` is `j + 1 - i`. -/
def scanNotLessUp {α : Type} (less : α → α → Bool) (l : List α) (a : Nat) : Nat → Nat → Nat
  | 0, i => i
  | n + 1, i => if !lessAt less l a i then scanNotLessUp less l a n (i + 1) else i

/-- The loop `for i <= j && data.Less(a, j) { j-- }`; `n` is `j + 1 - i`. -/
def scanLessDown {α : Type} (less : α → α → Bool) (l : List α) (a : Nat) : Nat → Nat → Nat
  | 0, j => j
  | n + 1, j => if lessAt less l a j then scanLessDown less l a n (j - 1) else j

/-- The `for` loop of `partitionEqual`; the result is the data and `i`. -/
def partitionEqualLoop {α : Type} (less : α → α → Bool) (a : Nat) :
    Nat → List α → Nat → Nat → List α × Nat
  | 0, l, i, _ => (l, i)
  | fuel + 1, l, i, j =>
    let i := scanNotLessUp less l a (j + 1 - i) i
    let j := scanLessDown less l a (j + 1 - i) j
    if i > j then (l, i)
    else partitionEqualLoop less a fuel (swapAt l i j) (i + 1) (j - 1)

/-- `partitionEqual(data, a, b, pivot)`: the data and `newpivot`. -/
def partitionEqual {α : Type} (less : α → α → Bool) (l : List α) (a b pivot : Nat) :
    List α × Nat :=
  let l := swapAt l a pivot
  let i := a + 1
  let j := b - 1
  partitionEqualLoop less a (j + 1 - i) l i j

/-- The loop `for i < b && !data.Less(i, i-1) { i++ }`; `n` is `b - i`. -/
def scanSorted {α : Type} (less : α → α → Bool) (l : List α) : Nat → Nat → Nat
  | 0, i => i
  | n + 1, i => if !lessAt less l i (i - 1) then scanSorted less l n (i + 1) else i

/-- The loop `for j := i + 1; j < b; j++` of `partialInsertionSort`, which stops at the
first `j` with `!data.Less(j, j-1)` and otherwise swaps `j` and `j-1`; `n` is `b - j`. -/
def shiftRight {α : Type} (less : α → α → Bool) : Nat → Nat → List α → List α
  | 0, _, l => l
  | n + 1, j, l =>
    if lessAt less l j (j - 1) then shiftRight less n (j + 1) (swapAt l j (j - 1)) else l

/-- The loop `for j := 0; j < maxSteps; j++` of `partialInsertionSort`; the first argument
is the number of steps left. The shift to the left, `for j := i - 1; j >= 1; j--`, is the
inner loop of the insertion sort with the lower bound 0. -/
def partialInsertionSortLoop {α : Type} (less : α → α → Bool) (a b : Nat) :
    Nat → List α → Nat → List α × Bool
  | 0, l, _ => (l, false)
  | steps + 1, l, i =>
    let i := scanSorted less l (b - i) i
    if i = b then (l, true)
    else if b - a < 50 then (l, false)
    else
      let l := swapAt l i (i - 1)
      let l := if i - a ≥ 2 then insertDown less 0 (i - 1) l else l
      let l := if b - i ≥ 2 then shiftRight less (b - (i + 1)) (i + 1) l else l
      partialInsertionSortLoop less a b steps l i

/-- `partialInsertionSort(data, a, b)`: the data and whether it is sorted at the end. -/
def partialInsertionSort {α : Type} (less : α → α → Bool) (l : List α) (a b : Nat) :
    List α × Bool :=
  partialInsertionSortLoop less a b 5 l (a + 1)

/-- The recursion behind `bits.Len`. -/
def bitsLenFrom : Nat → Nat → Nat
  | 0, _ => 0
  | fuel + 1, n => if n = 0 then 0 else bitsLenFrom fuel (n / 2) + 1

/-- `bits.Len(uint(n))`: the number of bits needed to write `n`. -/
def bitsLen (n : Nat) : Nat := bitsLenFrom n n

/-- `nextPowerOfTwo(length)`. -/
def nextPowerOfTwo (length : Nat) : Nat := 2 ^ bitsLen length

/-- `(*xorshift).Next` on the 64-bit state `r`, `r ^= r << 13; r ^= r >> 7; r ^= r << 17`:
the new state, which is also the value. -/
def xorshiftNext (r : Nat) : Nat :=
  let r := r ^^^ (r <<< 13 % 2 ^ 64)
  let r := r ^^^ (r >>> 7)
  r ^^^ (r <<< 17 % 2 ^ 64)

/-- The loop `for i := 0; i < 3; i++` of `breakPatterns`; `n` is `3 - i`. -/
def breakPatternsLoop {α : Type} (next : Nat → Nat) (a length modulus idx : Nat) :
    Nat → Nat → Nat → List α → List α
  | 0, _, _, l => l
  | n + 1, i, random, l =>
    let random := next random
    let other := random &&& (modulus - 1)
    let other := if other ≥ length then other - length else other
    breakPatternsLoop next a length modulus idx n (i + 1) random
      (swapAt l (idx - 1 + i) (a + other))

/-- `breakPatterns(data, a, b)`; `next` is the generator `(*xorshift).Next`. -/
def breakPatterns {α : Type} (next : Nat → Nat) (l : List α) (a b : Nat) : List α :=
  let length := b - a
  if length ≥ 8 then
    let random := length
    let modulus := nextPowerOfTwo length
    let idx := a + (length / 4) * 2 - 1
    breakPatternsLoop next a length modulus idx 3 0 random l
  else l

/-- The type `sortedHint`. -/
inductive sortedHint where
  | unknownHint
  | increasingHint
  | decreasingHint
  deriving DecidableEq

/-- `order2(data, a, b, swaps)`: the two indices in order and the new count of swaps. -/
def order2 {α : Type} (less : α → α → Bool) (l : List α) (a b swaps : Nat) :
    Nat × Nat × Nat :=
  if lessAt less l b a then (b, a, swaps + 1) else (a, b, swaps)

/-- `median(data, a, b, c, swaps)`: the index of the median and the new count of swaps. -/
def median {α : Type} (less : α → α → Bool) (l : List α) (a b c swaps : Nat) : Nat × Nat :=
  let r1 := order2 less l a b swaps
  let r2 := order2 less l r1.2.1 c r1.2.2
  let r3 := order2 less l r1.1 r2.1 r2.2.2
  (r3.2.1, r3.2.2)

/-- `medianAdjacent(data, a, swaps)`. -/
def medianAdjacent {α : Type} (less : α → α → Bool) (l : List α) (a swaps : Nat) :
    Nat × Nat :=
  median less l (a - 1) a (a + 1) swaps

/-- `choosePivot(data, a, b)`: the pivot and the hint. -/
def choosePivot {α : Type} (less : α → α → Bool) (l : List α) (a b : Nat) :
    Nat × sortedHint :=
  let len := b - a
  let i := a + len / 4 * 1
  let j := a + len / 4 * 2
  let k := a + len / 4 * 3
  let r :=
    if len ≥ 8 then
      if len ≥ 50 then
        let ri := medianAdjacent less l i 0
        let rj := medianAdjacent less l j ri.2
        let rk := medianAdjacent less l k rj.2
        median less l ri.1 rj.1 rk.1 rk.2
      else median less l i j k 0
    else (j, 0)
  if r.2 = 0 then (r.1, sortedHint.increasingHint)
  else if r.2 = 4 * 3 then (r.1, sortedHint.decreasingHint)
  else (r.1, sortedHint.unknownHint)

/-- The loop `for i < j` of `reverseRange`; `n` bounds the rounds left. -/
def reverseRangeLoop {α : Type} : Nat → List α → Nat → Nat → List α
  | 0, l, _, _ => l
  | n + 1, l, i, j => if i < j then reverseRangeLoop n (swapAt l i j) (i + 1) (j - 1) else l

/-- `reverseRange(data, a, b)`. -/
def reverseRange {α : Type} (l : List α) (a b : Nat) : List α :=
  reverseRangeLoop ((b - a) / 2) l a (b - 1)

/-- `pdqsort(data, a, b, limit)`. The `for` loop of the function is the recursion: a round
is entered with the current `a`, `b`, `limit`, `wasBalanced` and `wasPartitioned`, and a
recursive call of the source starts with both flags true. Every round and every call
works on a shorter range, so `b - a` rounds suffice. -/
def pdqsort {α : Type} (next : Nat → Nat) (less : α → α → Bool) :
    Nat → List α → Nat → Nat → Nat → Bool → Bool → List α
  | 0, l, _, _, _, _, _ => l
  | fuel + 1, l, a, b, limit, wasBalanced, wasPartitioned =>
    let length := b - a
    if length ≤ 12 then insertionSort less l a b
    else if limit = 0 then heapSort less l a b
    else
      let l := if !wasBalanced then breakPatterns next l a b else l
      let limit := if !wasBalanced then limit - 1 else limit
      let c := choosePivot less l a b
      let l := if c.2 = sortedHint.decreasingHint then reverseRange l a b else l
      let pivot := if c.2 = sortedHint.decreasingHint then (b - 1) - (c.1 - a) else c.1
      let hint := if c.2 = sortedHint.decreasingHint then sortedHint.increasingHint else c.2
      let tryPartial := wasBalanced && wasPartitioned && hint = sortedHint.increasingHint
      let p := if tryPartial then partialInsertionSort less l a b else (l, false)
      if p.2 then p.1
      else
        let l := p.1
        if a > 0 && !lessAt less l (a - 1) pivot then
          let e := partitionEqual less l a b pivot
          pdqsort next less fuel e.1 e.2 b limit wasBalanced wasPartitioned
        else
          let q := partition less l a b pivot
          let mid := q.2.1
          let wasPartitioned := q.2.2
          let leftLen := mid - a
          let rightLen := b - mid
          let balanceThreshold := length / 8
          if leftLen < rightLen then
            let wasBalanced := decide (leftLen ≥ balanceThreshold)
            let l := pdqsort next less fuel q.1 a mid limit true true
            pdqsort next less fuel l (mid + 1) b limit wasBalanced wasPartitioned
          else
            let wasBalanced := decide (rightLen ≥ balanceThreshold)
            let l := pdqsort next less fuel q.1 (mid + 1) b limit true true
            pdqsort next less fuel l a mid limit wasBalanced wasPartitioned

/-- Standard library `sort.Sort`. -/
def sortSort {α : Type} (less : α → α → Bool) (data : List α) : List α :=
  let n := data.length
  if n ≤ 1 then data
  else pdqsort xorshiftNext less n data 0 n (bitsLen n) true true

/-- What `sort.Interface` asks of `Less`, a transitive ordering: `less` is asymmetric, and
if neither `less a b` nor `less b c` holds then `less a c` does not hold. -/
structure StrictWeak {α : Type} (less : α → α → Bool) : Prop where
  asymm : ∀ a b, less a b = true → less b a = false
  negtrans : ∀ a b c, less a b = false → less b c = false → less a c = false

/-- The list `l1` arises from `l` by moving elements around inside the positions `a` to
`b - 1`: same length, same elements, nothing changed outside, and every element inside
comes from inside. `d` is a default for reading the lists. -/
structure Moved {α : Type} (d : α) (a b : Nat) (l l1 : List α) : Prop where
  length_eq : l1.length = l.length
  perm : List.Perm l1 l
  outside : ∀ k, k < a ∨ b ≤ k → l1.getD k d = l.getD k d
  inside : ∀ k, a ≤ k → k < b → ∃ k1, a ≤ k1 ∧ k1 < b ∧ l1.getD k d = l.getD k1 d

/-- The positions `a` to `b - 1` of `l` are in ascending order. -/
def SortedOn {α : Type} (less : α → α → Bool) (d : α) (l : List α) (a b : Nat) : Prop :=
  ∀ i j, a ≤ i → i < j → j < b → less (l.getD j d) (l.getD i d) = false

/-- The heap property of the positions `first` to `first + hi - 1` for the nodes whose
parent is `lo` or later: no node is above its parent. -/
def HeapFrom {α : Type} (less : α → α → Bool) (d : α) (first lo hi : Nat) (l : List α) :
    Prop :=
  ∀ c, c < hi → 1 ≤ c → lo ≤ (c - 1) / 2 →
    less (l.getD (first + (c - 1) / 2) d) (l.getD (first + c) d) = false

/-- No element of the range from `a` to `b - 1` is below the element before the range. -/
def LowerBound {α : Type} (less : α → α → Bool) (d : α) (l : List α) (a b : Nat) : Prop :=
  0 < a → ∀ k, a ≤ k → k < b → less (l.getD k d) (l.getD (a - 1) d) = false

/-- `LaunchEntriesList.SortByIndex`; the result is the list after the in-place sort. -/
def SortByIndex (list : LaunchEntriesList) : LaunchEntriesList :=
  sortSort lelSortableByIndex.Less list

/-- `LaunchEntriesList.SortByName`. -/
def SortByName (list : LaunchEntriesList) : LaunchEntriesList :=
  sortSort lelSortableByName.Less list

/-! ## cmd_entries.go -/

/-- What `cmd_entries.go` reads from its surroundings: the global `PathEntries`, the rune
`os.PathSeparator`, the filesystem as seen by `os.Stat` (`none` is an error), and the
helpers `IsExecutable`, `IsInHistory` and `SplitCommandline` of other files. -/
structure Env (FileInfo : Type) where
  PathEntries : List GoString
  PathSeparator : Nat
  Stat : GoString → Option FileInfo
  IsExecutable : FileInfo → Bool
  IsInHistory : GoString → Bool
  SplitCommandline : GoString → List GoString

/-- `IsPathExecutable`. -/
def IsPathExecutable {FI : Type} (env : Env FI) (path : GoString) : Bool :=
  match env.Stat path with
  | none => false
  | some stat => env.IsExecutable stat

/-- The loop of `IsCommandInPath` over the remaining path entries. -/
def IsCommandInPathFrom {FI : Type} (env : Env FI) (cmd : GoString) : List GoString → Bool
  | [] => false
  | path :: rest =>
    let filePath := path ++ EncodeRune env.PathSeparator ++ cmd
    if IsPathExecutable env filePath then true else IsCommandInPathFrom env cmd rest

/-- `IsCommandInPath`. -/
def IsCommandInPath {FI : Type} (env : Env FI) (cmd : GoString) : Bool :=
  IsCommandInPathFrom env cmd env.PathEntries

/-- `IsCommand`. -/
def IsCommand {FI : Type} (env : Env FI) (cmd : GoString) : Bool :=
  IsPathExecutable env cmd || IsCommandInPath env cmd

/-- `SearchCmdEntries`. -/
def SearchCmdEntries {FI : Type} (env : Env FI) (h : Helpers) (query : GoString) :
    LaunchEntriesList :=
  let query := TrimSpace query
  if query = str "" then []
  else
    match env.SplitCommandline query with
    | [] => []
    | cmd0 :: _ =>
      if !env.IsInHistory query && IsCommand env cmd0 then [NewEntryFromCommand h query]
      else []

/-! ## window.go: the search handler -/

/-- The entry type `DtEntry` of `window.go`, with the fields the file reads. -/
structure DtEntry where
  Icon : GoString
  Name : GoString
  Exec : GoString
  LoCaseName : GoString
  deriving DecidableEq

/-- A row of `Ui.ListStore`: the columns 0, 1 and 2 set by `listStoreAppendEntry`. -/
abbrev Row := GoString × GoString × GoString

/-- The "changed" handler installed by `setupSearchLogic`, as the content of the list
store when it returns: the store is cleared, and unless the lowercased text is empty a
row is appended for every entry of the iterator whose `LoCaseName` contains it.
`entries` is what `NewEntriesInterator` enumerates, `text` is `Ui.SearchEntry.GetText()`. -/
def searchChanged (mapLower : GoString → GoString) (entries : List DtEntry)
    (text : GoString) : List Row :=
  let text := ToLower mapLower text
  if text = str "" then []
  else
    (entries.filter (fun en => Contains en.LoCaseName text)).map
      (fun en => (en.Icon, en.Name, en.Exec))

/-! ## Instances of the parameters, for evaluating the definitions on concrete inputs -/

/-- An instance of the helper `EscapeAmpersand`: every `&` becomes `&amp;`. -/
def escapeAmpersandRef : GoString → GoString
  | [] => []
  | c :: rest =>
    if c = 0x26 then str "&amp;" ++ escapeAmpersandRef rest else c :: escapeAmpersandRef rest

/-- An instance of the helper `EscapeHTML`: `&`, `<` and `>` become character references. -/
def escapeHTMLRef : GoString → GoString
  | [] => []
  | c :: rest =>
    if c = 0x26 then str "&amp;" ++ escapeHTMLRef rest
    else if c = 0x3C then str "&lt;" ++ escapeHTMLRef rest
    else if c = 0x3E then str "&gt;" ++ escapeHTMLRef rest
    else c :: escapeHTMLRef rest

/-- An instance of the helpers: the two escaping functions above; strings outside ASCII are
left as they are by `mapLower` and `QueryEscape`, and `Sprintf` puts its operand after the
format. None of the results below depends on these choices beyond what its statement
evaluates. -/
def helpersRef : Helpers where
  EscapeAmpersand := escapeAmpersandRef
  EscapeHTML := escapeHTMLRef
  QueryEscape := fun q => q
  Sprintf := fun format operand => format ++ operand
  mapLower := fun s => s
  Config :=
    { URL := { Icon := str "web-browser" }
      WebSearch := { Icon := str "web-browser", Engine := str "https://duckduckgo.com/?q=" } }

/-- Fields of a command line separated by blanks and tabs (`cur` is the field being read,
in reverse order). -/
def fieldsFrom : GoString → GoString → List GoString
  | cur, [] => if cur = [] then [] else [cur.reverse]
  | cur, b :: rest =>
    if b = 0x20 ∨ b = 0x09 then
      if cur = [] then fieldsFrom [] rest else cur.reverse :: fieldsFrom [] rest
    else fieldsFrom (b :: cur) rest

/-- An instance of `Env`: `/bin/ls` is the one executable file, `PathEntries` is
`["/usr/local/bin", "/bin"]`, the history holds the names in `history`, and the command
line is split at blanks. A file is described by its permission bits. -/
def envRef (history : List GoString) : Env Nat where
  PathEntries := [str "/usr/local/bin", str "/bin"]
  PathSeparator := 0x2F
  Stat := fun path => if path = str "/bin/ls" then some 0o755 else none
  IsExecutable := fun mode => mode / 64 % 2 == 1
  IsInHistory := fun q => decide (q ∈ history)
  SplitCommandline := fieldsFrom []

/-- An instance of a parsed desktop file: its section `Desktop Entry` holds the given
`Name`, `Icon` and `Exec` strings and the given `Hidden` and `NoDisplay` flags; every other
key and every other section is absent (empty string, false). -/
def desktopRef (name icon exec : GoString) (hidden noDisplay : Bool) : ConfFile where
  Sections := fun sectionName =>
    if sectionName = str "Desktop Entry" then
      { Str := fun key =>
          if key = str "Name" then name
          else if key = str "Icon" then icon
          else if key = str "Exec" then exec
          else []
        Bool := fun key =>
          if key = str "Hidden" then hidden
          else if key = str "NoDisplay" then noDisplay
          else false }
    else { Str := fun _ => [], Bool := fun _ => false }

/-- The letters of the four placeholders: `f`, `F`, `u`, `U`. -/
def placeholderLetters : List Nat := [0x66, 0x46, 0x75, 0x55]

/-- A `%` of the `Exec` value `s` that ends up in front of a placeholder letter: the `%` is
followed by zero or more of the old strings of the replacer (a blank, `%`, a placeholder
letter) and then by one of the letters `f`, `F`, `u`, `U`; where the letter follows
directly, the `%` is not preceded by a blank. -/
def keepsPlaceholder (s : GoString) : Prop :=
  ∃ (pre : GoString) (olds : List GoString) (y : Nat) (post : GoString),
    s = pre ++ 0x25 :: (olds.flatten ++ y :: post) ∧
      (∀ t ∈ olds, t ∈ placeholderOlds) ∧ y ∈ placeholderLetters ∧
      (olds = [] → pre.getLast? ≠ some 0x20)

/-! ## Command search (`SearchCmdEntries`) -/

theorem IsCommandInPathFrom_iff {FI : Type} (env : Env FI) (cmd : GoString)
    (dirs : List GoString) :
    IsCommandInPathFrom env cmd dirs = true ↔
      ∃ dir ∈ dirs, IsPathExecutable env (dir ++ EncodeRune env.PathSeparator ++ cmd) = true := by
  induction dirs with
  | nil => simp [IsCommandInPathFrom]
  | cons d rest ih =>
    simp only [List.append_assoc] at ih
    simp [IsCommandInPathFrom, ih]

theorem IsCommand_iff {FI : Type} (env : Env FI) (cmd : GoString) :
    IsCommand env cmd = true ↔
      (IsPathExecutable env cmd = true ∨
        ∃ dir ∈ env.PathEntries,
          IsPathExecutable env (dir ++ EncodeRune env.PathSeparator ++ cmd) = true) := by
  simp [IsCommand, IsCommandInPath, IsCommandInPathFrom_iff]

/-- C1, as the claim states it, fails. With `/bin/ls` executable, `/bin` in `PathEntries`
and the history holding `ls`, the query `" ls"` is non-empty, its first token `ls` is
executable and `IsInHistory(" ls")` is false, yet `SearchCmdEntries` returns no entry: it
looks up the trimmed query `ls`, which is in the history. -/
theorem C1_counterexample :
    ¬ (∀ (env : Env Nat) (h : Helpers) (q : GoString), q ≠ str "" →
        ((∃ e, SearchCmdEntries env h q = [e]) ↔
          ((∃ tok, (env.SplitCommandline q).head? = some tok ∧
              (IsPathExecutable env tok = true ∨
                ∃ dir ∈ env.PathEntries,
                  IsPathExecutable env (dir ++ EncodeRune env.PathSeparator ++ tok) = true)) ∧
            env.IsInHistory q = false))) := by
  intro hall
  have hq : str " ls" ≠ str "" := by decide
  have hiff := hall (envRef [str "ls"]) helpersRef (str " ls") hq
  have hnil : SearchCmdEntries (envRef [str "ls"]) helpersRef (str " ls") = [] := by decide
  have hrhs : (∃ tok, ((envRef [str "ls"]).SplitCommandline (str " ls")).head? = some tok ∧
      (IsPathExecutable (envRef [str "ls"]) tok = true ∨
        ∃ dir ∈ (envRef [str "ls"]).PathEntries,
          IsPathExecutable (envRef [str "ls"])
            (dir ++ EncodeRune (envRef [str "ls"]).PathSeparator ++ tok) = true)) ∧
      (envRef [str "ls"]).IsInHistory (str " ls") = false :=
    ⟨⟨str "ls", by decide, Or.inr ⟨str "/bin", by decide, by decide⟩⟩, by decide⟩
  obtain ⟨e, he⟩ := hiff.mpr hrhs
  rw [hnil] at he
  exact absurd he (by simp)

/-- `SearchCmdEntries` on a query whose trimmed form is non-empty, has an executable first
token and is not in the history. -/
theorem SearchCmdEntries_of_command {FI : Type} (env : Env FI) (h : Helpers) (q : GoString)
    (hc : TrimSpace q ≠ str "" ∧
      (∃ tok, (env.SplitCommandline (TrimSpace q)).head? = some tok ∧
        (IsPathExecutable env tok = true ∨
          ∃ dir ∈ env.PathEntries,
            IsPathExecutable env (dir ++ EncodeRune env.PathSeparator ++ tok) = true)) ∧
      env.IsInHistory (TrimSpace q) = false) :
    SearchCmdEntries env h q = [NewEntryFromCommand h (TrimSpace q)] := by
  obtain ⟨hne, ⟨tok, htok, hex⟩, hhist⟩ := hc
  unfold SearchCmdEntries
  simp only [hne, if_false]
  cases hs : env.SplitCommandline (TrimSpace q) with
  | nil => rw [hs] at htok; simp at htok
  | cons c rest =>
    rw [hs] at htok
    simp only [List.head?_cons, Option.some.injEq] at htok
    subst htok
    have hc : IsCommand env c = true := (IsCommand_iff env c).mpr hex
    simp [hhist, hc]

/-- `SearchCmdEntries` on every other query. -/
theorem SearchCmdEntries_of_not_command {FI : Type} (env : Env FI) (h : Helpers)
    (q : GoString)
    (hnot : ¬ (TrimSpace q ≠ str "" ∧
      (∃ tok, (env.SplitCommandline (TrimSpace q)).head? = some tok ∧
        (IsPathExecutable env tok = true ∨
          ∃ dir ∈ env.PathEntries,
            IsPathExecutable env (dir ++ EncodeRune env.PathSeparator ++ tok) = true)) ∧
      env.IsInHistory (TrimSpace q) = false)) :
    SearchCmdEntries env h q = [] := by
  unfold SearchCmdEntries
  by_cases hne : TrimSpace q = str ""
  · simp [hne]
  · simp only [hne, if_false]
    cases hs : env.SplitCommandline (TrimSpace q) with
    | nil => rfl
    | cons c rest =>
      by_cases hhist : env.IsInHistory (TrimSpace q) = true
      · simp [hhist]
      · by_cases hc : IsCommand env c = true
        · exfalso
          apply hnot
          refine ⟨hne, ⟨c, by simp [hs], (IsCommand_iff env c).mp hc⟩, ?_⟩
          simpa using hhist
        · simp [hc]

/-- C1 (amended): for every query `q`, filesystem state and history state, with
`t = TrimSpace(q)`: `SearchCmdEntries(q)` returns a list of exactly one entry if and only
if `t` is non-empty, `SplitCommandline(t)` has a first token that is executable
(`IsPathExecutable(token)`, or `IsPathExecutable(dir + separator + token)` for some `dir`
of `PathEntries`) and `IsInHistory(t)` is false; the entry is then
`NewEntryFromCommand(t)`, and in every other case the empty list is returned. -/
theorem C1_SearchCmdEntries_one_entry_iff {FI : Type} (env : Env FI) (h : Helpers)
    (q : GoString) :
    ((∃ e, SearchCmdEntries env h q = [e]) ↔
      (TrimSpace q ≠ str "" ∧
        (∃ tok, (env.SplitCommandline (TrimSpace q)).head? = some tok ∧
          (IsPathExecutable env tok = true ∨
            ∃ dir ∈ env.PathEntries,
              IsPathExecutable env (dir ++ EncodeRune env.PathSeparator ++ tok) = true)) ∧
        env.IsInHistory (TrimSpace q) = false)) ∧
    ((∃ e, SearchCmdEntries env h q = [e]) →
      SearchCmdEntries env h q = [NewEntryFromCommand h (TrimSpace q)]) ∧
    ((¬ ∃ e, SearchCmdEntries env h q = [e]) → SearchCmdEntries env h q = []) := by
  have hiff : (∃ e, SearchCmdEntries env h q = [e]) ↔
      (TrimSpace q ≠ str "" ∧
        (∃ tok, (env.SplitCommandline (TrimSpace q)).head? = some tok ∧
          (IsPathExecutable env tok = true ∨
            ∃ dir ∈ env.PathEntries,
              IsPathExecutable env (dir ++ EncodeRune env.PathSeparator ++ tok) = true)) ∧
        env.IsInHistory (TrimSpace q) = false) := by
    constructor
    · rintro ⟨e, he⟩
      by_contra hnot
      rw [SearchCmdEntries_of_not_command env h q hnot] at he
      exact absurd he (by simp)
    · intro hc
      exact ⟨_, SearchCmdEntries_of_command env h q hc⟩
  refine ⟨hiff, fun he => SearchCmdEntries_of_command env h q (hiff.mp he), fun hne => ?_⟩
  exact SearchCmdEntries_of_not_command env h q (fun hc => hne (hiff.mpr hc))

/-- Witness of C1 (amended): with `/bin/ls` executable, the query `" ls -la "` yields the
one entry for `ls -la` when the history is empty, and no entry when the history holds
`ls -la`. -/
theorem C1_SearchCmdEntries_one_entry_iff_witness :
    SearchCmdEntries (envRef []) helpersRef (str " ls -la ") =
        [NewEntryFromCommand helpersRef (TrimSpace (str " ls -la "))] ∧
      SearchCmdEntries (envRef [str "ls -la"]) helpersRef (str " ls -la ") = [] :=
  ⟨(C1_SearchCmdEntries_one_entry_iff (envRef []) helpersRef (str " ls -la ")).2.1
      ((C1_SearchCmdEntries_one_entry_iff (envRef []) helpersRef (str " ls -la ")).1.mpr
        ⟨by decide, ⟨str "ls", by decide, Or.inr ⟨str "/bin", by decide, by decide⟩⟩,
          by decide⟩),
    (C1_SearchCmdEntries_one_entry_iff (envRef [str "ls -la"]) helpersRef
      (str " ls -la ")).2.2
      (fun hex =>
        absurd
          ((C1_SearchCmdEntries_one_entry_iff (envRef [str "ls -la"]) helpersRef
            (str " ls -la ")).1.mp hex).2.2
          (by decide))⟩

/-- C2, as the claim states it, fails: for the query `" ls"` (a leading blank, `/bin/ls`
executable, empty history) the entry returned has `Cmdline` and `TabName` equal to `ls`,
not to the query as passed in. -/
theorem C2_counterexample :
    ¬ (∀ (env : Env Nat) (h : Helpers) (q : GoString) (e : LaunchEntry),
        e ∈ SearchCmdEntries env h q → e.TabName = q ∧ e.Cmdline = q) := by
  intro hall
  have hmem : NewEntryFromCommand helpersRef (str "ls") ∈
      SearchCmdEntries (envRef []) helpersRef (str " ls") := by decide
  have hbad := (hall (envRef []) helpersRef (str " ls") _ hmem).2
  revert hbad
  decide

/-- C2 (amended): for every query `q` for which `SearchCmdEntries(q)` returns an entry,
that entry's `TabName` and `Cmdline` both equal `TrimSpace(q)`, the query without its
leading and trailing white space (and nothing else changed). -/
theorem C2_entry_is_trimmed_query {FI : Type} (env : Env FI) (h : Helpers) (q : GoString)
    (e : LaunchEntry) (he : e ∈ SearchCmdEntries env h q) :
    e.TabName = TrimSpace q ∧ e.Cmdline = TrimSpace q := by
  unfold SearchCmdEntries at he
  by_cases hne : TrimSpace q = str ""
  · simp [hne] at he
  · simp only [hne, if_false] at he
    cases hs : env.SplitCommandline (TrimSpace q) with
    | nil => rw [hs] at he; simp at he
    | cons c rest =>
      rw [hs] at he
      by_cases hcond : (!env.IsInHistory (TrimSpace q) && IsCommand env c) = true
      · simp only [hcond, if_true, List.mem_singleton] at he
        subst he
        exact ⟨rfl, rfl⟩
      · simp [hcond] at he

/-- Witness of C2 (amended): the query `" ls -la "` with `/bin/ls` executable and an empty
history. -/
theorem C2_entry_is_trimmed_query_witness :
    NewEntryFromCommand helpersRef (str "ls -la") ∈
        SearchCmdEntries (envRef []) helpersRef (str " ls -la ") ∧
      (NewEntryFromCommand helpersRef (str "ls -la")).TabName = TrimSpace (str " ls -la ") ∧
      (NewEntryFromCommand helpersRef (str "ls -la")).Cmdline = TrimSpace (str " ls -la ") :=
  ⟨by decide,
    C2_entry_is_trimmed_query (envRef []) helpersRef (str " ls -la ")
      (NewEntryFromCommand helpersRef (str "ls -la")) (by decide)⟩

/-! ## Ordering (`SortByIndex`) -/

/-! ### `Swap` and `Less` on the list -/

theorem length_swapAt {α : Type} (l : List α) (i j : Nat) :
    (swapAt l i j).length = l.length := by
  unfold swapAt
  split <;> simp

theorem getD_swapAt {α : Type} (d : α) (l : List α) (i j k : Nat) (hi : i < l.length)
    (hj : j < l.length) :
    (swapAt l i j).getD k d =
      if k = j then l.getD i d else if k = i then l.getD j d else l.getD k d := by
  unfold swapAt
  rw [List.getElem?_eq_getElem hi, List.getElem?_eq_getElem hj]
  simp only [List.getD_eq_getElem?_getD, List.getElem?_set]
  by_cases hkj : k = j
  · subst hkj
    simp [hj, List.getElem?_eq_getElem hi]
  · by_cases hki : k = i
    · subst hki
      have : ¬ j = k := fun h => hkj h.symm
      simp [this, hkj, hi, List.getElem?_eq_getElem hj]
    · have h1 : ¬ j = k := fun h => hkj h.symm
      have h2 : ¬ i = k := fun h => hki h.symm
      simp [h1, h2, hkj, hki]

theorem lessAt_eq {α : Type} (less : α → α → Bool) (d : α) (l : List α) (i j : Nat)
    (hi : i < l.length) (hj : j < l.length) :
    lessAt less l i j = less (l.getD i d) (l.getD j d) := by
  unfold lessAt
  rw [List.getElem?_eq_getElem hi, List.getElem?_eq_getElem hj]
  simp [List.getD_eq_getElem?_getD, List.getElem?_eq_getElem hi, List.getElem?_eq_getElem hj]

theorem perm_cons_set {α : Type} (h : α) (t : List α) (j : Nat) (hj : j < t.length) :
    List.Perm (t[j] :: t.set j h) (h :: t) := by
  induction t generalizing j with
  | nil => simp at hj
  | cons u t ih =>
    cases j with
    | zero => exact List.Perm.swap _ _ _
    | succ j =>
      simp only [List.length_cons, Nat.add_lt_add_iff_right] at hj
      simp only [List.getElem_cons_succ, List.set_cons_succ]
      exact (List.Perm.swap _ _ _).trans
        ((List.Perm.cons u (ih j hj)).trans (List.Perm.swap _ _ _))

theorem perm_set_set {α : Type} (l : List α) (i j : Nat) (hi : i < l.length)
    (hj : j < l.length) (hij : i < j) : List.Perm ((l.set i l[j]).set j l[i]) l := by
  induction l generalizing i j with
  | nil => simp at hi
  | cons h t ih =>
    cases j with
    | zero => omega
    | succ j =>
      simp only [List.length_cons, Nat.add_lt_add_iff_right] at hj
      cases i with
      | zero =>
        simp only [List.getElem_cons_succ, List.set_cons_zero, List.set_cons_succ,
          List.getElem_cons_zero]
        exact perm_cons_set h t j hj
      | succ i =>
        simp only [List.length_cons, Nat.add_lt_add_iff_right] at hi
        simp only [List.getElem_cons_succ, List.set_cons_succ]
        exact List.Perm.cons h (ih i j hi hj (by omega))

theorem perm_swapAt {α : Type} (l : List α) (i j : Nat) : List.Perm (swapAt l i j) l := by
  unfold swapAt
  by_cases hi : i < l.length
  · by_cases hj : j < l.length
    · rw [List.getElem?_eq_getElem hi, List.getElem?_eq_getElem hj]
      show List.Perm ((l.set i l[j]).set j l[i]) l
      rcases Nat.lt_trichotomy i j with h | h | h
      · exact perm_set_set l i j hi hj h
      · subst h
        rw [List.set_set]
        have : l.set i l[i] = l := by
          apply List.ext_getElem (by simp)
          intro n h1 h2
          simp [List.getElem_set]
          rintro rfl
          rfl
        rw [this]
      · have hc := List.set_comm l[j] l[i] l (show i ≠ j by omega)
        rw [hc]
        exact perm_set_set l j i hj hi h
    · have hn : l[j]? = none := List.getElem?_eq_none (show l.length ≤ j by omega)
      rw [hn]
      cases l[i]? <;> exact List.Perm.refl _
  · have hn : l[i]? = none := List.getElem?_eq_none (show l.length ≤ i by omega)
    rw [hn]

/-! ### `Moved` -/

theorem Moved.refl {α : Type} (d : α) (a b : Nat) (l : List α) : Moved d a b l l :=
  ⟨rfl, List.Perm.refl _, fun _ _ => rfl, fun k h1 h2 => ⟨k, h1, h2, rfl⟩⟩

theorem Moved.trans {α : Type} {d : α} {a b : Nat} {l l1 l2 : List α}
    (h1 : Moved d a b l l1) (h2 : Moved d a b l1 l2) : Moved d a b l l2 := by
  refine ⟨h2.length_eq.trans h1.length_eq, h2.perm.trans h1.perm, ?_, ?_⟩
  · intro k hk
    rw [h2.outside k hk, h1.outside k hk]
  · intro k hk1 hk2
    obtain ⟨k1, ha, hb, he⟩ := h2.inside k hk1 hk2
    obtain ⟨k2, ha2, hb2, he2⟩ := h1.inside k1 ha hb
    exact ⟨k2, ha2, hb2, he.trans he2⟩

theorem Moved.mono {α : Type} {d : α} {a b a1 b1 : Nat} {l l1 : List α}
    (h : Moved d a b l l1) (ha : a1 ≤ a) (hb : b ≤ b1) : Moved d a1 b1 l l1 := by
  refine ⟨h.length_eq, h.perm, ?_, ?_⟩
  · intro k hk
    exact h.outside k (by omega)
  · intro k hk1 hk2
    by_cases hin : a ≤ k ∧ k < b
    · obtain ⟨k1, h1, h2, h3⟩ := h.inside k hin.1 hin.2
      exact ⟨k1, by omega, by omega, h3⟩
    · exact ⟨k, hk1, hk2, h.outside k (by omega)⟩

theorem Moved.swap {α : Type} (d : α) (a b : Nat) (l : List α) (i j : Nat) (hb : b ≤ l.length)
    (hia : a ≤ i) (hib : i < b) (hja : a ≤ j) (hjb : j < b) :
    Moved d a b l (swapAt l i j) := by
  have hi : i < l.length := by omega
  have hj : j < l.length := by omega
  refine ⟨length_swapAt l i j, perm_swapAt l i j, ?_, ?_⟩
  · intro k hk
    rw [getD_swapAt d l i j k hi hj, if_neg (by omega), if_neg (by omega)]
  · intro k hk1 hk2
    rw [getD_swapAt d l i j k hi hj]
    split_ifs
    · exact ⟨i, hia, hib, rfl⟩
    · exact ⟨j, hja, hjb, rfl⟩
    · exact ⟨k, hk1, hk2, rfl⟩

/-- A property of all elements inside the range is kept by moving them around. -/
theorem Moved.forall_inside {α : Type} {d : α} {a b : Nat} {l l1 : List α}
    (h : Moved d a b l l1) (P : α → Prop) (hP : ∀ k, a ≤ k → k < b → P (l.getD k d)) :
    ∀ k, a ≤ k → k < b → P (l1.getD k d) := by
  intro k hk1 hk2
  obtain ⟨k1, h1, h2, h3⟩ := h.inside k hk1 hk2
  rw [h3]
  exact hP k1 h1 h2

/-! ### The ordering -/

theorem StrictWeak.irrefl {α : Type} {less : α → α → Bool} (hw : StrictWeak less) (a : α) :
    less a a = false := by
  cases h : less a a with
  | false => rfl
  | true => rw [hw.asymm a a h] at h; exact absurd h (by simp)

theorem StrictWeak.lt_of_lt_of_le {α : Type} {less : α → α → Bool} (hw : StrictWeak less)
    {a b c : α} (h1 : less a b = true) (h2 : less c b = false) : less a c = true := by
  cases h : less a c with
  | true => rfl
  | false => rw [hw.negtrans a c b h h2] at h1; exact absurd h1 (by simp)

theorem StrictWeak.lt_of_le_of_lt {α : Type} {less : α → α → Bool} (hw : StrictWeak less)
    {a b c : α} (h1 : less b a = false) (h2 : less b c = true) : less a c = true := by
  cases h : less a c with
  | true => rfl
  | false => rw [hw.negtrans b a c h1 h] at h2; exact absurd h2 (by simp)

theorem StrictWeak.le_trans {α : Type} {less : α → α → Bool} (hw : StrictWeak less)
    {a b c : α} (h1 : less b a = false) (h2 : less c b = false) : less c a = false :=
  hw.negtrans c b a h2 h1

theorem StrictWeak.le_of_lt {α : Type} {less : α → α → Bool} (hw : StrictWeak less)
    {a b : α} (h : less a b = true) : less b a = false :=
  hw.asymm a b h

/-! ### Sorted ranges -/

/-- Ascending order of neighbours is ascending order. -/
theorem SortedOn.of_adjacent {α : Type} {less : α → α → Bool} (hw : StrictWeak less) (d : α)
    (l : List α) (a b : Nat)
    (h : ∀ k, a < k → k < b → less (l.getD k d) (l.getD (k - 1) d) = false) :
    SortedOn less d l a b := by
  intro i j hai hij hjb
  induction j with
  | zero => omega
  | succ j ih =>
    by_cases hj : i = j
    · subst hj
      simpa using h (i + 1) (by omega) hjb
    · have h1 := ih (by omega) (by omega)
      have h2 := h (j + 1) (by omega) hjb
      simp only [Nat.add_sub_cancel] at h2
      exact hw.le_trans h1 h2

theorem SortedOn.sub {α : Type} {less : α → α → Bool} {d : α} {l : List α} {a b a1 b1 : Nat}
    (h : SortedOn less d l a b) (ha : a ≤ a1) (hb : b1 ≤ b) : SortedOn less d l a1 b1 :=
  fun i j h1 h2 h3 => h i j (by omega) h2 (by omega)

/-- A sorted range stays sorted when only positions outside of it change. -/
theorem SortedOn.of_outside {α : Type} {less : α → α → Bool} {d : α} {l l1 : List α}
    {a b : Nat} (h : SortedOn less d l a b)
    (he : ∀ k, a ≤ k → k < b → l1.getD k d = l.getD k d) : SortedOn less d l1 a b := by
  intro i j h1 h2 h3
  rw [he i h1 (by omega), he j (by omega) h3]
  exact h i j h1 h2 h3

/-- Two sorted ranges next to each other, the first below the second, are one sorted
range. -/
theorem SortedOn.append {α : Type} {less : α → α → Bool} {d : α} {l : List α} {a m b : Nat}
    (h1 : SortedOn less d l a m) (h2 : SortedOn less d l m b)
    (h3 : ∀ i j, a ≤ i → i < m → m ≤ j → j < b → less (l.getD j d) (l.getD i d) = false) :
    SortedOn less d l a b := by
  intro i j hi hij hj
  by_cases him : i < m
  · by_cases hjm : j < m
    · exact h1 i j hi hij hjm
    · exact h3 i j hi him (by omega) hj
  · exact h2 i j (by omega) hij hj

/-- A range that is sorted from end to end is a sorted list. -/
theorem SortedOn.pairwise {α : Type} {less : α → α → Bool} {d : α} {l : List α}
    (h : SortedOn less d l 0 l.length) : l.Pairwise (fun x y => less y x = false) := by
  rw [List.pairwise_iff_getElem]
  intro i j hi hj hij
  have := h i j (Nat.zero_le _) hij hj
  rwa [List.getD_eq_getElem _ d hi, List.getD_eq_getElem _ d hj] at this

/-! ### `insertionSort` -/

/-- The inner loop of the insertion sort, started at `j = lo + k` with everything from `a`
to `top` in order except the element at `j`, which is not above the ones after it, puts
the range from `a` to `top` in order. The loop runs down to `lo`; it does not pass `a`
when the element before `a` is not above any element of the range. -/
theorem insertDown_spec {α : Type} {less : α → α → Bool} (hw : StrictWeak less) (d : α)
    (lo a top : Nat) (hlo : lo ≤ a) :
    ∀ (k : Nat) (l : List α), a ≤ lo + k → lo + k ≤ top → top < l.length →
      (∀ p q, a ≤ p → p < q → q ≤ top → p ≠ lo + k → q ≠ lo + k →
        less (l.getD q d) (l.getD p d) = false) →
      (∀ q, lo + k < q → q ≤ top → less (l.getD q d) (l.getD (lo + k) d) = false) →
      (lo < a → ∀ q, a ≤ q → q ≤ top → less (l.getD q d) (l.getD (a - 1) d) = false) →
      Moved d a (top + 1) l (insertDown less lo k l) ∧
        SortedOn less d (insertDown less lo k l) a (top + 1) := by
  intro k
  induction k with
  | zero =>
    intro l h1 h2 h3 hI1 hI2 hLB
    refine ⟨Moved.refl _ _ _ _, ?_⟩
    intro i j hi hij hj
    show less (l.getD j d) (l.getD i d) = false
    by_cases hia : i = lo + 0
    · rw [hia]; exact hI2 j (by omega) (by omega)
    · exact hI1 i j hi hij (by omega) hia (by omega)
  | succ k ih =>
    intro l h1 h2 h3 hI1 hI2 hLB
    have hj : lo + k + 1 < l.length := by omega
    have hj1 : lo + k < l.length := by omega
    rw [insertDown, lessAt_eq less d l _ _ hj hj1]
    by_cases hless : less (l.getD (lo + k + 1) d) (l.getD (lo + k) d) = true
    · rw [if_pos hless]
      have haj : a ≤ lo + k := by
        by_contra hcon
        have hja : lo + k + 1 = a := by omega
        have := hLB (by omega) a (le_refl _) (by omega)
        rw [← hja] at this
        simp only [Nat.add_sub_cancel] at this
        rw [this] at hless
        exact absurd hless (by simp)
      have hget := fun x => getD_swapAt d l (lo + k + 1) (lo + k) x hj hj1
      have hm : Moved d a (top + 1) l (swapAt l (lo + k + 1) (lo + k)) :=
        Moved.swap d a (top + 1) l _ _ (by omega) (by omega) (by omega) haj (by omega)
      obtain ⟨hm2, hs⟩ := ih (swapAt l (lo + k + 1) (lo + k)) haj (by omega)
        (by rw [length_swapAt]; exact h3)
        (by
          intro p q hp hpq hq hpk hqk
          rw [hget p, hget q]
          by_cases hq1 : q = lo + k + 1
          · rw [if_neg hqk, if_pos hq1, if_neg hpk, if_neg (by omega)]
            exact hI1 p (lo + k) hp (by omega) (by omega) (by omega) (by omega)
          · rw [if_neg hqk, if_neg hq1, if_neg hpk]
            by_cases hp1 : p = lo + k + 1
            · rw [if_pos hp1]
              exact hI1 (lo + k) q haj (by omega) hq (by omega) (by omega)
            · rw [if_neg hp1]
              exact hI1 p q hp hpq hq (by omega) (by omega))
        (by
          intro q hq1 hq2
          rw [hget q, hget (lo + k), if_pos rfl, if_neg (by omega)]
          by_cases hq3 : q = lo + k + 1
          · rw [if_pos hq3]
            exact hw.asymm _ _ hless
          · rw [if_neg hq3]
            exact hI2 q (by omega) hq2)
        (by
          intro hloa q hq1 hq2
          rw [hget (a - 1), if_neg (by omega), if_neg (by omega)]
          obtain ⟨q1, hq3, hq4, hq5⟩ := hm.inside q hq1 (by omega)
          rw [hq5]
          exact hLB hloa q1 hq3 (by omega))
      exact ⟨hm.trans hm2, hs⟩
    · rw [if_neg hless]
      have hle : less (l.getD (lo + k + 1) d) (l.getD (lo + k) d) = false := by
        simpa using hless
      refine ⟨Moved.refl _ _ _ _, ?_⟩
      intro i j hi hij hjt
      show less (l.getD j d) (l.getD i d) = false
      by_cases hi1 : i = lo + (k + 1)
      · rw [hi1]; exact hI2 j (by omega) (by omega)
      · by_cases hj2 : j = lo + (k + 1)
        · by_cases hi2 : i = lo + k
          · rw [hj2, hi2]; exact hle
          · have h5 := hI1 i (lo + k) hi (by omega) (by omega) hi1 (by omega)
            rw [hj2]
            exact hw.le_trans h5 hle
        · exact hI1 i j hi hij (by omega) hi1 hj2

/-- The outer loop of the insertion sort. -/
theorem insertionSortFrom_spec {α : Type} {less : α → α → Bool} (hw : StrictWeak less) (d : α)
    (a : Nat) :
    ∀ (n i : Nat) (l : List α), a < i → i + n ≤ l.length → SortedOn less d l a i →
      Moved d a (i + n) l (insertionSortFrom less a n i l) ∧
        SortedOn less d (insertionSortFrom less a n i l) a (i + n) := by
  intro n
  induction n with
  | zero =>
    intro i l _ _ hs
    exact ⟨Moved.refl _ _ _ _, hs⟩
  | succ n ih =>
    intro i l hai hlen hs
    rw [insertionSortFrom]
    have hk : a + (i - a) = i := by omega
    obtain ⟨hm1, hs1⟩ := insertDown_spec hw d a a i (le_refl _) (i - a) l (by omega) (by omega)
      (by omega)
      (by
        intro p q hp hpq hq hpk hqk
        exact hs p q hp hpq (by omega))
      (by intro q hq1 hq2; omega)
      (by intro h; omega)
    have hlen1 : (insertDown less a (i - a) l).length = l.length := hm1.length_eq
    obtain ⟨hm2, hs2⟩ := ih (i + 1) (insertDown less a (i - a) l) (by omega)
      (by rw [hlen1]; omega) hs1
    have e : i + 1 + n = i + (n + 1) := by omega
    rw [e] at hm2 hs2
    exact ⟨(hm1.mono (le_refl _) (by omega)).trans hm2, hs2⟩

/-- `insertionSort(data, a, b)` sorts the range from `a` to `b - 1`. -/
theorem insertionSort_spec {α : Type} {less : α → α → Bool} (hw : StrictWeak less) (d : α)
    (l : List α) (a b : Nat) (hb : b ≤ l.length) :
    Moved d a b l (insertionSort less l a b) ∧ SortedOn less d (insertionSort less l a b) a b := by
  unfold insertionSort
  by_cases hab : a + 1 ≤ b
  · have h := insertionSortFrom_spec hw d a (b - (a + 1)) (a + 1) l (by omega) (by omega)
      (by intro i j h1 h2 h3; omega)
    have e : a + 1 + (b - (a + 1)) = b := by omega
    rw [e] at h
    exact h
  · have e : b - (a + 1) = 0 := by omega
    rw [e]
    exact ⟨Moved.refl _ _ _ _, by intro i j h1 h2 h3; omega⟩

/-! ### `heapSort` -/

/-- `siftDown` restores the heap property below `lo` when it only fails at `root`. -/
theorem siftDown_spec {α : Type} {less : α → α → Bool} (hw : StrictWeak less) (d : α)
    (hi first lo : Nat) :
    ∀ (fuel root : Nat) (l : List α), hi - root ≤ fuel → lo ≤ root → first + hi ≤ l.length →
      (∀ c, c < hi → 1 ≤ c → lo ≤ (c - 1) / 2 → (c - 1) / 2 ≠ root →
        less (l.getD (first + (c - 1) / 2) d) (l.getD (first + c) d) = false) →
      (lo < root → ∀ c, c < hi → 1 ≤ c → (c - 1) / 2 = root →
        less (l.getD (first + (root - 1) / 2) d) (l.getD (first + c) d) = false) →
      Moved d (first + lo) (first + hi) l (siftDown less hi first fuel root l) ∧
        HeapFrom less d first lo hi (siftDown less hi first fuel root l) := by
  intro fuel
  induction fuel with
  | zero =>
    intro root l hf hlo hlen hI1 hI2
    refine ⟨Moved.refl _ _ _ _, ?_⟩
    intro c hc1 hc2 hc3
    exact hI1 c hc1 hc2 hc3 (by omega)
  | succ fuel ih =>
    intro root l hf hlo hlen hI1 hI2
    rw [siftDown]
    simp only []
    by_cases hch : 2 * root + 1 ≥ hi
    · rw [if_pos hch]
      refine ⟨Moved.refl _ _ _ _, ?_⟩
      intro c hc1 hc2 hc3
      exact hI1 c hc1 hc2 hc3 (by omega)
    · rw [if_neg hch]
      -- the greater child
      obtain ⟨child, hchild, hcd, hclt, hmax⟩ : ∃ child,
          (if (decide (2 * root + 1 + 1 < hi) &&
              lessAt less l (first + (2 * root + 1)) (first + (2 * root + 1) + 1)) = true
            then 2 * root + 1 + 1 else 2 * root + 1) = child ∧
          (child = 2 * root + 1 ∨ child = 2 * root + 2) ∧ child < hi ∧
          (∀ c, c < hi → 1 ≤ c → (c - 1) / 2 = root →
            less (l.getD (first + child) d) (l.getD (first + c) d) = false) := by
        by_cases h2 : 2 * root + 1 + 1 < hi
        · have e := lessAt_eq less d l (first + (2 * root + 1)) (first + (2 * root + 1) + 1)
            (by omega) (by omega)
          by_cases h3 : less (l.getD (first + (2 * root + 1)) d)
              (l.getD (first + (2 * root + 1) + 1) d) = true
          · refine ⟨2 * root + 2, by rw [e, h3]; simp [h2], Or.inr rfl, by omega, ?_⟩
            intro c hc1 hc2 hc3
            have hc : c = 2 * root + 1 ∨ c = 2 * root + 2 := by omega
            rcases hc with rfl | rfl
            · exact hw.asymm _ _ h3
            · exact hw.irrefl _
          · have h3f := (Bool.not_eq_true _).mp h3
            refine ⟨2 * root + 1, by rw [e, h3f]; simp, Or.inl rfl, by omega, ?_⟩
            intro c hc1 hc2 hc3
            have hc : c = 2 * root + 1 ∨ c = 2 * root + 2 := by omega
            rcases hc with rfl | rfl
            · exact hw.irrefl _
            · exact h3f
        · refine ⟨2 * root + 1, by simp [h2], Or.inl rfl, by omega, ?_⟩
          intro c hc1 hc2 hc3
          have hc : c = 2 * root + 1 := by omega
          subst hc
          exact hw.irrefl _
      rw [hchild]
      have hr : first + root < l.length := by omega
      have hc : first + child < l.length := by omega
      rw [lessAt_eq less d l _ _ hr hc]
      by_cases hless : less (l.getD (first + root) d) (l.getD (first + child) d) = true
      · rw [hless]
        simp only [Bool.not_true, Bool.false_eq_true, if_false]
        have hget := fun x => getD_swapAt d l (first + root) (first + child) x hr hc
        have hm : Moved d (first + lo) (first + hi) l
            (swapAt l (first + root) (first + child)) :=
          Moved.swap d _ _ l _ _ hlen (by omega) (by omega) (by omega) (by omega)
        obtain ⟨hm2, hh⟩ := ih child (swapAt l (first + root) (first + child)) (by omega)
          (by omega) (by rw [length_swapAt]; exact hlen)
          (by
            intro c hc1 hc2 hc3 hc4
            rw [hget (first + (c - 1) / 2), hget (first + c)]
            by_cases hp : (c - 1) / 2 = root
            · rw [if_neg (by omega), if_pos (by omega)]
              by_cases hcc : c = child
              · rw [if_pos (by omega)]
                exact hw.asymm _ _ hless
              · rw [if_neg (by omega), if_neg (by omega)]
                exact hmax c hc1 hc2 hp
            · rw [if_neg (by omega), if_neg (by omega)]
              by_cases hcr : c = root
              · rw [if_neg (by omega), if_pos (by omega)]
                have := hI2 (by omega) child hclt (by omega) (by omega)
                rw [hcr] at hc3 ⊢
                exact this
              · rw [if_neg (by omega), if_neg (by omega)]
                exact hI1 c hc1 hc2 hc3 hp)
          (by
            intro hlc c hc1 hc2 hc3
            have hpar : (child - 1) / 2 = root := by omega
            rw [hget (first + (child - 1) / 2), hget (first + c), hpar, if_neg (by omega),
              if_pos rfl, if_neg (by omega), if_neg (by omega)]
            have := hI1 c hc1 hc2 (by omega) (by omega)
            rw [hc3] at this
            exact this)
        exact ⟨hm.trans hm2, hh⟩
      · have hle : less (l.getD (first + root) d) (l.getD (first + child) d) = false :=
          (Bool.not_eq_true _).mp hless
        rw [hle]
        simp only [Bool.not_false, if_true]
        refine ⟨Moved.refl _ _ _ _, ?_⟩
        intro c hc1 hc2 hc3
        by_cases hp : (c - 1) / 2 = root
        · rw [hp]
          exact hw.le_trans (hmax c hc1 hc2 hp) hle
        · exact hI1 c hc1 hc2 hc3 hp

/-- The root of a heap is not below any of its nodes. -/
theorem HeapFrom.root_max {α : Type} {less : α → α → Bool} (hw : StrictWeak less) {d : α}
    {first hi : Nat} {l : List α} (h : HeapFrom less d first 0 hi l) :
    ∀ c, c < hi → less (l.getD (first + 0) d) (l.getD (first + c) d) = false := by
  intro c
  induction c using Nat.strong_induction_on with
  | _ c ih =>
    intro hc
    by_cases h0 : c = 0
    · subst h0; exact hw.irrefl _
    · have h1 := ih ((c - 1) / 2) (by omega) (by omega)
      have h2 := h c hc (by omega) (Nat.zero_le _)
      exact hw.le_trans h2 h1

/-- The first loop of `heapSort` builds a heap. -/
theorem heapBuild_spec {α : Type} {less : α → α → Bool} (hw : StrictWeak less) (d : α)
    (hi first : Nat) :
    ∀ (cnt : Nat) (l : List α), first + hi ≤ l.length → HeapFrom less d first cnt hi l →
      Moved d first (first + hi) l (heapBuild less hi first cnt l) ∧
        HeapFrom less d first 0 hi (heapBuild less hi first cnt l) := by
  intro cnt
  induction cnt with
  | zero =>
    intro l _ hh
    exact ⟨Moved.refl _ _ _ _, hh⟩
  | succ i ih =>
    intro l hlen hh
    rw [heapBuild]
    obtain ⟨hm1, hh1⟩ := siftDown_spec hw d hi first i hi i l (by omega) (le_refl _) hlen
      (by
        intro c hc1 hc2 hc3 hc4
        exact hh c hc1 hc2 (by omega))
      (by intro h; omega)
    obtain ⟨hm2, hh2⟩ := ih (siftDown less hi first hi i l) (by rw [hm1.length_eq]; exact hlen)
      hh1
    exact ⟨(hm1.mono (by omega) (le_refl _)).trans hm2, hh2⟩

/-- The second loop of `heapSort`: with a heap on the first `cnt` positions and the larger
elements in order behind it, the whole range ends up in order. -/
theorem heapPop_spec {α : Type} {less : α → α → Bool} (hw : StrictWeak less) (d : α)
    (hi first : Nat) :
    ∀ (cnt : Nat) (l : List α), cnt ≤ hi → first + hi ≤ l.length →
      HeapFrom less d first 0 cnt l →
      (∀ x y, cnt ≤ x → x < y → y < hi →
        less (l.getD (first + y) d) (l.getD (first + x) d) = false) →
      (∀ x y, x < cnt → cnt ≤ y → y < hi →
        less (l.getD (first + y) d) (l.getD (first + x) d) = false) →
      Moved d first (first + hi) l (heapPop less first cnt l) ∧
        (∀ x y, x < y → y < hi →
          less ((heapPop less first cnt l).getD (first + y) d)
            ((heapPop less first cnt l).getD (first + x) d) = false) := by
  intro cnt
  induction cnt with
  | zero =>
    intro l _ _ _ hs _
    exact ⟨Moved.refl _ _ _ _, fun x y h1 h2 => hs x y (Nat.zero_le _) h1 h2⟩
  | succ i ih =>
    intro l hcnt hlen hh hs hcross
    rw [heapPop]
    have h0 : first < l.length := by omega
    have hi1 : first + i < l.length := by omega
    have hget := fun x => getD_swapAt d l first (first + i) x h0 hi1
    have hm0 : Moved d first (first + hi) l (swapAt l first (first + i)) :=
      Moved.swap d _ _ l _ _ hlen (le_refl _) (by omega) (by omega) (by omega)
    obtain ⟨hm1, hh1⟩ := siftDown_spec hw d i first 0 i 0 (swapAt l first (first + i))
      (by omega) (le_refl _) (by rw [length_swapAt]; omega)
      (by
        intro c hc1 hc2 hc3 hc4
        rw [hget (first + (c - 1) / 2), hget (first + c), if_neg (by omega), if_neg (by omega),
          if_neg (by omega), if_neg (by omega)]
        exact hh c (by omega) hc2 (Nat.zero_le _))
      (by intro h; omega)
    have hmax := hh.root_max hw
    -- what the positions of the new list hold
    have hfrom : ∀ x, x < i → ∃ x1, x1 < i + 1 ∧
        (siftDown less i first i 0 (swapAt l first (first + i))).getD (first + x) d =
          l.getD (first + x1) d := by
      intro x hx
      obtain ⟨k1, hk1, hk2, hk3⟩ := hm1.inside (first + x) (by omega) (by omega)
      rw [hk3, hget k1]
      by_cases e1 : k1 = first + i
      · omega
      · rw [if_neg e1]
        by_cases e2 : k1 = first
        · rw [if_pos e2]; exact ⟨i, by omega, rfl⟩
        · rw [if_neg e2]
          refine ⟨k1 - first, by omega, ?_⟩
          congr 1; omega
    have hkeep : ∀ y, i ≤ y →
        (siftDown less i first i 0 (swapAt l first (first + i))).getD (first + y) d =
          if y = i then l.getD first d else l.getD (first + y) d := by
      intro y hy
      rw [hm1.outside (first + y) (by omega), hget (first + y)]
      by_cases e1 : y = i
      · rw [if_pos (by omega), if_pos e1]
      · rw [if_neg (by omega), if_neg (by omega), if_neg e1]
    obtain ⟨hm2, hs2⟩ := ih (siftDown less i first i 0 (swapAt l first (first + i)))
      (by omega) (by rw [hm1.length_eq, length_swapAt]; exact hlen) hh1
      (by
        intro x y hx hxy hy
        rw [hkeep y (by omega), hkeep x hx, if_neg (by omega)]
        by_cases e1 : x = i
        · rw [if_pos e1]
          have := hcross 0 y (by omega) (by omega) hy
          simpa using this
        · rw [if_neg e1]
          exact hs x y (by omega) hxy hy)
      (by
        intro x y hx hy1 hy2
        obtain ⟨x1, hx1, hx2⟩ := hfrom x hx
        rw [hx2, hkeep y hy1]
        by_cases e1 : y = i
        · rw [if_pos e1]
          have := hmax x1 hx1
          simpa using this
        · rw [if_neg e1]
          exact hcross x1 y hx1 (by omega) hy2)
    exact ⟨hm0.trans ((hm1.mono (by omega) (by omega)).trans hm2), hs2⟩

/-- `heapSort(data, a, b)` sorts the range from `a` to `b - 1`. -/
theorem heapSort_spec {α : Type} {less : α → α → Bool} (hw : StrictWeak less) (d : α)
    (l : List α) (a b : Nat) (hab : a ≤ b) (hb : b ≤ l.length) :
    Moved d a b l (heapSort less l a b) ∧ SortedOn less d (heapSort less l a b) a b := by
  unfold heapSort
  simp only []
  obtain ⟨hm1, hh1⟩ := heapBuild_spec hw d (b - a) a ((b - a - 1) / 2 + 1) l (by omega)
    (by intro c hc1 hc2 hc3; omega)
  obtain ⟨hm2, hs2⟩ := heapPop_spec hw d (b - a) a (b - a)
    (heapBuild less (b - a) a ((b - a - 1) / 2 + 1) l) (le_refl _)
    (by rw [hm1.length_eq]; omega) hh1 (by intro x y h1 h2 h3; omega)
    (by intro x y h1 h2 h3; omega)
  have e : a + (b - a) = b := by omega
  rw [e] at hm1 hm2
  refine ⟨hm1.trans hm2, ?_⟩
  intro i j hi hij hj
  have := hs2 (i - a) (j - a) (by omega) (by omega)
  have e1 : a + (i - a) = i := by omega
  have e2 : a + (j - a) = j := by omega
  rw [e1, e2] at this
  exact this

/-! ### The scans of `partition` and `partitionEqual` -/

theorem scanLessUp_spec {α : Type} (less : α → α → Bool) (d : α) (l : List α) (a : Nat)
    (ha : a < l.length) :
    ∀ (n i : Nat), i + n ≤ l.length →
      i ≤ scanLessUp less l a n i ∧ scanLessUp less l a n i ≤ i + n ∧
      (∀ k, i ≤ k → k < scanLessUp less l a n i → less (l.getD k d) (l.getD a d) = true) ∧
      (scanLessUp less l a n i < i + n →
        less (l.getD (scanLessUp less l a n i) d) (l.getD a d) = false) := by
  intro n
  induction n with
  | zero =>
    intro i _
    simp only [scanLessUp]
    exact ⟨le_refl _, by omega, fun k h1 h2 => by omega, fun h => by omega⟩
  | succ n ih =>
    intro i hlen
    rw [scanLessUp, lessAt_eq less d l i a (by omega) ha]
    by_cases h : less (l.getD i d) (l.getD a d) = true
    · rw [if_pos h]
      obtain ⟨h1, h2, h3, h4⟩ := ih (i + 1) (by omega)
      refine ⟨by omega, by omega, ?_, ?_⟩
      · intro k hk1 hk2
        by_cases e : k = i
        · rw [e]; exact h
        · exact h3 k (by omega) hk2
      · intro hlt
        exact h4 (by omega)
    · rw [if_neg h]
      exact ⟨le_refl _, by omega, fun k h1 h2 => by omega, fun _ => (Bool.not_eq_true _).mp h⟩

theorem scanNotLessDown_spec {α : Type} (less : α → α → Bool) (d : α) (l : List α) (a : Nat)
    (ha : a < l.length) :
    ∀ (n j : Nat), n ≤ j → j < l.length →
      scanNotLessDown less l a n j ≤ j ∧ j ≤ scanNotLessDown less l a n j + n ∧
      (∀ k, scanNotLessDown less l a n j < k → k ≤ j →
        less (l.getD k d) (l.getD a d) = false) ∧
      (j < scanNotLessDown less l a n j + n →
        less (l.getD (scanNotLessDown less l a n j) d) (l.getD a d) = true) := by
  intro n
  induction n with
  | zero =>
    intro j _ _
    simp only [scanNotLessDown]
    exact ⟨le_refl _, by omega, fun k h1 h2 => by omega, fun h => by omega⟩
  | succ n ih =>
    intro j hn hlen
    rw [scanNotLessDown, lessAt_eq less d l j a hlen ha]
    by_cases h : less (l.getD j d) (l.getD a d) = true
    · rw [h]
      simp only [Bool.not_true, Bool.false_eq_true, if_false]
      exact ⟨le_refl _, by omega, fun k h1 h2 => by omega, fun _ => h⟩
    · have hf := (Bool.not_eq_true _).mp h
      rw [hf]
      simp only [Bool.not_false, if_true]
      obtain ⟨h1, h2, h3, h4⟩ := ih (j - 1) (by omega) (by omega)
      refine ⟨by omega, by omega, ?_, ?_⟩
      · intro k hk1 hk2
        by_cases e : k = j
        · rw [e]; exact hf
        · exact h3 k hk1 (by omega)
      · intro hlt
        exact h4 (by omega)

theorem scanNotLessUp_spec {α : Type} (less : α → α → Bool) (d : α) (l : List α) (a : Nat)
    (ha : a < l.length) :
    ∀ (n i : Nat), i + n ≤ l.length →
      i ≤ scanNotLessUp less l a n i ∧ scanNotLessUp less l a n i ≤ i + n ∧
      (∀ k, i ≤ k → k < scanNotLessUp less l a n i →
        less (l.getD a d) (l.getD k d) = false) ∧
      (scanNotLessUp less l a n i < i + n →
        less (l.getD a d) (l.getD (scanNotLessUp less l a n i) d) = true) := by
  intro n
  induction n with
  | zero =>
    intro i _
    simp only [scanNotLessUp]
    exact ⟨le_refl _, by omega, fun k h1 h2 => by omega, fun h => by omega⟩
  | succ n ih =>
    intro i hlen
    rw [scanNotLessUp, lessAt_eq less d l a i ha (by omega)]
    by_cases h : less (l.getD a d) (l.getD i d) = true
    · rw [h]
      simp only [Bool.not_true, Bool.false_eq_true, if_false]
      exact ⟨le_refl _, by omega, fun k h1 h2 => by omega, fun _ => h⟩
    · have hf := (Bool.not_eq_true _).mp h
      rw [hf]
      simp only [Bool.not_false, if_true]
      obtain ⟨h1, h2, h3, h4⟩ := ih (i + 1) (by omega)
      refine ⟨by omega, by omega, ?_, ?_⟩
      · intro k hk1 hk2
        by_cases e : k = i
        · rw [e]; exact hf
        · exact h3 k (by omega) hk2
      · intro hlt
        exact h4 (by omega)

theorem scanLessDown_spec {α : Type} (less : α → α → Bool) (d : α) (l : List α) (a : Nat)
    (ha : a < l.length) :
    ∀ (n j : Nat), n ≤ j → j < l.length →
      scanLessDown less l a n j ≤ j ∧ j ≤ scanLessDown less l a n j + n ∧
      (∀ k, scanLessDown less l a n j < k → k ≤ j →
        less (l.getD a d) (l.getD k d) = true) ∧
      (j < scanLessDown less l a n j + n →
        less (l.getD a d) (l.getD (scanLessDown less l a n j) d) = false) := by
  intro n
  induction n with
  | zero =>
    intro j _ _
    simp only [scanLessDown]
    exact ⟨le_refl _, by omega, fun k h1 h2 => by omega, fun h => by omega⟩
  | succ n ih =>
    intro j hn hlen
    rw [scanLessDown, lessAt_eq less d l a j ha hlen]
    by_cases h : less (l.getD a d) (l.getD j d) = true
    · rw [if_pos h]
      obtain ⟨h1, h2, h3, h4⟩ := ih (j - 1) (by omega) (by omega)
      refine ⟨by omega, by omega, ?_, ?_⟩
      · intro k hk1 hk2
        by_cases e : k = j
        · rw [e]; exact h
        · exact h3 k hk1 (by omega)
      · intro hlt
        exact h4 (by omega)
    · rw [if_neg h]
      exact ⟨le_refl _, by omega, fun k h1 h2 => by omega, fun _ => (Bool.not_eq_true _).mp h⟩

/-! ### `partition` -/

/-- The two scans of a round of `partition`: what lies before `i` is below the pivot, what
lies after `j` is not, and if the scans have not met they stopped at two elements that are
out of place. -/
theorem partition_scans {α : Type} (less : α → α → Bool) (d : α) (a b : Nat) (l : List α)
    (i j : Nat) (hai : a < i) (hij : i ≤ j + 1) (hjb : j < b) (hlen : b ≤ l.length)
    (hI1 : ∀ k, a < k → k < i → less (l.getD k d) (l.getD a d) = true)
    (hI2 : ∀ k, j < k → k < b → less (l.getD k d) (l.getD a d) = false) :
    ∃ i1 j1, scanLessUp less l a (j + 1 - i) i = i1 ∧
      scanNotLessDown less l a (j + 1 - i1) j = j1 ∧
      i ≤ i1 ∧ j1 ≤ j ∧ i1 ≤ j1 + 1 ∧
      (∀ k, a < k → k < i1 → less (l.getD k d) (l.getD a d) = true) ∧
      (∀ k, j1 < k → k < b → less (l.getD k d) (l.getD a d) = false) ∧
      (i1 ≤ j1 → i1 < j1 ∧ less (l.getD i1 d) (l.getD a d) = false ∧
        less (l.getD j1 d) (l.getD a d) = true) := by
  obtain ⟨s1, s2, s3, s4⟩ := scanLessUp_spec less d l a (by omega) (j + 1 - i) i (by omega)
  generalize hi1 : scanLessUp less l a (j + 1 - i) i = i1 at s1 s2 s3 s4
  obtain ⟨t1, t2, t3, t4⟩ := scanNotLessDown_spec less d l a (by omega) (j + 1 - i1) j
    (by omega) (by omega)
  generalize hj1 : scanNotLessDown less l a (j + 1 - i1) j = j1 at t1 t2 t3 t4
  refine ⟨i1, j1, rfl, hj1, s1, t1, by omega, ?_, ?_, ?_⟩
  · intro k hk1 hk2
    by_cases hk : k < i
    · exact hI1 k hk1 hk
    · exact s3 k (by omega) hk2
  · intro k hk1 hk2
    by_cases hk : k ≤ j
    · exact t3 k hk1 hk
    · exact hI2 k (by omega) hk2
  · intro hle
    have h1 := s4 (by omega)
    have h2 := t4 (by omega)
    refine ⟨?_, h1, h2⟩
    by_contra hcon
    have e : i1 = j1 := by omega
    rw [e, h2] at h1
    exact absurd h1 (by simp)

/-- The swap of a round of `partition`. -/
theorem partition_swap {α : Type} (less : α → α → Bool) (d : α) (a b : Nat) (l : List α)
    (i1 j1 : Nat) (hai : a < i1) (hij : i1 < j1) (hjb : j1 < b) (hlen : b ≤ l.length)
    (hI1 : ∀ k, a < k → k < i1 → less (l.getD k d) (l.getD a d) = true)
    (hI2 : ∀ k, j1 < k → k < b → less (l.getD k d) (l.getD a d) = false)
    (h1 : less (l.getD i1 d) (l.getD a d) = false)
    (h2 : less (l.getD j1 d) (l.getD a d) = true) :
    Moved d (a + 1) b l (swapAt l i1 j1) ∧ (swapAt l i1 j1).getD a d = l.getD a d ∧
      (∀ k, a < k → k < i1 + 1 →
        less ((swapAt l i1 j1).getD k d) ((swapAt l i1 j1).getD a d) = true) ∧
      (∀ k, j1 - 1 < k → k < b →
        less ((swapAt l i1 j1).getD k d) ((swapAt l i1 j1).getD a d) = false) := by
  have hget := fun x => getD_swapAt d l i1 j1 x (by omega) (by omega)
  have hm : Moved d (a + 1) b l (swapAt l i1 j1) :=
    Moved.swap d _ _ l _ _ hlen (by omega) (by omega) (by omega) (by omega)
  have ea : (swapAt l i1 j1).getD a d = l.getD a d := by
    rw [hget a, if_neg (by omega), if_neg (by omega)]
  refine ⟨hm, ea, ?_, ?_⟩
  · intro k hk1 hk2
    rw [ea, hget k, if_neg (by omega)]
    by_cases e : k = i1
    · rw [if_pos e]; exact h2
    · rw [if_neg e]; exact hI1 k hk1 (by omega)
  · intro k hk1 hk2
    rw [ea, hget k]
    by_cases e : k = j1
    · rw [if_pos e]; exact h1
    · rw [if_neg e, if_neg (by omega)]; exact hI2 k (by omega) hk2

/-- The loop of `partition`: at the end everything from `a + 1` to `j` is below the pivot,
which is at `a`, and nothing after `j` is. -/
theorem partitionLoop_spec {α : Type} (less : α → α → Bool) (d : α) (a b : Nat) :
    ∀ (fuel : Nat) (l : List α) (i j : Nat), a < i → i ≤ j + 1 → j < b → b ≤ l.length →
      j + 1 - i ≤ fuel →
      (∀ k, a < k → k < i → less (l.getD k d) (l.getD a d) = true) →
      (∀ k, j < k → k < b → less (l.getD k d) (l.getD a d) = false) →
      Moved d (a + 1) b l (partitionLoop less a fuel l i j).1 ∧
        a ≤ (partitionLoop less a fuel l i j).2 ∧ (partitionLoop less a fuel l i j).2 < b ∧
        (∀ k, a < k → k ≤ (partitionLoop less a fuel l i j).2 →
          less ((partitionLoop less a fuel l i j).1.getD k d) (l.getD a d) = true) ∧
        (∀ k, (partitionLoop less a fuel l i j).2 < k → k < b →
          less ((partitionLoop less a fuel l i j).1.getD k d) (l.getD a d) = false) := by
  intro fuel
  induction fuel with
  | zero =>
    intro l i j hai hij hjb hlen hf hI1 hI2
    simp only [partitionLoop]
    exact ⟨Moved.refl _ _ _ _, by omega, hjb, fun k h1 h2 => hI1 k h1 (by omega), hI2⟩
  | succ fuel ih =>
    intro l i j hai hij hjb hlen hf hI1 hI2
    rw [partitionLoop]
    obtain ⟨i1, j1, e1, e2, g1, g2, g3, g4, g5, g6⟩ :=
      partition_scans less d a b l i j hai hij hjb hlen hI1 hI2
    rw [e1, e2]
    by_cases hgt : i1 > j1
    · rw [if_pos hgt]
      dsimp only
      exact ⟨Moved.refl _ _ _ _, by omega, by omega, fun k h1 h2 => g4 k h1 (by omega), g5⟩
    · rw [if_neg hgt]
      obtain ⟨g7, g8, g9⟩ := g6 (by omega)
      obtain ⟨hm, ea, w1, w2⟩ := partition_swap less d a b l i1 j1 (by omega) g7 (by omega) hlen
        g4 g5 g8 g9
      obtain ⟨r1, r2, r3, r4, r5⟩ := ih (swapAt l i1 j1) (i1 + 1) (j1 - 1) (by omega)
        (by omega) (by omega) (by rw [length_swapAt]; exact hlen) (by omega) w1 w2
      rw [ea] at r4 r5
      exact ⟨hm.trans r1, r2, r3, r4, r5⟩

/-- The last swap of `partition`, which puts the pivot between the two parts. -/
theorem partition_finish {α : Type} (less : α → α → Bool) (d : α) (a b : Nat) (l : List α)
    (j : Nat) (haj : a ≤ j) (hjb : j < b) (hlen : b ≤ l.length)
    (h1 : ∀ k, a < k → k ≤ j → less (l.getD k d) (l.getD a d) = true)
    (h2 : ∀ k, j < k → k < b → less (l.getD k d) (l.getD a d) = false) :
    Moved d a b l (swapAt l j a) ∧
      (∀ k, a ≤ k → k < j →
        less ((swapAt l j a).getD k d) ((swapAt l j a).getD j d) = true) ∧
      (∀ k, j < k → k < b →
        less ((swapAt l j a).getD k d) ((swapAt l j a).getD j d) = false) := by
  have hget := fun x => getD_swapAt d l j a x (by omega) (by omega)
  have ej : (swapAt l j a).getD j d = l.getD a d := by
    rw [hget j]
    by_cases e : j = a
    · rw [if_pos e, e]
    · rw [if_neg e, if_pos rfl]
  refine ⟨Moved.swap d _ _ l _ _ hlen haj hjb (le_refl _) (by omega), ?_, ?_⟩
  · intro k hk1 hk2
    rw [ej, hget k]
    by_cases e : k = a
    · rw [if_pos e]; exact h1 j (by omega) (le_refl _)
    · rw [if_neg e, if_neg (by omega)]; exact h1 k (by omega) (by omega)
  · intro k hk1 hk2
    rw [ej, hget k, if_neg (by omega), if_neg (by omega)]
    exact h2 k hk1 hk2

/-- `partition(data, a, b, pivot)` moves the elements of the range around a position
`newpivot` of the range: everything before it is below the element at it, and nothing
after it is. -/
theorem partition_spec {α : Type} (less : α → α → Bool) (d : α) (l : List α) (a b pivot : Nat)
    (hap : a ≤ pivot) (hpb : pivot < b) (hb : b ≤ l.length) :
    Moved d a b l (partition less l a b pivot).1 ∧
      a ≤ (partition less l a b pivot).2.1 ∧ (partition less l a b pivot).2.1 < b ∧
      (∀ k, a ≤ k → k < (partition less l a b pivot).2.1 →
        less ((partition less l a b pivot).1.getD k d)
          ((partition less l a b pivot).1.getD (partition less l a b pivot).2.1 d) = true) ∧
      (∀ k, (partition less l a b pivot).2.1 < k → k < b →
        less ((partition less l a b pivot).1.getD k d)
          ((partition less l a b pivot).1.getD (partition less l a b pivot).2.1 d) = false) := by
  have hm0 : Moved d a b l (swapAt l a pivot) :=
    Moved.swap d _ _ l _ _ hb (le_refl _) (by omega) hap hpb
  have hlen0 : b ≤ (swapAt l a pivot).length := by rw [length_swapAt]; exact hb
  unfold partition
  simp only []
  obtain ⟨i1, j1, e1, e2, g1, g2, g3, g4, g5, g6⟩ :=
    partition_scans less d a b (swapAt l a pivot) (a + 1) (b - 1) (by omega) (by omega)
      (by omega) hlen0 (fun k h1 h2 => by omega) (fun k h1 h2 => by omega)
  rw [e1, e2]
  by_cases hgt : i1 > j1
  · rw [if_pos hgt]
    dsimp only
    obtain ⟨f1, f2, f3⟩ := partition_finish less d a b (swapAt l a pivot) j1 (by omega)
      (by omega) hlen0 (fun k h1 h2 => g4 k h1 (by omega)) g5
    exact ⟨hm0.trans f1, by omega, by omega, f2, f3⟩
  · rw [if_neg hgt]
    dsimp only
    obtain ⟨g7, g8, g9⟩ := g6 (by omega)
    obtain ⟨hm, ea, w1, w2⟩ := partition_swap less d a b (swapAt l a pivot) i1 j1 (by omega) g7
      (by omega) hlen0 g4 g5 g8 g9
    obtain ⟨r1, r2, r3, r4, r5⟩ := partitionLoop_spec less d a b (j1 - 1 + 1 - (i1 + 1))
      (swapAt (swapAt l a pivot) i1 j1) (i1 + 1) (j1 - 1) (by omega)
      (by omega) (by omega) (by rw [length_swapAt]; exact hlen0) (le_refl _) w1 w2
    generalize partitionLoop less a (j1 - 1 + 1 - (i1 + 1))
      (swapAt (swapAt l a pivot) i1 j1) (i1 + 1) (j1 - 1) = r at r1 r2 r3 r4 r5 ⊢
    have ea2 : r.1.getD a d = (swapAt (swapAt l a pivot) i1 j1).getD a d :=
      r1.outside a (by omega)
    rw [← ea2] at r4 r5
    obtain ⟨f1, f2, f3⟩ := partition_finish less d a b r.1 r.2 r2 r3
      (by rw [r1.length_eq, length_swapAt]; exact hlen0) r4 r5
    exact ⟨hm0.trans (((hm.trans r1).mono (by omega) (le_refl _)).trans f1), r2, r3, f2, f3⟩

/-! ### `partitionEqual` -/

/-- The two scans of a round of `partitionEqual`. -/
theorem partitionEqual_scans {α : Type} (less : α → α → Bool) (d : α) (a b : Nat) (l : List α)
    (i j : Nat) (hai : a < i) (hij : i ≤ j + 1) (hjb : j < b) (hlen : b ≤ l.length)
    (hI1 : ∀ k, a < k → k < i → less (l.getD a d) (l.getD k d) = false)
    (hI2 : ∀ k, j < k → k < b → less (l.getD a d) (l.getD k d) = true) :
    ∃ i1 j1, scanNotLessUp less l a (j + 1 - i) i = i1 ∧
      scanLessDown less l a (j + 1 - i1) j = j1 ∧
      i ≤ i1 ∧ j1 ≤ j ∧ i1 ≤ j1 + 1 ∧
      (∀ k, a < k → k < i1 → less (l.getD a d) (l.getD k d) = false) ∧
      (∀ k, j1 < k → k < b → less (l.getD a d) (l.getD k d) = true) ∧
      (i1 ≤ j1 → i1 < j1 ∧ less (l.getD a d) (l.getD i1 d) = true ∧
        less (l.getD a d) (l.getD j1 d) = false) := by
  obtain ⟨s1, s2, s3, s4⟩ := scanNotLessUp_spec less d l a (by omega) (j + 1 - i) i (by omega)
  generalize hi1 : scanNotLessUp less l a (j + 1 - i) i = i1 at s1 s2 s3 s4
  obtain ⟨t1, t2, t3, t4⟩ := scanLessDown_spec less d l a (by omega) (j + 1 - i1) j
    (by omega) (by omega)
  generalize hj1 : scanLessDown less l a (j + 1 - i1) j = j1 at t1 t2 t3 t4
  refine ⟨i1, j1, rfl, hj1, s1, t1, by omega, ?_, ?_, ?_⟩
  · intro k hk1 hk2
    by_cases hk : k < i
    · exact hI1 k hk1 hk
    · exact s3 k (by omega) hk2
  · intro k hk1 hk2
    by_cases hk : k ≤ j
    · exact t3 k hk1 hk
    · exact hI2 k (by omega) hk2
  · intro hle
    have h1 := s4 (by omega)
    have h2 := t4 (by omega)
    refine ⟨?_, h1, h2⟩
    by_contra hcon
    have e : i1 = j1 := by omega
    rw [e, h2] at h1
    exact absurd h1 (by simp)

/-- The swap of a round of `partitionEqual`. -/
theorem partitionEqual_swap {α : Type} (less : α → α → Bool) (d : α) (a b : Nat) (l : List α)
    (i1 j1 : Nat) (hai : a < i1) (hij : i1 < j1) (hjb : j1 < b) (hlen : b ≤ l.length)
    (hI1 : ∀ k, a < k → k < i1 → less (l.getD a d) (l.getD k d) = false)
    (hI2 : ∀ k, j1 < k → k < b → less (l.getD a d) (l.getD k d) = true)
    (h1 : less (l.getD a d) (l.getD i1 d) = true)
    (h2 : less (l.getD a d) (l.getD j1 d) = false) :
    Moved d (a + 1) b l (swapAt l i1 j1) ∧ (swapAt l i1 j1).getD a d = l.getD a d ∧
      (∀ k, a < k → k < i1 + 1 →
        less ((swapAt l i1 j1).getD a d) ((swapAt l i1 j1).getD k d) = false) ∧
      (∀ k, j1 - 1 < k → k < b →
        less ((swapAt l i1 j1).getD a d) ((swapAt l i1 j1).getD k d) = true) := by
  have hget := fun x => getD_swapAt d l i1 j1 x (by omega) (by omega)
  have hm : Moved d (a + 1) b l (swapAt l i1 j1) :=
    Moved.swap d _ _ l _ _ hlen (by omega) (by omega) (by omega) (by omega)
  have ea : (swapAt l i1 j1).getD a d = l.getD a d := by
    rw [hget a, if_neg (by omega), if_neg (by omega)]
  refine ⟨hm, ea, ?_, ?_⟩
  · intro k hk1 hk2
    rw [ea, hget k, if_neg (by omega)]
    by_cases e : k = i1
    · rw [if_pos e]; exact h2
    · rw [if_neg e]; exact hI1 k hk1 (by omega)
  · intro k hk1 hk2
    rw [ea, hget k]
    by_cases e : k = j1
    · rw [if_pos e]; exact h1
    · rw [if_neg e, if_neg (by omega)]; exact hI2 k (by omega) hk2

/-- The loop of `partitionEqual`: at the end nothing from `a + 1` to `i - 1` is above the
pivot, which is at `a`, and everything from `i` on is. -/
theorem partitionEqualLoop_spec {α : Type} (less : α → α → Bool) (d : α) (a b : Nat) :
    ∀ (fuel : Nat) (l : List α) (i j : Nat), a < i → i ≤ j + 1 → j < b → b ≤ l.length →
      j + 1 - i ≤ fuel →
      (∀ k, a < k → k < i → less (l.getD a d) (l.getD k d) = false) →
      (∀ k, j < k → k < b → less (l.getD a d) (l.getD k d) = true) →
      Moved d (a + 1) b l (partitionEqualLoop less a fuel l i j).1 ∧
        a < (partitionEqualLoop less a fuel l i j).2 ∧
        (partitionEqualLoop less a fuel l i j).2 ≤ b ∧
        (∀ k, a < k → k < (partitionEqualLoop less a fuel l i j).2 →
          less (l.getD a d) ((partitionEqualLoop less a fuel l i j).1.getD k d) = false) ∧
        (∀ k, (partitionEqualLoop less a fuel l i j).2 ≤ k → k < b →
          less (l.getD a d) ((partitionEqualLoop less a fuel l i j).1.getD k d) = true) := by
  intro fuel
  induction fuel with
  | zero =>
    intro l i j hai hij hjb hlen hf hI1 hI2
    simp only [partitionEqualLoop]
    exact ⟨Moved.refl _ _ _ _, hai, by omega, hI1, fun k h1 h2 => hI2 k (by omega) h2⟩
  | succ fuel ih =>
    intro l i j hai hij hjb hlen hf hI1 hI2
    rw [partitionEqualLoop]
    obtain ⟨i1, j1, e1, e2, g1, g2, g3, g4, g5, g6⟩ :=
      partitionEqual_scans less d a b l i j hai hij hjb hlen hI1 hI2
    rw [e1, e2]
    by_cases hgt : i1 > j1
    · rw [if_pos hgt]
      dsimp only
      exact ⟨Moved.refl _ _ _ _, by omega, by omega, g4, fun k h1 h2 => g5 k (by omega) h2⟩
    · rw [if_neg hgt]
      obtain ⟨g7, g8, g9⟩ := g6 (by omega)
      obtain ⟨hm, ea, w1, w2⟩ := partitionEqual_swap less d a b l i1 j1 (by omega) g7 (by omega)
        hlen g4 g5 g8 g9
      obtain ⟨r1, r2, r3, r4, r5⟩ := ih (swapAt l i1 j1) (i1 + 1) (j1 - 1) (by omega)
        (by omega) (by omega) (by rw [length_swapAt]; exact hlen) (by omega) w1 w2
      rw [ea] at r4 r5
      exact ⟨hm.trans r1, r2, r3, r4, r5⟩

/-- `partitionEqual(data, a, b, pivot)` moves the elements of the range around a position
`newpivot`: nothing before it is above the pivot, and everything from it on is. -/
theorem partitionEqual_spec {α : Type} {less : α → α → Bool} (hw : StrictWeak less) (d : α)
    (l : List α) (a b pivot : Nat) (hap : a ≤ pivot) (hpb : pivot < b) (hb : b ≤ l.length) :
    Moved d a b l (partitionEqual less l a b pivot).1 ∧
      a < (partitionEqual less l a b pivot).2 ∧ (partitionEqual less l a b pivot).2 ≤ b ∧
      (∀ k, a ≤ k → k < (partitionEqual less l a b pivot).2 →
        less (l.getD pivot d) ((partitionEqual less l a b pivot).1.getD k d) = false) ∧
      (∀ k, (partitionEqual less l a b pivot).2 ≤ k → k < b →
        less (l.getD pivot d) ((partitionEqual less l a b pivot).1.getD k d) = true) := by
  have hm0 : Moved d a b l (swapAt l a pivot) :=
    Moved.swap d _ _ l _ _ hb (le_refl _) (by omega) hap hpb
  have hlen0 : b ≤ (swapAt l a pivot).length := by rw [length_swapAt]; exact hb
  have ep : (swapAt l a pivot).getD a d = l.getD pivot d := by
    rw [getD_swapAt d l a pivot a (by omega) (by omega)]
    by_cases e : a = pivot
    · rw [if_pos e, e]
    · rw [if_neg e, if_pos rfl]
  unfold partitionEqual
  simp only []
  obtain ⟨r1, r2, r3, r4, r5⟩ := partitionEqualLoop_spec less d a b (b - 1 + 1 - (a + 1))
    (swapAt l a pivot) (a + 1) (b - 1) (by omega) (by omega) (by omega) hlen0 (le_refl _)
    (fun k h1 h2 => by omega) (fun k h1 h2 => by omega)
  generalize partitionEqualLoop less a (b - 1 + 1 - (a + 1)) (swapAt l a pivot) (a + 1)
    (b - 1) = r at r1 r2 r3 r4 r5 ⊢
  rw [ep] at r4 r5
  refine ⟨hm0.trans (r1.mono (by omega) (le_refl _)), r2, r3, ?_, r5⟩
  intro k hk1 hk2
  by_cases e : k = a
  · rw [e, r1.outside a (by omega), ep]
    exact hw.irrefl _
  · exact r4 k (by omega) hk2

theorem LowerBound.moved {α : Type} {less : α → α → Bool} {d : α} {l l1 : List α} {a b : Nat}
    (h : LowerBound less d l a b) (hm : Moved d a b l l1) : LowerBound less d l1 a b := by
  intro ha k hk1 hk2
  rw [hm.outside (a - 1) (by omega)]
  exact hm.forall_inside (fun x => less x (l.getD (a - 1) d) = false) (h ha) k hk1 hk2

theorem LowerBound.shrink {α : Type} {less : α → α → Bool} {d : α} {l : List α} {a b b1 : Nat}
    (h : LowerBound less d l a b) (hb : b1 ≤ b) : LowerBound less d l a b1 :=
  fun ha k hk1 hk2 => h ha k hk1 (by omega)

/-- A sorted range grows by an element that is not below its last element. -/
theorem SortedOn.snoc {α : Type} {less : α → α → Bool} (hw : StrictWeak less) {d : α}
    {l : List α} {a i : Nat} (h : SortedOn less d l a i)
    (hi : a < i → less (l.getD i d) (l.getD (i - 1) d) = false) :
    SortedOn less d l a (i + 1) := by
  intro x y hx hxy hy
  by_cases e : y = i
  · rw [e]
    by_cases e1 : x = i - 1
    · rw [e1]; exact hi (by omega)
    · exact hw.le_trans (h x (i - 1) hx (by omega) (by omega)) (hi (by omega))
  · exact h x y hx hxy (by omega)

/-- A range that is in order on both sides of a position, with everything before the
position below its element and nothing after the position below it, is in order. -/
theorem SortedOn.around {α : Type} {less : α → α → Bool} (hw : StrictWeak less) {d : α}
    {l : List α} {a m b : Nat} (h1 : SortedOn less d l a m) (h2 : SortedOn less d l (m + 1) b)
    (h3 : ∀ i, a ≤ i → i < m → less (l.getD i d) (l.getD m d) = true)
    (h4 : ∀ j, m < j → j < b → less (l.getD j d) (l.getD m d) = false) :
    SortedOn less d l a b := by
  intro i j hi hij hj
  by_cases him : i < m
  · by_cases hjm : j < m
    · exact h1 i j hi hij hjm
    · by_cases e : j = m
      · rw [e]; exact hw.asymm _ _ (h3 i hi him)
      · exact hw.asymm _ _ (hw.lt_of_lt_of_le (h3 i hi him) (h4 j (by omega) hj))
  · by_cases e : i = m
    · rw [e]; exact h4 j (by omega) hj
    · exact h2 i j (by omega) hij hj

/-! ### `partialInsertionSort` -/

theorem scanSorted_spec {α : Type} {less : α → α → Bool} (hw : StrictWeak less) (d : α)
    (l : List α) (a : Nat) :
    ∀ (n i : Nat), a < i → i + n ≤ l.length → SortedOn less d l a i →
      i ≤ scanSorted less l n i ∧ scanSorted less l n i ≤ i + n ∧
      SortedOn less d l a (scanSorted less l n i) ∧
      (scanSorted less l n i < i + n →
        less (l.getD (scanSorted less l n i) d) (l.getD (scanSorted less l n i - 1) d) = true) := by
  intro n
  induction n with
  | zero =>
    intro i _ _ hs
    simp only [scanSorted]
    exact ⟨le_refl _, by omega, hs, fun h => by omega⟩
  | succ n ih =>
    intro i hai hlen hs
    rw [scanSorted, lessAt_eq less d l i (i - 1) (by omega) (by omega)]
    by_cases h : less (l.getD i d) (l.getD (i - 1) d) = true
    · rw [h]
      simp only [Bool.not_true, Bool.false_eq_true, if_false]
      exact ⟨le_refl _, by omega, hs, fun _ => h⟩
    · have hf := (Bool.not_eq_true _).mp h
      rw [hf]
      simp only [Bool.not_false, if_true]
      obtain ⟨h1, h2, h3, h4⟩ := ih (i + 1) (by omega) (by omega) (hs.snoc hw (fun _ => hf))
      exact ⟨by omega, by omega, h3, fun hlt => h4 (by omega)⟩

theorem shiftRight_spec {α : Type} (less : α → α → Bool) (d : α) :
    ∀ (n j : Nat) (l : List α), 1 ≤ j → j + n ≤ l.length →
      Moved d (j - 1) (j + n) l (shiftRight less n j l) := by
  intro n
  induction n with
  | zero =>
    intro j l _ _
    exact Moved.refl _ _ _ _
  | succ n ih =>
    intro j l hj hlen
    rw [shiftRight]
    by_cases h : lessAt less l j (j - 1) = true
    · rw [if_pos h]
      have hm : Moved d (j - 1) (j + (n + 1)) l (swapAt l j (j - 1)) :=
        Moved.swap d _ _ l _ _ hlen (by omega) (by omega) (le_refl _) (by omega)
      have hm2 := ih (j + 1) (swapAt l j (j - 1)) (by omega) (by rw [length_swapAt]; omega)
      exact hm.trans (hm2.mono (by omega) (by omega))
    · rw [if_neg h]
      exact Moved.refl _ _ _ _

/-- The loop of `partialInsertionSort`, entered with the range in order up to `i - 1` and
with no element of the range below the element before the range: the elements move inside
the range, and the range is in order when the result is true. -/
theorem partialInsertionSortLoop_spec {α : Type} {less : α → α → Bool} (hw : StrictWeak less)
    (d : α) (a b : Nat) :
    ∀ (steps : Nat) (l : List α) (i : Nat), a < i → i ≤ b → b ≤ l.length →
      LowerBound less d l a b → SortedOn less d l a i →
      Moved d a b l (partialInsertionSortLoop less a b steps l i).1 ∧
        ((partialInsertionSortLoop less a b steps l i).2 = true →
          SortedOn less d (partialInsertionSortLoop less a b steps l i).1 a b) := by
  intro steps
  induction steps with
  | zero =>
    intro l i _ _ _ _ _
    simp only [partialInsertionSortLoop]
    exact ⟨Moved.refl _ _ _ _, fun h => absurd h (by simp)⟩
  | succ steps ih =>
    intro l i hai hib hlen hlb hs
    rw [partialInsertionSortLoop]
    obtain ⟨s1, s2, s3, s4⟩ := scanSorted_spec hw d l a (b - i) i hai (by omega) hs
    generalize scanSorted less l (b - i) i = i1 at s1 s2 s3 s4 ⊢
    dsimp only
    by_cases h1 : i1 = b
    · rw [if_pos h1]
      dsimp only
      exact ⟨Moved.refl _ _ _ _, fun _ => h1 ▸ s3⟩
    · rw [if_neg h1]
      by_cases h2 : b - a < 50
      · rw [if_pos h2]
        dsimp only
        exact ⟨Moved.refl _ _ _ _, fun h => absurd h (by simp)⟩
      · rw [if_neg h2]
        have hlt := s4 (by omega)
        have hget := fun x => getD_swapAt d l i1 (i1 - 1) x (by omega) (by omega)
        have hm1 : Moved d a b l (swapAt l i1 (i1 - 1)) :=
          Moved.swap d _ _ l _ _ hlen (by omega) (by omega) (by omega) (by omega)
        have hlen1 : (swapAt l i1 (i1 - 1)).length = l.length := length_swapAt _ _ _
        -- the shift to the left
        have h3 : Moved d a (i1 + 1) (swapAt l i1 (i1 - 1))
              (if i1 - a ≥ 2 then insertDown less 0 (i1 - 1) (swapAt l i1 (i1 - 1))
                else swapAt l i1 (i1 - 1)) ∧
            SortedOn less d
              (if i1 - a ≥ 2 then insertDown less 0 (i1 - 1) (swapAt l i1 (i1 - 1))
                else swapAt l i1 (i1 - 1)) a i1 := by
          by_cases h4 : i1 - a ≥ 2
          · rw [if_pos h4]
            have h := insertDown_spec hw d 0 a i1 (Nat.zero_le _) (i1 - 1)
              (swapAt l i1 (i1 - 1))
            simp only [Nat.zero_add] at h
            obtain ⟨h5, h6⟩ := h (by omega) (by omega) (by omega)
              (by
                intro p q hp hpq hq hp1 hq1
                rw [hget p, hget q, if_neg hp1, if_neg hq1, if_neg (show ¬ p = i1 by omega)]
                by_cases e : q = i1
                · rw [if_pos e]
                  exact s3 p (i1 - 1) hp (by omega) (by omega)
                · rw [if_neg e]
                  exact s3 p q hp hpq (by omega))
              (by
                intro q hq1 hq2
                have e : q = i1 := by omega
                rw [e, hget i1, hget (i1 - 1), if_neg (by omega), if_pos rfl, if_pos rfl]
                exact hw.asymm _ _ hlt)
              (fun ha q hq1 hq2 => (hlb.moved hm1) ha q hq1 (by omega))
            exact ⟨h5, h6.sub (le_refl _) (by omega)⟩
          · rw [if_neg h4]
            exact ⟨Moved.refl _ _ _ _, fun x y hx hxy hy => by omega⟩
        generalize (if i1 - a ≥ 2 then insertDown less 0 (i1 - 1) (swapAt l i1 (i1 - 1))
          else swapAt l i1 (i1 - 1)) = l2 at h3 ⊢
        obtain ⟨hm2, hs2⟩ := h3
        have hlen2 : l2.length = l.length := hm2.length_eq.trans hlen1
        -- the shift to the right
        have h5 : Moved d i1 b l2
            (if b - i1 ≥ 2 then shiftRight less (b - (i1 + 1)) (i1 + 1) l2 else l2) := by
          by_cases h6 : b - i1 ≥ 2
          · rw [if_pos h6]
            have h := shiftRight_spec less d (b - (i1 + 1)) (i1 + 1) l2 (by omega) (by omega)
            have e : i1 + 1 + (b - (i1 + 1)) = b := by omega
            rw [e] at h
            exact h
          · rw [if_neg h6]
            exact Moved.refl _ _ _ _
        generalize (if b - i1 ≥ 2 then shiftRight less (b - (i1 + 1)) (i1 + 1) l2 else l2) = l3
          at h5 ⊢
        have hm : Moved d a b l l3 :=
          hm1.trans ((hm2.mono (le_refl _) (by omega)).trans (h5.mono (by omega) (le_refl _)))
        obtain ⟨r1, r2⟩ := ih l3 i1 (by omega) (by omega) (by rw [hm.length_eq]; exact hlen)
          (hlb.moved hm) (hs2.of_outside (fun k hk1 hk2 => h5.outside k (by omega)))
        exact ⟨hm.trans r1, r2⟩

/-- `partialInsertionSort(data, a, b)`, called for a range of which no element is below the
element before the range: the elements move inside the range, and the range is in order
when the result is true. -/
theorem partialInsertionSort_spec {α : Type} {less : α → α → Bool} (hw : StrictWeak less)
    (d : α) (l : List α) (a b : Nat) (hab : a < b) (hb : b ≤ l.length)
    (hlb : LowerBound less d l a b) :
    Moved d a b l (partialInsertionSort less l a b).1 ∧
      ((partialInsertionSort less l a b).2 = true →
        SortedOn less d (partialInsertionSort less l a b).1 a b) :=
  partialInsertionSortLoop_spec hw d a b 5 l (a + 1) (by omega) (by omega) hb hlb
    (fun x y hx hxy hy => by omega)

/-! ### `breakPatterns` -/

theorem bitsLenFrom_le (fuel : Nat) : ∀ n, 1 ≤ n → 2 ^ bitsLenFrom fuel n ≤ 2 * n := by
  induction fuel with
  | zero =>
    intro n hn
    simp only [bitsLenFrom, pow_zero]
    omega
  | succ fuel ih =>
    intro n hn
    rw [bitsLenFrom, if_neg (by omega), pow_succ]
    by_cases h : n / 2 = 0
    · have e : bitsLenFrom fuel (n / 2) = 0 := by
        rw [h]
        cases fuel <;> simp [bitsLenFrom]
      rw [e]
      simp only [pow_zero]
      omega
    · have := ih (n / 2) (by omega)
      omega

theorem nextPowerOfTwo_le (n : Nat) (hn : 1 ≤ n) :
    0 < nextPowerOfTwo n ∧ nextPowerOfTwo n ≤ 2 * n :=
  ⟨Nat.pos_pow_of_pos _ (by omega), bitsLenFrom_le n n hn⟩

theorem breakPatternsLoop_spec {α : Type} (next : Nat → Nat) (d : α)
    (a length modulus idx : Nat) (h1 : 0 < modulus)
    (h2 : modulus ≤ 2 * length) (h3 : a + 1 ≤ idx) (h4 : idx + 2 ≤ a + length) :
    ∀ (n i random : Nat) (l : List α), i + n ≤ 3 → a + length ≤ l.length →
      Moved d a (a + length) l (breakPatternsLoop next a length modulus idx n i random l) := by
  intro n
  induction n with
  | zero =>
    intro i random l _ _
    exact Moved.refl _ _ _ _
  | succ n ih =>
    intro i random l hi hlen
    rw [breakPatternsLoop]
    have hle : next random &&& (modulus - 1) ≤ modulus - 1 := Nat.and_le_right
    generalize next random &&& (modulus - 1) = other at hle ⊢
    have ho : (if other ≥ length then other - length else other) < length := by
      split_ifs <;> omega
    generalize (if other ≥ length then other - length else other) = other1 at ho ⊢
    have hm : Moved d a (a + length) l (swapAt l (idx - 1 + i) (a + other1)) :=
      Moved.swap d _ _ l _ _ hlen (by omega) (by omega) (by omega) (by omega)
    exact hm.trans (ih (i + 1) (next random) _ (by omega) (by rw [length_swapAt]; exact hlen))

/-- `breakPatterns(data, a, b)` moves elements inside the range, whatever the generator. -/
theorem breakPatterns_spec {α : Type} (next : Nat → Nat) (d : α) (l : List α) (a b : Nat)
    (hab : a ≤ b) (hb : b ≤ l.length) : Moved d a b l (breakPatterns next l a b) := by
  unfold breakPatterns
  dsimp only
  by_cases h : b - a ≥ 8
  · rw [if_pos h]
    obtain ⟨h1, h2⟩ := nextPowerOfTwo_le (b - a) (by omega)
    have hm := breakPatternsLoop_spec next d a (b - a) (nextPowerOfTwo (b - a))
      (a + (b - a) / 4 * 2 - 1) h1 h2 (by omega) (by omega) 3 0 (b - a) l
      (by omega) (by omega)
    have e : a + (b - a) = b := by omega
    rw [e] at hm
    exact hm
  · rw [if_neg h]
    exact Moved.refl _ _ _ _

/-! ### `reverseRange` -/

theorem reverseRangeLoop_spec {α : Type} (d : α) (a b : Nat) :
    ∀ (n : Nat) (l : List α) (i j : Nat), a ≤ i → j < b → b ≤ l.length →
      Moved d a b l (reverseRangeLoop n l i j) := by
  intro n
  induction n with
  | zero =>
    intro l i j _ _ _
    exact Moved.refl _ _ _ _
  | succ n ih =>
    intro l i j hi hj hlen
    rw [reverseRangeLoop]
    by_cases h : i < j
    · rw [if_pos h]
      have hm : Moved d a b l (swapAt l i j) :=
        Moved.swap d _ _ l _ _ hlen hi (by omega) (by omega) hj
      exact hm.trans (ih (swapAt l i j) (i + 1) (j - 1) (by omega) (by omega)
        (by rw [length_swapAt]; exact hlen))
    · rw [if_neg h]
      exact Moved.refl _ _ _ _

/-- `reverseRange(data, a, b)` moves elements inside the range. -/
theorem reverseRange_spec {α : Type} (d : α) (l : List α) (a b : Nat) (hab : a < b)
    (hb : b ≤ l.length) : Moved d a b l (reverseRange l a b) :=
  reverseRangeLoop_spec d a b _ l a (b - 1) (le_refl _) (by omega) hb

/-! ### `choosePivot` -/

theorem order2_mem {α : Type} (less : α → α → Bool) (l : List α) (a b s : Nat) :
    ((order2 less l a b s).1 = a ∧ (order2 less l a b s).2.1 = b) ∨
      ((order2 less l a b s).1 = b ∧ (order2 less l a b s).2.1 = a) := by
  unfold order2
  split_ifs
  · exact Or.inr ⟨rfl, rfl⟩
  · exact Or.inl ⟨rfl, rfl⟩

/-- `median` returns one of its three indices. -/
theorem median_range {α : Type} (less : α → α → Bool) (l : List α) (a b c s lo hi : Nat)
    (ha : lo ≤ a ∧ a < hi) (hb : lo ≤ b ∧ b < hi) (hc : lo ≤ c ∧ c < hi) :
    lo ≤ (median less l a b c s).1 ∧ (median less l a b c s).1 < hi := by
  unfold median
  dsimp only
  rcases order2_mem less l a b s with ⟨e1, e2⟩ | ⟨e1, e2⟩ <;>
  rcases order2_mem less l (order2 less l a b s).2.1 c (order2 less l a b s).2.2
    with ⟨e3, e4⟩ | ⟨e3, e4⟩ <;>
  rcases order2_mem less l (order2 less l a b s).1
    (order2 less l (order2 less l a b s).2.1 c (order2 less l a b s).2.2).1
    (order2 less l (order2 less l a b s).2.1 c (order2 less l a b s).2.2).2.2
    with ⟨e5, e6⟩ | ⟨e5, e6⟩ <;>
  omega

theorem medianAdjacent_range {α : Type} (less : α → α → Bool) (l : List α) (a s lo hi : Nat)
    (ha : lo + 1 ≤ a ∧ a + 1 < hi) :
    lo ≤ (medianAdjacent less l a s).1 ∧ (medianAdjacent less l a s).1 < hi := by
  unfold medianAdjacent
  exact median_range less l _ _ _ _ lo hi (by omega) (by omega) (by omega)

/-- The pivot that `choosePivot(data, a, b)` returns is a position of the range. -/
theorem choosePivot_range {α : Type} (less : α → α → Bool) (l : List α) (a b : Nat)
    (hab : a < b) :
    a ≤ (choosePivot less l a b).1 ∧ (choosePivot less l a b).1 < b := by
  have key : ∀ r : Nat × Nat,
      (if r.2 = 0 then (r.1, sortedHint.increasingHint)
        else if r.2 = 4 * 3 then (r.1, sortedHint.decreasingHint)
        else (r.1, sortedHint.unknownHint)).1 = r.1 := by
    intro r
    split_ifs <;> rfl
  unfold choosePivot
  dsimp only
  rw [key]
  by_cases h8 : b - a ≥ 8
  · rw [if_pos h8]
    by_cases h50 : b - a ≥ 50
    · rw [if_pos h50]
      have hi := medianAdjacent_range less l (a + (b - a) / 4 * 1) 0 a b (by omega)
      have hj := medianAdjacent_range less l (a + (b - a) / 4 * 2)
        (medianAdjacent less l (a + (b - a) / 4 * 1) 0).2 a b (by omega)
      have hk := medianAdjacent_range less l (a + (b - a) / 4 * 3)
        (medianAdjacent less l (a + (b - a) / 4 * 2)
          (medianAdjacent less l (a + (b - a) / 4 * 1) 0).2).2 a b (by omega)
      exact median_range less l _ _ _ _ a b hi hj hk
    · rw [if_neg h50]
      exact median_range less l _ _ _ _ a b (by omega) (by omega) (by omega)
  · rw [if_neg h8]
    dsimp only
    omega

/-! ### `pdqsort` and `Sort` -/

/-- An element that is not above `p` is not above an element that is above `p`. -/
theorem StrictWeak.le_of_le_of_lt {α : Type} {less : α → α → Bool} (hw : StrictWeak less)
    {p x y : α} (h1 : less p x = false) (h2 : less p y = true) : less y x = false := by
  cases h : less y x with
  | false => rfl
  | true =>
    rw [hw.lt_of_lt_of_le h2 (hw.asymm _ _ h)] at h1
    exact absurd h1 (by simp)

/-- `pdqsort(data, a, b, limit)`, called for a range of which no element is below the
element before the range, returns, with the elements of the range moved around inside the
range and in ascending order. This holds for every `limit`, from every state of the two
flags, and whatever numbers the generator of `breakPatterns` yields. -/
theorem pdqsort_spec {α : Type} (next : Nat → Nat) {less : α → α → Bool}
    (hw : StrictWeak less) (d : α) :
    ∀ (fuel : Nat) (l : List α) (a b limit : Nat) (wb wp : Bool), a ≤ b → b ≤ l.length →
      b - a ≤ fuel → LowerBound less d l a b →
      Moved d a b l (pdqsort next less fuel l a b limit wb wp) ∧
        SortedOn less d (pdqsort next less fuel l a b limit wb wp) a b := by
  intro fuel
  induction fuel with
  | zero =>
    intro l a b limit wb wp hab hb hf hlb
    simp only [pdqsort]
    exact ⟨Moved.refl _ _ _ _, fun i j h1 h2 h3 => by omega⟩
  | succ fuel ih =>
    intro l a b limit wb wp hab hb hf hlb
    rw [pdqsort]
    by_cases h12 : b - a ≤ 12
    · rw [if_pos h12]
      exact insertionSort_spec hw d l a b hb
    rw [if_neg h12]
    by_cases hlim : limit = 0
    · rw [if_pos hlim]
      exact heapSort_spec hw d l a b hab hb
    rw [if_neg hlim]
    lift_lets
    extract_lets l1 limit1 c l2 pivot hint tryPartial p l3 e q mid wasPartitioned leftLen
      rightLen balanceThreshold wasBalanced lL wasBalanced1 lR
    have hl1 : Moved d a b l l1 := by
      show Moved d a b l (if (!wb) = true then breakPatterns next l a b else l)
      split_ifs
      · exact breakPatterns_spec next d l a b hab hb
      · exact Moved.refl _ _ _ _
    have hc : a ≤ c.1 ∧ c.1 < b := choosePivot_range less l1 a b (by omega)
    have hl2 : Moved d a b l1 l2 := by
      show Moved d a b l1
        (if c.2 = sortedHint.decreasingHint then reverseRange l1 a b else l1)
      split_ifs
      · exact reverseRange_spec d l1 a b (by omega) (by rw [hl1.length_eq]; exact hb)
      · exact Moved.refl _ _ _ _
    have hpv : a ≤ pivot ∧ pivot < b := by
      show a ≤ (if c.2 = sortedHint.decreasingHint then b - 1 - (c.1 - a) else c.1) ∧
        (if c.2 = sortedHint.decreasingHint then b - 1 - (c.1 - a) else c.1) < b
      split_ifs <;> omega
    have hm2 : Moved d a b l l2 := hl1.trans hl2
    have hp : Moved d a b l2 l3 ∧ (p.2 = true → SortedOn less d l3 a b) := by
      show Moved d a b l2
          (if tryPartial = true then partialInsertionSort less l2 a b else (l2, false)).1 ∧
        ((if tryPartial = true then partialInsertionSort less l2 a b else (l2, false)).2 = true →
          SortedOn less d
            (if tryPartial = true then partialInsertionSort less l2 a b else (l2, false)).1 a b)
      split_ifs
      · exact partialInsertionSort_spec hw d l2 a b (by omega)
          (by rw [hm2.length_eq]; exact hb) (hlb.moved hm2)
      · exact ⟨Moved.refl _ _ _ _, fun h => absurd h (by simp)⟩
    have hl3 : p.1 = l3 := rfl
    have hm3 : Moved d a b l l3 := hm2.trans hp.1
    have hlb3 : LowerBound less d l3 a b := hlb.moved hm3
    have hlen3 : b ≤ l3.length := by rw [hm3.length_eq]; exact hb
    have hE : Moved d a b l3 e.1 ∧ a < e.2 ∧ e.2 ≤ b ∧
        (∀ k, a ≤ k → k < e.2 → less (l3.getD pivot d) (e.1.getD k d) = false) ∧
        (∀ k, e.2 ≤ k → k < b → less (l3.getD pivot d) (e.1.getD k d) = true) :=
      partitionEqual_spec hw d l3 a b pivot hpv.1 hpv.2 hlen3
    have hQ : Moved d a b l3 q.1 ∧ a ≤ mid ∧ mid < b ∧
        (∀ k, a ≤ k → k < mid → less (q.1.getD k d) (q.1.getD mid d) = true) ∧
        (∀ k, mid < k → k < b → less (q.1.getD k d) (q.1.getD mid d) = false) :=
      partition_spec less d l3 a b pivot hpv.1 hpv.2 hlen3
    have hL : a ≤ mid → mid ≤ q.1.length → mid - a ≤ fuel → LowerBound less d q.1 a mid →
        Moved d a mid q.1 lL ∧ SortedOn less d lL a mid := ih q.1 a mid limit1 true true
    have hR : mid + 1 ≤ b → b ≤ q.1.length → b - (mid + 1) ≤ fuel →
        LowerBound less d q.1 (mid + 1) b →
        Moved d (mid + 1) b q.1 lR ∧ SortedOn less d lR (mid + 1) b :=
      ih q.1 (mid + 1) b limit1 true true
    rw [hl3]
    clear_value lR wasBalanced1 lL wasBalanced balanceThreshold rightLen leftLen wasPartitioned
      mid q e l3 p tryPartial hint pivot l2 c limit1 l1
    by_cases hp2 : p.2 = true
    · rw [if_pos hp2]
      exact ⟨hm3, hp.2 hp2⟩
    rw [if_neg hp2]
    by_cases heq : (decide (a > 0) && !lessAt less l3 (a - 1) pivot) = true
    · rw [if_pos heq]
      have ha0 : 0 < a := by
        cases h : decide (a > 0) with
        | true => exact of_decide_eq_true h
        | false => rw [h] at heq; exact absurd heq (by simp)
      have hpiv : less (l3.getD (a - 1) d) (l3.getD pivot d) = false := by
        rw [← lessAt_eq less d l3 (a - 1) pivot (by omega) (by omega)]
        cases h : lessAt less l3 (a - 1) pivot with
        | false => rfl
        | true => rw [h] at heq; exact absurd heq (by simp)
      obtain ⟨e1, e2, e3, e4, e5⟩ := hE
      have hge : ∀ k, a ≤ k → k < b → less (e.1.getD k d) (l3.getD pivot d) = false :=
        e1.forall_inside (fun x => less x (l3.getD pivot d) = false)
          (fun k hk1 hk2 => hw.negtrans _ _ _ (hlb3 ha0 k hk1 hk2) hpiv)
      obtain ⟨r1, r2⟩ := ih e.1 e.2 b limit1 wb wp e3 (by rw [e1.length_eq]; exact hlen3)
        (by omega)
        (fun _ k hk1 hk2 =>
          hw.le_of_le_of_lt (e4 (e.2 - 1) (by omega) (by omega)) (e5 k hk1 hk2))
      refine ⟨hm3.trans (e1.trans (r1.mono (by omega) (le_refl _))), ?_⟩
      refine SortedOn.append (m := e.2) ?_ r2 ?_
      · intro i j hi hij hj
        rw [r1.outside i (by omega), r1.outside j (by omega)]
        exact hw.negtrans _ _ _ (hge j (by omega) (by omega)) (e4 i hi (by omega))
      · intro i j hi him hmj hj
        rw [r1.outside i (by omega)]
        exact hw.le_of_le_of_lt (e4 i hi him)
          (r1.forall_inside (fun x => less (l3.getD pivot d) x = true) e5 j hmj hj)
    · rw [if_neg heq]
      obtain ⟨q1, q2, q3, q4, q5⟩ := hQ
      have hlbq : LowerBound less d q.1 a b := hlb3.moved q1
      have hlenq : b ≤ q.1.length := by rw [q1.length_eq]; exact hlen3
      by_cases hlr : leftLen < rightLen
      · rw [if_pos hlr]
        obtain ⟨r1, r2⟩ := hL q2 (by omega) (by omega) (hlbq.shrink (by omega))
        have hlenL : b ≤ lL.length := by rw [r1.length_eq]; exact hlenq
        obtain ⟨s1, s2⟩ := ih lL (mid + 1) b limit1 wasBalanced wasPartitioned (by omega)
          hlenL (by omega)
          (by
            intro _ k hk1 hk2
            rw [Nat.add_sub_cancel, r1.outside k (by omega), r1.outside mid (by omega)]
            exact q5 k (by omega) hk2)
        refine ⟨hm3.trans (q1.trans ((r1.mono (le_refl _) (by omega)).trans
          (s1.mono (by omega) (le_refl _)))), ?_⟩
        refine SortedOn.around hw (m := mid)
          (SortedOn.of_outside r2 (fun k hk1 hk2 => s1.outside k (by omega))) s2 ?_ ?_
        · intro i hi him
          rw [s1.outside i (by omega), s1.outside mid (by omega), r1.outside mid (by omega)]
          exact r1.forall_inside (fun x => less x (q.1.getD mid d) = true) q4 i hi him
        · intro j hmj hj
          rw [s1.outside mid (by omega), r1.outside mid (by omega)]
          exact s1.forall_inside (fun x => less x (q.1.getD mid d) = false)
            (fun k hk1 hk2 => by
              rw [r1.outside k (by omega)]
              exact q5 k (by omega) hk2) j (by omega) hj
      · rw [if_neg hlr]
        obtain ⟨r1, r2⟩ := hR (by omega) hlenq (by omega)
          (by
            intro _ k hk1 hk2
            rw [Nat.add_sub_cancel]
            exact q5 k (by omega) hk2)
        have hlenR : b ≤ lR.length := by rw [r1.length_eq]; exact hlenq
        obtain ⟨s1, s2⟩ := ih lR a mid limit1 wasBalanced1 wasPartitioned q2 (by omega)
          (by omega) ((hlbq.moved (r1.mono (by omega) (le_refl _))).shrink (by omega))
        refine ⟨hm3.trans (q1.trans ((r1.mono (by omega) (le_refl _)).trans
          (s1.mono (le_refl _) (by omega)))), ?_⟩
        refine SortedOn.around hw (m := mid) s2
          (SortedOn.of_outside r2 (fun k hk1 hk2 => s1.outside k (by omega))) ?_ ?_
        · intro i hi him
          rw [s1.outside mid (by omega), r1.outside mid (by omega)]
          exact s1.forall_inside (fun x => less x (q.1.getD mid d) = true)
            (fun k hk1 hk2 => by
              rw [r1.outside k (by omega)]
              exact q4 k hk1 hk2) i hi him
        · intro j hmj hj
          rw [s1.outside j (by omega), s1.outside mid (by omega), r1.outside mid (by omega)]
          exact r1.forall_inside (fun x => less x (q.1.getD mid d) = false)
            (fun k hk1 hk2 => q5 k (by omega) hk2) j (by omega) hj

/-- `sort.Sort` returns, for every ordering that is a strict weak ordering, with the same
elements in ascending order. -/
theorem sortSort_spec {α : Type} {less : α → α → Bool} (hw : StrictWeak less)
    (data : List α) :
    List.Perm (sortSort less data) data ∧
      (sortSort less data).Pairwise (fun x y => less y x = false) := by
  unfold sortSort
  dsimp only
  by_cases h : data.length ≤ 1
  · rw [if_pos h]
    refine ⟨List.Perm.refl _, ?_⟩
    match data, h with
    | [], _ => exact List.Pairwise.nil
    | [x], _ => exact List.pairwise_singleton _ _
    | _ :: _ :: _, h => simp at h
  · rw [if_neg h]
    match data, h with
    | [], h => simp at h
    | x :: t, h =>
      obtain ⟨h1, h2⟩ := pdqsort_spec xorshiftNext hw x (x :: t).length (x :: t) 0
        (x :: t).length (bitsLen (x :: t).length) true true (Nat.zero_le _) (le_refl _)
        (by omega) (fun h0 => absurd h0 (by omega))
      refine ⟨h1.perm, SortedOn.pairwise (d := x) ?_⟩
      rw [h1.length_eq]
      exact h2

/-! ### The ordering of `SortByIndex` -/

theorem Less_eq_true_iff (a b : LaunchEntry) :
    lelSortableByIndex.Less a b = true ↔
      (a.QueryIndex < b.QueryIndex ∨
        (a.QueryIndex = b.QueryIndex ∧ a.LoCaseName < b.LoCaseName)) := by
  unfold lelSortableByIndex.Less
  split_ifs with h
  · simp [h]
  · simp [h]

theorem Less_eq_false_iff (a b : LaunchEntry) :
    lelSortableByIndex.Less b a = false ↔
      (a.QueryIndex < b.QueryIndex ∨
        (a.QueryIndex = b.QueryIndex ∧ a.LoCaseName ≤ b.LoCaseName)) := by
  rw [← Bool.not_eq_true, Less_eq_true_iff]
  rcases lt_trichotomy a.QueryIndex b.QueryIndex with h | h | h
  · simp [h, h.le, not_lt_of_lt h, h.ne']
  · simp [h]
  · simp [h, h.le, not_lt_of_lt h, h.ne']

theorem Less_asymm (a b : LaunchEntry) (h : lelSortableByIndex.Less a b = true) :
    lelSortableByIndex.Less b a = false := by
  rw [Less_eq_false_iff]
  rcases (Less_eq_true_iff a b).mp h with h1 | ⟨h1, h2⟩
  · exact Or.inl h1
  · exact Or.inr ⟨h1, h2.le⟩

theorem Less_negtrans (a b c : LaunchEntry) (h1 : lelSortableByIndex.Less a b = false)
    (h2 : lelSortableByIndex.Less b c = false) : lelSortableByIndex.Less a c = false := by
  rw [Less_eq_false_iff] at h1 h2 ⊢
  rcases h1 with h1 | ⟨h1, h1'⟩ <;> rcases h2 with h2 | ⟨h2, h2'⟩
  · exact Or.inl (h2.trans h1)
  · exact Or.inl (h2 ▸ h1)
  · exact Or.inl (h1 ▸ h2)
  · exact Or.inr ⟨h2.trans h1, h2'.trans h1'⟩

/-- `lelSortableByIndex.Less` is an ordering as `sort.Interface` asks for. -/
theorem Less_strictWeak : StrictWeak lelSortableByIndex.Less :=
  ⟨Less_asymm, Less_negtrans⟩

/-- C3: for every `LaunchEntriesList`, the list after `SortByIndex` is a permutation of
the original entries and is ordered by rank: of two entries, the one at the earlier
position has a strictly lower `QueryIndex`, or the same `QueryIndex` and a `LoCaseName`
less than or equal to the other's. In particular an entry with a lower `QueryIndex` is
never placed after one with a higher `QueryIndex`, whatever the names. -/
theorem C3_SortByIndex_sorted_perm (list : LaunchEntriesList) :
    List.Perm (SortByIndex list) list ∧
    (∀ i j : Fin (SortByIndex list).length, i < j →
      ((SortByIndex list).get i).QueryIndex < ((SortByIndex list).get j).QueryIndex ∨
        (((SortByIndex list).get i).QueryIndex = ((SortByIndex list).get j).QueryIndex ∧
          ((SortByIndex list).get i).LoCaseName ≤ ((SortByIndex list).get j).LoCaseName)) := by
  obtain ⟨hp, hs⟩ := sortSort_spec Less_strictWeak list
  refine ⟨hp, ?_⟩
  intro i j hij
  exact (Less_eq_false_iff _ _).mp (List.pairwise_iff_get.mp hs i j hij)

/-- Witness of C3. Three entries out of order: the two of index 1 come first, by name, and
the entry of index 2 last although its name is the smallest. Twenty entries, more than
the insertion sort of the library takes, with the indices 0, 1, 2, 0, 1, 2, ... and equal
names, told apart by `Name`: they come out by index, and the entries of one index in the
order in which `pdqsort` leaves them, which is not the order of the input. -/
theorem C3_SortByIndex_sorted_perm_witness :
    SortByIndex
        [{ QueryIndex := 2, LoCaseName := str "a" }, { QueryIndex := 1, LoCaseName := str "c" },
          { QueryIndex := 1, LoCaseName := str "b" }] =
      [{ QueryIndex := 1, LoCaseName := str "b" }, { QueryIndex := 1, LoCaseName := str "c" },
        { QueryIndex := 2, LoCaseName := str "a" }] ∧
    (SortByIndex ((List.range 20).map
        (fun i => { QueryIndex := ((i % 3 : Nat) : Int), Name := [i] }))).map
      (fun le => le.Name) =
      [[9], [18], [15], [3], [12], [0], [6], [10], [7], [4], [13], [16], [1], [19], [8], [5],
        [11], [14], [2], [17]] ∧
    List.Perm
      (SortByIndex ((List.range 20).map
        (fun i => { QueryIndex := ((i % 3 : Nat) : Int), Name := [i] })))
      ((List.range 20).map (fun i => { QueryIndex := ((i % 3 : Nat) : Int), Name := [i] })) :=
  ⟨by decide, by decide,
    (C3_SortByIndex_sorted_perm
      ((List.range 20).map (fun i => { QueryIndex := ((i % 3 : Nat) : Int), Name := [i] }))).1⟩

/-! ## Highlight markup (`UpdateMarkupName`) -/

theorem str_tagOpen : str "<b>" = [0x3C, 0x62, 0x3E] := by decide

theorem str_tagClose : str "</b>" = [0x3C, 0x2F, 0x62, 0x3E] := by decide

theorem stripBold_tagOpen (s : GoString) : stripBold (str "<b>" ++ s) = stripBold s := by
  rw [str_tagOpen]
  cases s with
  | nil => simp [stripBold, str_tagOpen]
  | cons d rest => simp [stripBold, str_tagOpen]

theorem stripBold_tagClose (s : GoString) : stripBold (str "</b>" ++ s) = stripBold s := by
  rw [str_tagClose]
  simp [stripBold, str_tagOpen, str_tagClose]

/-- Where no tag starts, `stripBold` copies the byte. -/
theorem stripBold_cons (c : Nat) (s : GoString)
    (h1 : (str "<b>").isPrefixOf (c :: s) = false)
    (h2 : (str "</b>").isPrefixOf (c :: s) = false) :
    stripBold (c :: s) = c :: stripBold s := by
  rw [str_tagOpen] at h1
  rw [str_tagClose] at h2
  match s with
  | [] => simp [stripBold]
  | [x1] => simp [stripBold]
  | [x1, x2] =>
    simp [List.isPrefixOf] at h1
    simp [stripBold, str_tagOpen]
    intro h3 h4 h5
    exact absurd h5 (by omega)
  | x1 :: x2 :: x3 :: rest =>
    simp [List.isPrefixOf] at h1 h2
    rw [stripBold]
    simp only [str_tagOpen, str_tagClose]
    have e1 : ¬ ([c, x1, x2] = [60, 98, 62]) := by
      intro h; simp at h; exact h1 h.1.symm h.2.1.symm h.2.2.symm
    have e2 : ¬ ([c, x1, x2, x3] = [60, 47, 98, 62]) := by
      intro h; simp at h; exact h2 h.1.symm h.2.1.symm h.2.2.1.symm h.2.2.2.symm
    rw [if_neg e1, if_neg e2]

/-- A tag that starts inside `c :: x` cannot run into what follows when that is empty or
begins with `<`: both tags have `<` at their first position only. -/
theorem tagOpen_no_straddle (c : Nat) (x t : GoString)
    (ht : t = [] ∨ ∃ t1, t = 0x3C :: t1)
    (h : (str "<b>").isPrefixOf (c :: x) = false) :
    (str "<b>").isPrefixOf (c :: (x ++ t)) = false := by
  rw [str_tagOpen] at h ⊢
  match x with
  | [] => rcases ht with rfl | ⟨t1, rfl⟩ <;> simp [List.isPrefixOf]
  | [x1] => rcases ht with rfl | ⟨t1, rfl⟩ <;> simp [List.isPrefixOf]
  | x1 :: x2 :: rest => simpa [List.isPrefixOf] using h

theorem tagClose_no_straddle (c : Nat) (x t : GoString)
    (ht : t = [] ∨ ∃ t1, t = 0x3C :: t1)
    (h : (str "</b>").isPrefixOf (c :: x) = false) :
    (str "</b>").isPrefixOf (c :: (x ++ t)) = false := by
  rw [str_tagClose] at h ⊢
  match x with
  | [] => rcases ht with rfl | ⟨t1, rfl⟩ <;> simp [List.isPrefixOf]
  | [x1] => rcases ht with rfl | ⟨t1, rfl⟩ <;> simp [List.isPrefixOf]
  | [x1, x2] => rcases ht with rfl | ⟨t1, rfl⟩ <;> simp [List.isPrefixOf]
  | x1 :: x2 :: x3 :: rest => simpa [List.isPrefixOf] using h

/-- Removing the tags from a tag-free string followed by a tag (or by nothing) leaves the
string in place. -/
theorem stripBold_append (x t : GoString)
    (ht : t = [] ∨ ∃ t1, t = 0x3C :: t1)
    (hO : Contains x (str "<b>") = false) (hC : Contains x (str "</b>") = false) :
    stripBold (x ++ t) = x ++ stripBold t := by
  induction x with
  | nil => rfl
  | cons c x ih =>
    simp only [Contains, Bool.or_eq_false_iff] at hO hC
    rw [List.cons_append, stripBold_cons c (x ++ t) (tagOpen_no_straddle c x t ht hO.1)
      (tagClose_no_straddle c x t ht hC.1), ih hO.2 hC.2, List.cons_append]

theorem isPrefixOf_append_of (p a b : GoString) (h : p.isPrefixOf a = true) :
    p.isPrefixOf (a ++ b) = true := by
  rw [List.isPrefixOf_iff_prefix] at h ⊢
  exact h.trans (List.prefix_append a b)

theorem Contains_append_right (p a b : GoString) (h : Contains (a ++ b) p = false) :
    Contains b p = false := by
  induction a with
  | nil => simpa using h
  | cons c a ih =>
    simp only [List.cons_append, Contains, Bool.or_eq_false_iff] at h
    exact ih h.2

theorem Contains_append_left (p a b : GoString) (hp : p ≠ [])
    (h : Contains (a ++ b) p = false) : Contains a p = false := by
  induction a with
  | nil => cases p with
    | nil => exact absurd rfl hp
    | cons _ _ => rfl
  | cons c a ih =>
    simp only [List.cons_append, Contains, Bool.or_eq_false_iff] at h ⊢
    refine ⟨?_, ih h.2⟩
    cases hpre : p.isPrefixOf (c :: a) with
    | false => rfl
    | true =>
      have := isPrefixOf_append_of p (c :: a) b hpre
      exact absurd (this.symm.trans h.1) (by simp)


theorem take_mid_drop (n : GoString) (i i2 : Nat) (hi : i ≤ i2) :
    n.take i ++ ((n.drop i).take (i2 - i) ++ n.drop i2) = n := by
  have h : n.drop i2 = (n.drop i).drop (i2 - i) := by
    rw [List.drop_drop]; congr 1; omega
  rw [h, List.take_append_drop, List.take_append_drop]

/-- C4, as the claim states it, fails whatever `EscapeAmpersand` does: for the entry of
type `CommandlineEntry` with `Name` equal to `ls`, `UpdateMarkupName(0, 1)` yields a
`MarkupName` that begins with the arrow glyph, and so does what is left of it once the
bold tags are removed. -/
theorem C4_counterexample :
    ¬ ∃ h : Helpers, ∀ (le : LaunchEntry) (index length : Int),
        0 ≤ index → 0 ≤ length → index + length ≤ (le.Name.length : Int) →
        ∃ le1, UpdateMarkupName h le index length = some le1 ∧
          stripBold le1.MarkupName = le.Name := by
  rintro ⟨h, hall⟩
  obtain ⟨le1, h1, h2⟩ := hall { Typ := CommandlineEntry, Name := str "ls" } 0 1
    (by decide) (by decide) (by decide)
  have hm : le1.MarkupName = 0xE2 :: ([0x86, 0x92, 0x20] ++ h.EscapeAmpersand
      (str "<b>" ++ str "l" ++ str "</b>" ++ str "s")) := by
    have : UpdateMarkupName h { Typ := CommandlineEntry, Name := str "ls" } 0 1 =
        some { Typ := CommandlineEntry, Name := str "ls",
               MarkupName := 0xE2 :: ([0x86, 0x92, 0x20] ++ h.EscapeAmpersand
                (str "<b>" ++ str "l" ++ str "</b>" ++ str "s")) } := by
      rfl
    rw [this] at h1
    injection h1 with h1
    rw [← h1]
  rw [hm, stripBold_cons _ _ (by rw [str_tagOpen]; simp [List.isPrefixOf])
    (by rw [str_tagClose]; simp [List.isPrefixOf])] at h2
  revert h2
  simp [str, utf8, encodeRunes, EncodeRune]

theorem stripBold_glyph (t : EntryType) (z : GoString) :
    stripBold (glyphOf t ++ z) = glyphOf t ++ stripBold z := by
  have hc : ∀ (c : Nat) (s : GoString), c ≠ 0x3C → stripBold (c :: s) = c :: stripBold s := by
    intro c s hc
    apply stripBold_cons
    · rw [str_tagOpen]; simp [List.isPrefixOf]; omega
    · rw [str_tagClose]; simp [List.isPrefixOf]; omega
  have ha : str "→ " = [0xE2, 0x86, 0x92, 0x20] := by decide
  have hw : str "⌚ " = [0xE2, 0x8C, 0x9A, 0x20] := by decide
  cases t <;> simp [glyphOf, ha, hw, hc]

/-- What `UpdateMarkupName` computes when the slice bounds are in range. -/
theorem UpdateMarkupName_eq (h : Helpers) (le : LaunchEntry) (index length : Int)
    (h0 : 0 ≤ index) (h1 : 0 ≤ length) (h2 : index + length ≤ (le.Name.length : Int)) :
    UpdateMarkupName h le index length =
      some { le with
        MarkupName := glyphOf le.Typ ++ h.EscapeAmpersand
          (le.Name.take index.toNat ++ str "<b>" ++
            (le.Name.drop index.toNat).take ((index + length).toNat - index.toNat) ++
            str "</b>" ++ le.Name.drop (index + length).toNat) } := by
  have hc : 0 ≤ index ∧ index ≤ index + length ∧ index + length ≤ (le.Name.length : Int) :=
    ⟨h0, by omega, h2⟩
  unfold UpdateMarkupName
  simp only [hc, and_self, if_true]
  cases hT : le.Typ <;> simp [glyphOf]

theorem escapeAmpersandRef_id (s : GoString) (hs : 0x26 ∉ s) : escapeAmpersandRef s = s := by
  induction s with
  | nil => rfl
  | cons c rest ih =>
    simp only [List.mem_cons, not_or] at hs
    have hc : ¬ c = 0x26 := fun e => hs.1 e.symm
    simp [escapeAmpersandRef, hc, ih hs.2]

/-- C4 (amended): for every entry whose `Name` contains no `&` and neither of the tags
`<b>` and `</b>`, and every `index`, `length` with `0 <= index`, `0 <= length` and
`index + length <= len(Name)`, `UpdateMarkupName(index, length)` succeeds, and removing
the bold tags from the new `MarkupName` yields `Name` preceded by the glyph of the entry
type: nothing for most types, the arrow glyph and a blank for `CommandlineEntry`, the
watch glyph and a blank for `HistEntry`. `EscapeAmpersand` is assumed to leave a string
without `&` unchanged. -/
theorem C4_highlight_round_trip (h : Helpers) (le : LaunchEntry) (index length : Int)
    (hesc : ∀ s : GoString, 0x26 ∉ s → h.EscapeAmpersand s = s)
    (hamp : 0x26 ∉ le.Name)
    (hopen : Contains le.Name (str "<b>") = false)
    (hclose : Contains le.Name (str "</b>") = false)
    (h0 : 0 ≤ index) (h1 : 0 ≤ length) (h2 : index + length ≤ (le.Name.length : Int)) :
    ∃ le1, UpdateMarkupName h le index length = some le1 ∧
      stripBold le1.MarkupName = glyphOf le.Typ ++ le.Name := by
  refine ⟨_, UpdateMarkupName_eq h le index length h0 h1 h2, ?_⟩
  have hi : index.toNat ≤ (index + length).toNat := by omega
  have hname := take_mid_drop le.Name index.toNat (index + length).toNat hi
  generalize hX : le.Name.take index.toNat = X at hname ⊢
  generalize hM : (le.Name.drop index.toNat).take ((index + length).toNat - index.toNat) = M
    at hname ⊢
  generalize hY : le.Name.drop (index + length).toNat = Y at hname ⊢
  have hO : str "<b>" ≠ [] := by decide
  have hC : str "</b>" ≠ [] := by decide
  rw [← hname] at hamp hopen hclose
  have hXo := Contains_append_left _ _ _ hO hopen
  have hXc := Contains_append_left _ _ _ hC hclose
  have hMYo := Contains_append_right _ _ _ hopen
  have hMYc := Contains_append_right _ _ _ hclose
  have hMo := Contains_append_left _ _ _ hO hMYo
  have hMc := Contains_append_left _ _ _ hC hMYc
  have hYo := Contains_append_right _ _ _ hMYo
  have hYc := Contains_append_right _ _ _ hMYc
  have hnoamp : 0x26 ∉ X ++ str "<b>" ++ M ++ str "</b>" ++ Y := by
    simp only [List.mem_append, not_or] at hamp ⊢
    refine ⟨⟨⟨⟨hamp.1, by decide⟩, hamp.2.1⟩, by decide⟩, hamp.2.2⟩
  have hstart : ∀ (p : GoString) (s : GoString), p = str "<b>" ∨ p = str "</b>" →
      (p ++ s = [] ∨ ∃ t1, p ++ s = 0x3C :: t1) := by
    intro p s hp
    rcases hp with rfl | rfl
    · right; rw [str_tagOpen]; exact ⟨_, rfl⟩
    · right; rw [str_tagClose]; exact ⟨_, rfl⟩
  show stripBold (glyphOf le.Typ ++ h.EscapeAmpersand
    (X ++ str "<b>" ++ M ++ str "</b>" ++ Y)) = glyphOf le.Typ ++ le.Name
  rw [hesc _ hnoamp, stripBold_glyph]
  have hre : X ++ str "<b>" ++ M ++ str "</b>" ++ Y =
      X ++ (str "<b>" ++ (M ++ (str "</b>" ++ (Y ++ [])))) := by simp
  rw [hre, stripBold_append X _ (hstart _ _ (Or.inl rfl)) hXo hXc, stripBold_tagOpen,
    stripBold_append M _ (hstart _ _ (Or.inr rfl)) hMo hMc, stripBold_tagClose,
    stripBold_append Y [] (Or.inl rfl) hYo hYc]
  have hs : stripBold [] = [] := rfl
  rw [hs, List.append_nil, ← hname]

/-- Witness of C4 (amended): the history entry named `Atom Text Editor`, highlighted at
bytes 5 to 8. -/
theorem C4_highlight_round_trip_witness :
    ∃ le1, UpdateMarkupName helpersRef { Typ := HistEntry, Name := str "Atom Text Editor" } 5 4
        = some le1 ∧
      stripBold le1.MarkupName = glyphOf HistEntry ++ str "Atom Text Editor" :=
  C4_highlight_round_trip helpersRef { Typ := HistEntry, Name := str "Atom Text Editor" } 5 4
    escapeAmpersandRef_id (by decide) (by decide) (by decide) (by decide) (by decide)
    (by decide)

/-! ## Constructors -/

/-- What `NewEntryFromDesktopFile` returns for a file that opens and parses. -/
theorem NewEntryFromDesktopFile_parsed (h : Helpers)
    (osOpen : GoString → Except GoError GoString)
    (confRead : GoString → Except GoError ConfFile) (filepath fd : GoString) (cf : ConfFile)
    (ho : osOpen filepath = .ok fd) (hr : confRead fd = .ok cf) :
    NewEntryFromDesktopFile h osOpen confRead filepath =
      if (cf.Sections (str "Desktop Entry")).Bool (str "Hidden") = true then
        (none, some (str "desktop entry hidden"))
      else if (cf.Sections (str "Desktop Entry")).Bool (str "NoDisplay") = true then
        (none, some (str "desktop entry not displayed"))
      else
        (some
          { Typ := ApplicatioEntry
            Name := (cf.Sections (str "Desktop Entry")).Str (str "Name")
            LoCaseName := ToLower h.mapLower ((cf.Sections (str "Desktop Entry")).Str (str "Name"))
            Icon := (cf.Sections (str "Desktop Entry")).Str (str "Icon")
            Cmdline := replacePlaceholders ((cf.Sections (str "Desktop Entry")).Str (str "Exec"))
            TabName := replacePlaceholders ((cf.Sections (str "Desktop Entry")).Str (str "Exec")) },
          none) := by
  simp only [NewEntryFromDesktopFile, ho, hr]

/-- C8: for every desktop file that opens and parses, `NewEntryFromDesktopFile` returns no
entry together with an error if and only if the section `Desktop Entry` has `Hidden` or
`NoDisplay` set; when neither is set it returns an entry of type `ApplicatioEntry` and no
error. -/
theorem C8_hidden_or_nodisplay_rejected (h : Helpers)
    (osOpen : GoString → Except GoError GoString)
    (confRead : GoString → Except GoError ConfFile) (filepath fd : GoString) (cf : ConfFile)
    (ho : osOpen filepath = .ok fd) (hr : confRead fd = .ok cf) :
    (((NewEntryFromDesktopFile h osOpen confRead filepath).1 = none ∧
        (NewEntryFromDesktopFile h osOpen confRead filepath).2 ≠ none) ↔
      ((cf.Sections (str "Desktop Entry")).Bool (str "Hidden") = true ∨
        (cf.Sections (str "Desktop Entry")).Bool (str "NoDisplay") = true)) ∧
    (((cf.Sections (str "Desktop Entry")).Bool (str "Hidden") = false ∧
        (cf.Sections (str "Desktop Entry")).Bool (str "NoDisplay") = false) →
      ∃ le, NewEntryFromDesktopFile h osOpen confRead filepath = (some le, none) ∧
        le.Typ = ApplicatioEntry) := by
  rw [NewEntryFromDesktopFile_parsed h osOpen confRead filepath fd cf ho hr]
  cases hH : (cf.Sections (str "Desktop Entry")).Bool (str "Hidden") <;>
    cases hN : (cf.Sections (str "Desktop Entry")).Bool (str "NoDisplay") <;> simp

/-- Witness of C8: a desktop file for Firefox with `NoDisplay` set. -/
theorem C8_hidden_or_nodisplay_rejected_witness :
    (((NewEntryFromDesktopFile helpersRef (fun _ => .ok [])
          (fun _ => .ok (desktopRef (str "Firefox") (str "firefox") (str "firefox %u") false true))
          (str "firefox.desktop")).1 = none ∧
        (NewEntryFromDesktopFile helpersRef (fun _ => .ok [])
          (fun _ => .ok (desktopRef (str "Firefox") (str "firefox") (str "firefox %u") false true))
          (str "firefox.desktop")).2 ≠ none) ↔
      (((desktopRef (str "Firefox") (str "firefox") (str "firefox %u") false true).Sections
          (str "Desktop Entry")).Bool (str "Hidden") = true ∨
        ((desktopRef (str "Firefox") (str "firefox") (str "firefox %u") false true).Sections
          (str "Desktop Entry")).Bool (str "NoDisplay") = true)) ∧
    ((((desktopRef (str "Firefox") (str "firefox") (str "firefox %u") false true).Sections
          (str "Desktop Entry")).Bool (str "Hidden") = false ∧
        ((desktopRef (str "Firefox") (str "firefox") (str "firefox %u") false true).Sections
          (str "Desktop Entry")).Bool (str "NoDisplay") = false) →
      ∃ le, NewEntryFromDesktopFile helpersRef (fun _ => .ok [])
          (fun _ => .ok (desktopRef (str "Firefox") (str "firefox") (str "firefox %u") false true))
          (str "firefox.desktop") = (some le, none) ∧
        le.Typ = ApplicatioEntry) :=
  C8_hidden_or_nodisplay_rejected helpersRef (fun _ => .ok [])
    (fun _ => .ok (desktopRef (str "Firefox") (str "firefox") (str "firefox %u") false true))
    (str "firefox.desktop") [] _ rfl rfl

/-- C5 at a failing input: `NewEntryFromCommand("ls")` has `Name` equal to `ls` and an
empty `LoCaseName`, while `strings.ToLower` of its `Name` is `ls`; the desktop file
constructor, on a record named `Firefox`, does set `LoCaseName` to `firefox`. -/
theorem C5_LoCaseName_left_empty :
    (NewEntryFromCommand helpersRef (str "ls")).Name = str "ls" ∧
    (NewEntryFromCommand helpersRef (str "ls")).LoCaseName = str "" ∧
    ToLower helpersRef.mapLower (NewEntryFromCommand helpersRef (str "ls")).Name = str "ls" ∧
    (NewEntryFromDesktopFile helpersRef (fun _ => .ok [])
        (fun _ => .ok (desktopRef (str "Firefox") (str "firefox") (str "firefox %u") false false))
        (str "firefox.desktop")).1.map (fun le => (le.Name, le.LoCaseName)) =
      some (str "Firefox", str "firefox") := by
  decide

/-- Of the six constructors only `NewEntryFromDesktopFile` assigns `LoCaseName`; the other
five leave it empty whatever their arguments. -/
theorem LoCaseName_empty_outside_desktop (h : Helpers) :
    (∀ command, (NewEntryFromCommand h command).LoCaseName = str "") ∧
    (∀ queryIcon path displayName tabName le,
      (NewEntryForFile h queryIcon path displayName tabName).1 = some le →
        le.LoCaseName = str "") ∧
    (∀ url, (NewUrlLaunchEntry h url).LoCaseName = str "") ∧
    (∀ (F : Type) (fmtV : F → GoString) (val : F),
      (NewCalcLaunchEntry fmtV val).LoCaseName = str "") ∧
    (∀ q, (NewWebSearchEntry h q).LoCaseName = str "") := by
  refine ⟨fun _ => rfl, ?_, fun _ => rfl, fun _ _ _ => rfl, fun _ => rfl⟩
  intro queryIcon path displayName tabName le hle
  unfold NewEntryForFile at hle
  cases hq : queryIcon path with
  | error e => rw [hq] at hle; simp at hle
  | ok icon =>
    rw [hq] at hle
    simp only [Option.some.injEq] at hle
    rw [← hle]
    rfl

theorem str_xdg_open : str "xdg-open " = [0x78, 0x64, 0x67, 0x2D, 0x6F, 0x70, 0x65, 0x6E, 0x20] := by
  decide

theorem mem_placeholderOlds (a b c : Nat) :
    [a, b, c] ∈ placeholderOlds ↔
      (a = 0x20 ∧ b = 0x25 ∧ (c = 0x66 ∨ c = 0x46 ∨ c = 0x75 ∨ c = 0x55)) := by
  have h : placeholderOlds =
      [[0x20, 0x25, 0x66], [0x20, 0x25, 0x46], [0x20, 0x25, 0x75], [0x20, 0x25, 0x55]] := by
    decide
  rw [h]
  simp only [List.mem_cons, List.cons.injEq, and_true, List.mem_nil_iff, or_false]
  tauto

/-- The replacer keeps the first byte of a string that does not begin with a blank. -/
theorem replacePlaceholders_head (c : Nat) (rest : GoString) (hc : c ≠ 0x20) :
    ∃ out, replacePlaceholders (c :: rest) = c :: out := by
  match rest with
  | [] => exact ⟨[], rfl⟩
  | [x1] => exact ⟨[x1], rfl⟩
  | x1 :: x2 :: more =>
    have hno : ¬ [c, x1, x2] ∈ placeholderOlds := by
      rw [mem_placeholderOlds]; exact fun h => hc h.1
    exact ⟨_, by rw [replacePlaceholders, if_neg hno]⟩

/-- C6, as the claim states it, fails in two places: a desktop record whose `Exec` value is
the lone placeholder ` %U` is accepted with an empty `Cmdline` (so is one without an `Exec`
key), and `NewEntryFromCommand("")` has an empty `Cmdline`; neither entry is a
`CalcEntry`. -/
theorem C6_counterexample :
    (¬ ∀ (h : Helpers) (osOpen : GoString → Except GoError GoString)
        (confRead : GoString → Except GoError ConfFile) (filepath : GoString)
        (le : LaunchEntry),
        (NewEntryFromDesktopFile h osOpen confRead filepath).1 = some le →
          le.Typ ≠ CalcEntry → le.Cmdline ≠ str "") ∧
    (¬ ∀ (h : Helpers) (command : GoString),
        (NewEntryFromCommand h command).Typ ≠ CalcEntry →
          (NewEntryFromCommand h command).Cmdline ≠ str "") := by
  constructor
  · intro hall
    exact hall helpersRef (fun _ => .ok [])
      (fun _ => .ok (desktopRef (str "Files") (str "folder") (str " %U") false false))
      (str "files.desktop")
      { Typ := ApplicatioEntry, Name := str "Files", LoCaseName := str "files",
        Icon := str "folder" }
      (by decide) (by decide) (by decide)
  · intro hall
    exact hall helpersRef (str "") (by decide) (by decide)

/-- C6 (amended): `Cmdline` is non-empty for every entry produced by `NewEntryForFile`,
`NewUrlLaunchEntry` and `NewWebSearchEntry`, whatever the arguments; the `Cmdline` of
`NewEntryFromCommand` is its argument, hence non-empty exactly when the argument is; for a
desktop record accepted by `NewEntryFromDesktopFile`, `Cmdline` is the `Exec` value after
the replacer, and it is non-empty whenever `Exec` is non-empty and does not begin with a
blank; `NewCalcLaunchEntry` always yields a `CalcEntry` with an empty `Cmdline`. -/
theorem C6_Cmdline_nonempty (h : Helpers) :
    (∀ (osOpen : GoString → Except GoError GoString)
        (confRead : GoString → Except GoError ConfFile) (filepath : GoString)
        (le : LaunchEntry),
        (NewEntryFromDesktopFile h osOpen confRead filepath).1 = some le →
          ∃ fd cf, osOpen filepath = .ok fd ∧ confRead fd = .ok cf ∧
            le.Cmdline = replacePlaceholders ((cf.Sections (str "Desktop Entry")).Str (str "Exec")) ∧
            (∀ c rest, (cf.Sections (str "Desktop Entry")).Str (str "Exec") = c :: rest →
              c ≠ 0x20 → le.Cmdline ≠ str "")) ∧
    (∀ command, (NewEntryFromCommand h command).Cmdline = command) ∧
    (∀ queryIcon path displayName tabName le,
      (NewEntryForFile h queryIcon path displayName tabName).1 = some le →
        le.Cmdline ≠ str "") ∧
    (∀ url, (NewUrlLaunchEntry h url).Cmdline ≠ str "") ∧
    (∀ q, (NewWebSearchEntry h q).Cmdline ≠ str "") ∧
    (∀ (F : Type) (fmtV : F → GoString) (val : F),
      (NewCalcLaunchEntry fmtV val).Typ = CalcEntry ∧
        (NewCalcLaunchEntry fmtV val).Cmdline = str "") := by
  have hx : ∀ s : GoString, str "xdg-open " ++ s ≠ str "" := by
    intro s; rw [str_xdg_open]; simp [str, utf8, encodeRunes]
  refine ⟨?_, fun _ => rfl, ?_, fun url => hx url, fun q => hx _, fun _ _ _ => ⟨rfl, rfl⟩⟩
  · intro osOpen confRead filepath le hle
    cases ho : osOpen filepath with
    | error e => simp [NewEntryFromDesktopFile, ho] at hle
    | ok fd =>
      cases hr : confRead fd with
      | error e => simp [NewEntryFromDesktopFile, ho, hr] at hle
      | ok cf =>
        refine ⟨fd, cf, rfl, hr, ?_⟩
        rw [NewEntryFromDesktopFile_parsed h osOpen confRead filepath fd cf ho hr] at hle
        split_ifs at hle with hH hN
        simp only [Option.some.injEq] at hle
        subst hle
        refine ⟨rfl, ?_⟩
        intro c rest hexec hc
        show replacePlaceholders _ ≠ str ""
        rw [hexec]
        obtain ⟨out, hout⟩ := replacePlaceholders_head c rest hc
        rw [hout]
        simp [str, utf8, encodeRunes]
  · intro queryIcon path displayName tabName le hle
    unfold NewEntryForFile at hle
    cases hq : queryIcon path with
    | error e => rw [hq] at hle; simp at hle
    | ok icon =>
      rw [hq] at hle
      simp only [Option.some.injEq] at hle
      rw [← hle]
      exact hx path

/-- Witness of C6 (amended): the entry for the URL `http://example.com` has a non-empty
`Cmdline`, and the entry for the command `ls` has the `Cmdline` `ls`. -/
theorem C6_Cmdline_nonempty_witness :
    (NewUrlLaunchEntry helpersRef (str "http://example.com")).Cmdline ≠ str "" ∧
      (NewEntryFromCommand helpersRef (str "ls")).Cmdline = str "ls" :=
  ⟨(C6_Cmdline_nonempty helpersRef).2.2.2.1 (str "http://example.com"),
    (C6_Cmdline_nonempty helpersRef).2.1 (str "ls")⟩

/-! ## The placeholder replacer -/

theorem Contains_iff_occurs (s p : GoString) : Contains s p = true ↔ p <:+: s := by
  induction s with
  | nil => cases p <;> simp [Contains]
  | cons c rest ih =>
    rw [Contains, Bool.or_eq_true, ih, List.isPrefixOf_iff_prefix, List.infix_cons_iff]

theorem placeholderOlds_shape (t : GoString) (ht : t ∈ placeholderOlds) :
    ∃ x, t = [0x20, 0x25, x] ∧ x ∈ placeholderLetters := by
  have h : placeholderOlds =
      [[0x20, 0x25, 0x66], [0x20, 0x25, 0x46], [0x20, 0x25, 0x75], [0x20, 0x25, 0x55]] := by
    decide
  rw [h] at ht
  simp only [List.mem_cons, List.mem_nil_iff, or_false] at ht
  rcases ht with rfl | rfl | rfl | rfl
  · exact ⟨0x66, rfl, by decide⟩
  · exact ⟨0x46, rfl, by decide⟩
  · exact ⟨0x75, rfl, by decide⟩
  · exact ⟨0x55, rfl, by decide⟩

theorem mem_placeholderLetters (y : Nat) :
    y ∈ placeholderLetters ↔ (y = 0x66 ∨ y = 0x46 ∨ y = 0x75 ∨ y = 0x55) := by
  simp [placeholderLetters]

theorem replacePlaceholders_old (t s : GoString) (ht : t ∈ placeholderOlds) :
    replacePlaceholders (t ++ s) = replacePlaceholders s := by
  obtain ⟨x, rfl, _⟩ := placeholderOlds_shape t ht
  show replacePlaceholders (0x20 :: 0x25 :: x :: s) = _
  rw [replacePlaceholders, if_pos ht]

theorem replacePlaceholders_olds (olds : List GoString) (s : GoString)
    (h : ∀ t ∈ olds, t ∈ placeholderOlds) :
    replacePlaceholders (olds.flatten ++ s) = replacePlaceholders s := by
  induction olds with
  | nil => rfl
  | cons t rest ih =>
    rw [List.flatten_cons, List.append_assoc,
      replacePlaceholders_old t _ (h t (List.mem_cons_self t rest))]
    exact ih (fun u hu => h u (List.mem_cons_of_mem t hu))

/-- The replacer copies a byte at which none of its old strings starts. -/
theorem replacePlaceholders_copy (a : Nat) (s : GoString)
    (h : ∀ b c rest, s = b :: c :: rest → ¬ [a, b, c] ∈ placeholderOlds) :
    replacePlaceholders (a :: s) = a :: replacePlaceholders s := by
  match s, h with
  | [], _ => rfl
  | [x], _ => rfl
  | x1 :: x2 :: more, h => rw [replacePlaceholders, if_neg (h x1 x2 more rfl)]

theorem replacePlaceholders_copy_of_ne (a : Nat) (s : GoString) (ha : a ≠ 0x20) :
    replacePlaceholders (a :: s) = a :: replacePlaceholders s := by
  apply replacePlaceholders_copy
  intro b c rest _ hmem
  rw [mem_placeholderOlds] at hmem
  exact ha hmem.1

/-- When the output of the replacer begins with a placeholder letter, the input is a run of
old strings followed by that letter. -/
theorem replacePlaceholders_head_letter (s : GoString) (y : Nat) (out : GoString)
    (hout : replacePlaceholders s = y :: out) :
    ∃ (olds : List GoString) (post : GoString),
      (∀ t ∈ olds, t ∈ placeholderOlds) ∧ s = olds.flatten ++ y :: post := by
  induction s using replacePlaceholders.induct generalizing out with
  | case1 a b c rest hmem ih =>
    rw [replacePlaceholders, if_pos hmem] at hout
    obtain ⟨olds, post, ho, hs⟩ := ih out hout
    refine ⟨[a, b, c] :: olds, post, ?_, ?_⟩
    · intro t ht
      rcases List.mem_cons.mp ht with rfl | ht
      · exact hmem
      · exact ho t ht
    · simp [hs]
  | case2 a b c rest hmem ih =>
    rw [replacePlaceholders, if_neg hmem] at hout
    injection hout with h1 h2
    exact ⟨[], b :: c :: rest, by simp, by simp [h1]⟩
  | case3 s hshort =>
    have hrep : replacePlaceholders s = s := by
      unfold replacePlaceholders
      split
      · exact absurd rfl (hshort _ _ _ _)
      · rfl
    rw [hrep] at hout
    exact ⟨[], out, by simp, by simp [hout]⟩

/-- A placeholder in the output of the replacer comes from a `%` of the input as described
by `keepsPlaceholder`. -/
theorem keepsPlaceholder_of_output (s : GoString) (y : Nat) (o1 o2 : GoString)
    (hy : y ∈ placeholderLetters) (hout : replacePlaceholders s = o1 ++ 0x25 :: y :: o2) :
    keepsPlaceholder s := by
  induction s using replacePlaceholders.induct generalizing o1 with
  | case1 a b c rest hmem ih =>
    rw [replacePlaceholders, if_pos hmem] at hout
    obtain ⟨pre, olds, y1, post, hs, ho, hy1, hlast⟩ := ih o1 hout
    refine ⟨a :: b :: c :: pre, olds, y1, post, by simp [hs], ho, hy1, ?_⟩
    intro he
    have hc := ((mem_placeholderOlds a b c).mp hmem).2.2
    cases pre with
    | nil => simp; omega
    | cons p ps =>
      have := hlast he
      simpa [List.getLast?_cons_cons] using this
  | case2 a b c rest hmem ih =>
    rw [replacePlaceholders, if_neg hmem] at hout
    cases o1 with
    | nil =>
      simp only [List.nil_append, List.cons.injEq] at hout
      obtain ⟨olds, post, ho, hs⟩ := replacePlaceholders_head_letter _ y o2 hout.2
      exact ⟨[], olds, y, post, by simp [hout.1, hs], ho, hy, by simp⟩
    | cons x o1' =>
      simp only [List.cons_append, List.cons.injEq] at hout
      obtain ⟨pre, olds, y1, post, hs, ho, hy1, hlast⟩ := ih o1' hout.2
      refine ⟨a :: pre, olds, y1, post, by simp [hs], ho, hy1, ?_⟩
      intro he
      cases pre with
      | nil =>
        subst he
        simp only [List.nil_append, List.flatten_nil, List.cons.injEq] at hs
        simp only [List.getLast?_singleton, ne_eq, Option.some.injEq]
        intro ha
        apply hmem
        rw [mem_placeholderOlds]
        exact ⟨ha, hs.1, (mem_placeholderLetters _).mp (hs.2.1 ▸ hy1)⟩
      | cons p ps =>
        have := hlast he
        simpa [List.getLast?_cons_cons] using this
  | case3 s hshort =>
    have hrep : replacePlaceholders s = s := by
      unfold replacePlaceholders
      split
      · exact absurd rfl (hshort _ _ _ _)
      · rfl
    rw [hrep] at hout
    match o1, hout with
    | [], hout => exact ⟨[], [], y, o2, by simp [hout], by simp, hy, by simp⟩
    | [x], hout => exact (hshort x 0x25 y o2 hout).elim
    | [x, z], hout => exact (hshort x z 0x25 (y :: o2) hout).elim
    | x :: z :: w :: o1', hout => exact (hshort x z w (o1' ++ 0x25 :: y :: o2) hout).elim

/-- A `%` that no old string of the replacer reaches is copied to the output, followed by
what the replacer makes of the rest. -/
theorem replacePlaceholders_keeps_percent (n : Nat) (pre t : GoString) (hn : pre.length ≤ n)
    (h : ∀ y, t.head? = some y → y ∈ placeholderLetters → pre.getLast? ≠ some 0x20) :
    ∃ o, replacePlaceholders (pre ++ 0x25 :: t) = o ++ 0x25 :: replacePlaceholders t := by
  induction n generalizing pre with
  | zero =>
    have : pre = [] := List.eq_nil_of_length_eq_zero (by omega)
    subst this
    exact ⟨[], by simpa using replacePlaceholders_copy_of_ne 0x25 t (by decide)⟩
  | succ n ih =>
    match pre, hn, h with
    | [], _, _ => exact ⟨[], by simpa using replacePlaceholders_copy_of_ne 0x25 t (by decide)⟩
    | [a], _, h =>
      refine ⟨[a], ?_⟩
      have hcopy : replacePlaceholders (a :: 0x25 :: t) =
          a :: replacePlaceholders (0x25 :: t) := by
        apply replacePlaceholders_copy
        intro b c rest hbc hmem
        simp only [List.cons.injEq] at hbc
        rw [mem_placeholderOlds] at hmem
        have hc : c ∈ placeholderLetters := (mem_placeholderLetters c).mpr hmem.2.2
        have := h c (by rw [hbc.2]; rfl) hc
        simp at this
        exact this hmem.1
      simpa [replacePlaceholders_copy_of_ne 0x25 t (by decide)] using hcopy
    | a :: b :: pre1, hn, h =>
      by_cases htok : ∃ c rest, pre1 ++ 0x25 :: t = c :: rest ∧ [a, b, c] ∈ placeholderOlds
      · obtain ⟨c, rest, hc, hmem⟩ := htok
        have hcl := ((mem_placeholderOlds a b c).mp hmem).2.2
        cases pre1 with
        | nil =>
          simp only [List.nil_append, List.cons.injEq] at hc
          omega
        | cons p ps =>
          simp only [List.cons_append, List.cons.injEq] at hc
          obtain ⟨o, ho⟩ := ih ps (by simp at hn ⊢; omega) (by
            intro y hy1 hy2
            cases ps with
            | nil => simp
            | cons q qs =>
              have := h y hy1 hy2
              simpa [List.getLast?_cons_cons] using this)
          refine ⟨o, ?_⟩
          show replacePlaceholders (a :: b :: p :: (ps ++ 0x25 :: t)) = _
          rw [replacePlaceholders, if_pos (hc.1 ▸ hmem), ho]
      · obtain ⟨o, ho⟩ := ih (b :: pre1) (by simp at hn ⊢; omega) (by
          intro y hy1 hy2
          have := h y hy1 hy2
          simpa [List.getLast?_cons_cons] using this)
        refine ⟨a :: o, ?_⟩
        have hcopy : replacePlaceholders (a :: (b :: pre1 ++ 0x25 :: t)) =
            a :: replacePlaceholders (b :: pre1 ++ 0x25 :: t) := by
          apply replacePlaceholders_copy
          intro b1 c rest hbc hmem
          simp only [List.cons_append, List.cons.injEq] at hbc
          exact htok ⟨c, rest, hbc.2, hbc.1 ▸ hmem⟩
        show replacePlaceholders (a :: (b :: pre1 ++ 0x25 :: t)) =
          a :: o ++ 0x25 :: replacePlaceholders t
        rw [hcopy, ho]
        rfl

/-- A `%` described by `keepsPlaceholder` leaves a placeholder in the output. -/
theorem output_of_keepsPlaceholder (s : GoString) (hs : keepsPlaceholder s) :
    ∃ y ∈ placeholderLetters, [0x25, y] <:+: replacePlaceholders s := by
  obtain ⟨pre, olds, y, post, rfl, ho, hy, hlast⟩ := hs
  have hyb : y ≠ 0x20 := by
    intro h; rw [h] at hy; revert hy; decide
  obtain ⟨o, hout⟩ := replacePlaceholders_keeps_percent pre.length pre
    (olds.flatten ++ y :: post) (le_refl _) (by
      intro z hz hzl
      cases olds with
      | nil => exact hlast rfl
      | cons t rest =>
        exfalso
        obtain ⟨x, rfl, _⟩ := placeholderOlds_shape t (ho t (List.mem_cons_self t rest))
        simp at hz
        rw [← hz] at hzl
        revert hzl
        decide)
  refine ⟨y, hy, o, replacePlaceholders post, ?_⟩
  rw [hout, replacePlaceholders_olds olds _ ho, replacePlaceholders_copy_of_ne y post hyb]
  simp

/-- The output of the replacer contains a placeholder exactly for the inputs described by
`keepsPlaceholder`. -/
theorem replacePlaceholders_placeholder_iff (s : GoString) :
    (Contains (replacePlaceholders s) (str "%f") = true ∨
      Contains (replacePlaceholders s) (str "%F") = true ∨
      Contains (replacePlaceholders s) (str "%u") = true ∨
      Contains (replacePlaceholders s) (str "%U") = true) ↔ keepsPlaceholder s := by
  have e1 : str "%f" = [0x25, 0x66] := by decide
  have e2 : str "%F" = [0x25, 0x46] := by decide
  have e3 : str "%u" = [0x25, 0x75] := by decide
  have e4 : str "%U" = [0x25, 0x55] := by decide
  rw [e1, e2, e3, e4]
  simp only [Contains_iff_occurs]
  constructor
  · intro h
    have key : ∀ y, y ∈ placeholderLetters → [0x25, y] <:+: replacePlaceholders s →
        keepsPlaceholder s := by
      intro y hy ⟨o1, o2, ho⟩
      exact keepsPlaceholder_of_output s y o1 o2 hy (by simpa using ho.symm)
    rcases h with h | h | h | h
    · exact key _ (by decide) h
    · exact key _ (by decide) h
    · exact key _ (by decide) h
    · exact key _ (by decide) h
  · intro h
    obtain ⟨y, hy, hin⟩ := output_of_keepsPlaceholder s h
    rcases (mem_placeholderLetters y).mp hy with rfl | rfl | rfl | rfl
    · exact Or.inl hin
    · exact Or.inr (Or.inl hin)
    · exact Or.inr (Or.inr (Or.inl hin))
    · exact Or.inr (Or.inr (Or.inr hin))

theorem getElem?_append_cons_self (pre rest : GoString) (x : Nat) :
    (pre ++ x :: rest)[pre.length]? = some x := by
  rw [List.getElem?_append_right (le_refl _)]
  simp

theorem getElem?_append_cons_succ (pre rest : GoString) (x y : Nat) :
    (pre ++ x :: y :: rest)[pre.length + 1]? = some y := by
  rw [List.getElem?_append_right (by omega)]
  simp

/-- When every placeholder of `s` has a blank before it and no `%` of `s` has a blank after
it, `s` has no `%` of the kind described by `keepsPlaceholder`. -/
theorem not_keepsPlaceholder_of_blanks (s : GoString)
    (h1 : ∀ i y, s[i]? = some 0x25 → s[i + 1]? = some y → y ∈ placeholderLetters →
      ∃ j, i = j + 1 ∧ s[j]? = some 0x20)
    (h2 : ∀ i, s[i]? = some 0x25 → s[i + 1]? ≠ some 0x20) :
    ¬ keepsPlaceholder s := by
  rintro ⟨pre, olds, y, post, rfl, ho, hy, hlast⟩
  have hp := getElem?_append_cons_self pre (olds.flatten ++ y :: post) 0x25
  cases olds with
  | nil =>
    have hn := getElem?_append_cons_succ pre post 0x25 y
    obtain ⟨j, hj, hjb⟩ := h1 _ y hp hn hy
    apply hlast rfl
    rw [List.getElem?_append_left (by omega)] at hjb
    rw [List.getLast?_eq_getElem?]
    have : pre.length - 1 = j := by omega
    rw [this]; exact hjb
  | cons t rest =>
    obtain ⟨x, rfl, _⟩ := placeholderOlds_shape t (ho t (List.mem_cons_self t rest))
    exact h2 _ hp (getElem?_append_cons_succ pre _ 0x25 0x20)

/-- C7, as the claim states it, fails: a desktop record whose `Exec` value is
`viewer --file=%f` is accepted, and its `Cmdline` is that value unchanged, which contains
the placeholder `%f`: the replacer only knows the placeholders that follow a blank. -/
theorem C7_counterexample :
    ¬ ∀ (h : Helpers) (osOpen : GoString → Except GoError GoString)
        (confRead : GoString → Except GoError ConfFile) (filepath : GoString)
        (le : LaunchEntry),
        (NewEntryFromDesktopFile h osOpen confRead filepath).1 = some le →
          (Contains le.Cmdline (str "%f") = false ∧ Contains le.Cmdline (str "%F") = false ∧
            Contains le.Cmdline (str "%u") = false ∧ Contains le.Cmdline (str "%U") = false) ∧
          le.TabName = le.Cmdline := by
  intro hall
  have hbad := (hall helpersRef (fun _ => .ok [])
    (fun _ => .ok (desktopRef (str "Viewer") (str "viewer") (str "viewer --file=%f") false false))
    (str "viewer.desktop")
    { Typ := ApplicatioEntry, Name := str "Viewer", LoCaseName := str "viewer",
      Icon := str "viewer", Cmdline := str "viewer --file=%f", TabName := str "viewer --file=%f" }
    (by decide)).1.1
  revert hbad
  decide

/-- A placeholder can also be put together by the replacer: in `100% %ff` the old string
` %f` is removed and the `%` before it meets the `f` after it. -/
theorem replacePlaceholders_joins :
    replacePlaceholders (str "100% %ff") = str "100%f" := by
  decide

/-- C7 (amended): for every desktop record accepted by `NewEntryFromDesktopFile` and every
value of its `Exec` field, `TabName` equals `Cmdline`, and `Cmdline` is the `Exec` value
with the occurrences of ` %f`, ` %F`, ` %u` and ` %U` (a blank, then the placeholder)
removed in one pass from the left. `Cmdline` contains one of the placeholders `%f`, `%F`,
`%u`, `%U` exactly when `Exec` has a `%` that is followed, directly or after one or more
of the removed strings, by one of the letters `f`, `F`, `u`, `U` and that, where the letter
follows directly, has no blank before it. In particular `Cmdline` contains none of the
placeholders when every placeholder of `Exec` has a blank before it and no `%` of `Exec`
has a blank after it. -/
theorem C7_blank_placeholders_removed (h : Helpers)
    (osOpen : GoString → Except GoError GoString)
    (confRead : GoString → Except GoError ConfFile) (filepath fd : GoString) (cf : ConfFile)
    (le : LaunchEntry)
    (ho : osOpen filepath = .ok fd) (hr : confRead fd = .ok cf)
    (hle : (NewEntryFromDesktopFile h osOpen confRead filepath).1 = some le) :
    le.TabName = le.Cmdline ∧
    le.Cmdline = replacePlaceholders ((cf.Sections (str "Desktop Entry")).Str (str "Exec")) ∧
    ((Contains le.Cmdline (str "%f") = true ∨ Contains le.Cmdline (str "%F") = true ∨
        Contains le.Cmdline (str "%u") = true ∨ Contains le.Cmdline (str "%U") = true) ↔
      keepsPlaceholder ((cf.Sections (str "Desktop Entry")).Str (str "Exec"))) ∧
    ((∀ i y, ((cf.Sections (str "Desktop Entry")).Str (str "Exec"))[i]? = some 0x25 →
          ((cf.Sections (str "Desktop Entry")).Str (str "Exec"))[i + 1]? = some y →
          y ∈ placeholderLetters →
          ∃ j, i = j + 1 ∧
            ((cf.Sections (str "Desktop Entry")).Str (str "Exec"))[j]? = some 0x20) →
      (∀ i, ((cf.Sections (str "Desktop Entry")).Str (str "Exec"))[i]? = some 0x25 →
          ((cf.Sections (str "Desktop Entry")).Str (str "Exec"))[i + 1]? ≠ some 0x20) →
      Contains le.Cmdline (str "%f") = false ∧ Contains le.Cmdline (str "%F") = false ∧
        Contains le.Cmdline (str "%u") = false ∧ Contains le.Cmdline (str "%U") = false) := by
  rw [NewEntryFromDesktopFile_parsed h osOpen confRead filepath fd cf ho hr] at hle
  split_ifs at hle with hH hN
  simp only [Option.some.injEq] at hle
  subst hle
  refine ⟨rfl, rfl, replacePlaceholders_placeholder_iff _, ?_⟩
  intro h1 h2
  have hno := not_keepsPlaceholder_of_blanks _ h1 h2
  rw [← replacePlaceholders_placeholder_iff] at hno
  simp only [not_or, Bool.not_eq_true] at hno
  exact hno

/-- Witness of C7 (amended): the record with `Exec` equal to `okular %U %i -caption %c`.
Its `Cmdline` is `okular %i -caption %c`, which contains none of the four placeholders:
the one placeholder of `Exec`, `%U`, follows a blank, and no `%` is followed by a blank. -/
theorem C7_blank_placeholders_removed_witness :
    (NewEntryFromDesktopFile helpersRef (fun _ => .ok [])
        (fun _ => .ok (desktopRef (str "Okular") (str "okular")
          (str "okular %U %i -caption %c") false false))
        (str "okular.desktop")).1 =
      some { Typ := ApplicatioEntry, Name := str "Okular", LoCaseName := str "okular",
             Icon := str "okular", Cmdline := str "okular %i -caption %c",
             TabName := str "okular %i -caption %c" } ∧
    Contains (str "okular %i -caption %c") (str "%f") = false ∧
      Contains (str "okular %i -caption %c") (str "%F") = false ∧
      Contains (str "okular %i -caption %c") (str "%u") = false ∧
      Contains (str "okular %i -caption %c") (str "%U") = false :=
  have hexec : ((desktopRef (str "Okular") (str "okular") (str "okular %U %i -caption %c")
      false false).Sections (str "Desktop Entry")).Str (str "Exec") =
      [111, 107, 117, 108, 97, 114, 32, 37, 85, 32, 37, 105, 32, 45, 99, 97, 112, 116, 105,
        111, 110, 32, 37, 99] := by decide
  ⟨by decide,
    (C7_blank_placeholders_removed helpersRef (fun _ => .ok [])
      (fun _ => .ok (desktopRef (str "Okular") (str "okular")
        (str "okular %U %i -caption %c") false false))
      (str "okular.desktop") [] _
      { Typ := ApplicatioEntry, Name := str "Okular", LoCaseName := str "okular",
        Icon := str "okular", Cmdline := str "okular %i -caption %c",
        TabName := str "okular %i -caption %c" }
      rfl rfl (by decide)).2.2.2
      (by
        rw [hexec]
        intro i y hi hy hl
        have hlt : i < 24 := by
          by_contra hge
          rw [List.getElem?_eq_none_iff.mpr (by simp; omega)] at hi
          exact absurd hi (by simp)
        interval_cases i <;>
          first
          | exact absurd hi (by decide)
          | exact ⟨_, rfl, by decide⟩)
      (by
        rw [hexec]
        intro i hi
        have hlt : i < 24 := by
          by_contra hge
          rw [List.getElem?_eq_none_iff.mpr (by simp; omega)] at hi
          exact absurd hi (by simp)
        interval_cases i <;>
          first
          | exact absurd hi (by decide)
          | decide)⟩

/-! ## Highlight positions: bytes and characters -/

theorem encodeRunes_append (a b : List Nat) :
    encodeRunes (a ++ b) = encodeRunes a ++ encodeRunes b := by
  induction a with
  | nil => rfl
  | cons r rest ih => simp [encodeRunes, ih]

theorem utf8_append (a b : List Char) : utf8 (a ++ b) = utf8 a ++ utf8 b := by
  simp [utf8, encodeRunes_append]

theorem utf8_three_parts (cs : List Char) (offset length : Nat) :
    utf8 cs = utf8 (cs.take offset) ++
      (utf8 ((cs.drop offset).take length) ++ utf8 (cs.drop (offset + length))) := by
  have h : cs.drop (offset + length) = (cs.drop offset).drop length := by
    rw [List.drop_drop]
  rw [h, ← utf8_append, List.take_append_drop, ← utf8_append, List.take_append_drop]

theorem utf8_length_ascii (cs : List Char) (hcs : ∀ c ∈ cs, c.toNat < 0x80) :
    (utf8 cs).length = cs.length := by
  induction cs with
  | nil => rfl
  | cons c rest ih =>
    have hc : c.toNat ≤ 0x7F := by
      have := hcs c (List.mem_cons_self c rest); omega
    have hrest := ih (fun d hd => hcs d (List.mem_cons_of_mem c hd))
    simp only [utf8] at hrest
    simp [utf8, encodeRunes, EncodeRune, hc, hrest]

/-- C9, as the claim states it, fails: for the name `é` (one character, the two bytes C3 A9)
and the span offset 0, length 1, which covers the one character, `UpdateMarkupName(0, 1)`
puts only the byte C3 between the tags and leaves the byte A9 after them. -/
theorem C9_counterexample :
    ¬ ∀ (h : Helpers) (le : LaunchEntry) (cs : List Char) (offset length : Nat),
        le.Name = utf8 cs → offset + length ≤ cs.length →
        UpdateMarkupName h le offset length =
          some { le with
            MarkupName := glyphOf le.Typ ++ h.EscapeAmpersand
              (utf8 (cs.take offset) ++ str "<b>" ++ utf8 ((cs.drop offset).take length) ++
                str "</b>" ++ utf8 (cs.drop (offset + length))) } := by
  intro hall
  have hbad := hall helpersRef { Typ := ApplicatioEntry, Name := str "é" } ['é'] 0 1
    (by decide) (by decide)
  have hcode : UpdateMarkupName helpersRef { Typ := ApplicatioEntry, Name := str "é" }
      ((0 : Nat) : Int) ((1 : Nat) : Int) =
      some { Typ := ApplicatioEntry, Name := str "é",
             MarkupName := str "<b>" ++ [0xC3] ++ str "</b>" ++ [0xA9] } := by decide
  rw [hcode] at hbad
  revert hbad
  decide

/-- C9 (amended): highlight offsets and lengths are counted in bytes of the UTF-8 encoding
of `Name`. For every `Name` and every span of `length` characters starting at character
position `offset`, calling `UpdateMarkupName` with the byte length of the first `offset`
characters and the byte length of the span puts exactly the characters of the span between
`<b>` and `</b>`, the characters before it in front of the tag and the remaining ones
after it (the whole passed through `EscapeAmpersand` and preceded by the glyph of the entry
type). When `Name` consists of single-byte characters and `offset + length` does not
exceed their number, the character counts `offset` and `length` themselves do so. -/
theorem C9_highlight_counts_bytes (h : Helpers) (le : LaunchEntry) (cs : List Char)
    (offset length : Nat) (hn : le.Name = utf8 cs) :
    UpdateMarkupName h le ((utf8 (cs.take offset)).length : Nat)
        ((utf8 ((cs.drop offset).take length)).length : Nat) =
      some { le with
        MarkupName := glyphOf le.Typ ++ h.EscapeAmpersand
          (utf8 (cs.take offset) ++ str "<b>" ++ utf8 ((cs.drop offset).take length) ++
            str "</b>" ++ utf8 (cs.drop (offset + length))) } ∧
    ((∀ c ∈ cs, c.toNat < 0x80) → offset + length ≤ cs.length →
      UpdateMarkupName h le (offset : Nat) (length : Nat) =
        some { le with
          MarkupName := glyphOf le.Typ ++ h.EscapeAmpersand
            (utf8 (cs.take offset) ++ str "<b>" ++ utf8 ((cs.drop offset).take length) ++
              str "</b>" ++ utf8 (cs.drop (offset + length))) }) := by
  have key : UpdateMarkupName h le ((utf8 (cs.take offset)).length : Nat)
        ((utf8 ((cs.drop offset).take length)).length : Nat) =
      some { le with
        MarkupName := glyphOf le.Typ ++ h.EscapeAmpersand
          (utf8 (cs.take offset) ++ str "<b>" ++ utf8 ((cs.drop offset).take length) ++
            str "</b>" ++ utf8 (cs.drop (offset + length))) } := by
    have h3 := utf8_three_parts cs offset length
    generalize utf8 (cs.take offset) = X at h3 ⊢
    generalize utf8 ((cs.drop offset).take length) = M at h3 ⊢
    generalize utf8 (cs.drop (offset + length)) = Y at h3 ⊢
    have hlen : le.Name.length = X.length + (M.length + Y.length) := by
      rw [hn, h3]; simp
    rw [UpdateMarkupName_eq h le _ _ (by omega) (by omega) (by omega)]
    have e1 : ((X.length : Nat) : Int).toNat = X.length := by omega
    have e2 : (((X.length : Nat) : Int) + ((M.length : Nat) : Int)).toNat =
        X.length + M.length := by omega
    rw [e1, e2, hn, h3]
    have t1 : (X ++ (M ++ Y)).take X.length = X := List.take_left' rfl
    have t2 : (X ++ (M ++ Y)).drop X.length = M ++ Y := List.drop_left' rfl
    have t3 : (M ++ Y).take (X.length + M.length - X.length) = M := by
      have : X.length + M.length - X.length = M.length := by omega
      rw [this]; exact List.take_left' rfl
    have t4 : (X ++ (M ++ Y)).drop (X.length + M.length) = Y := by
      rw [← List.append_assoc]; exact List.drop_left' (by simp)
    rw [t1, t2, t3, t4]
  refine ⟨key, ?_⟩
  intro hascii hle
  have a1 : (utf8 (cs.take offset)).length = offset := by
    rw [utf8_length_ascii _ (fun c hc => hascii c (List.mem_of_mem_take hc))]
    simp; omega
  have a2 : (utf8 ((cs.drop offset).take length)).length = length := by
    rw [utf8_length_ascii _
      (fun c hc => hascii c (List.mem_of_mem_drop (List.mem_of_mem_take hc)))]
    simp; omega
  rw [a1, a2] at key
  exact key

/-- Witness of C9 (amended): the name `café au lait` and the span of its first 4
characters, `café`, whose byte length is 5: the call `UpdateMarkupName(0, 5)` yields the
markup `<b>café</b> au lait`. -/
theorem C9_highlight_counts_bytes_witness :
    (utf8 (['c', 'a', 'f', 'é', ' ', 'a', 'u', ' ', 'l', 'a', 'i', 't'].take 0)).length = 0 ∧
    (utf8 ((['c', 'a', 'f', 'é', ' ', 'a', 'u', ' ', 'l', 'a', 'i', 't'].drop 0).take 4)).length
      = 5 ∧
    UpdateMarkupName helpersRef { Typ := ApplicatioEntry, Name := str "café au lait" }
        ((utf8 (['c', 'a', 'f', 'é', ' ', 'a', 'u', ' ', 'l', 'a', 'i', 't'].take 0)).length : Nat)
        ((utf8 ((['c', 'a', 'f', 'é', ' ', 'a', 'u', ' ', 'l', 'a', 'i', 't'].drop 0).take
          4)).length : Nat) =
      some { Typ := ApplicatioEntry, Name := str "café au lait",
             MarkupName := str "<b>café</b> au lait" } :=
  ⟨by decide, by decide,
    (C9_highlight_counts_bytes helpersRef
      { Typ := ApplicatioEntry, Name := str "café au lait" }
      ['c', 'a', 'f', 'é', ' ', 'a', 'u', ' ', 'l', 'a', 'i', 't'] 0 4 (by decide)).1.trans
      (by decide)⟩

/-! ## Blank queries -/

theorem IsSpace_cases (r : Nat) (hr : IsSpace r = true) :
    r = 0x09 ∨ r = 0x0A ∨ r = 0x0B ∨ r = 0x0C ∨ r = 0x0D ∨ r = 0x20 ∨ r = 0x85 ∨ r = 0xA0 ∨
      r = 0x1680 ∨ (0x2000 ≤ r ∧ r ≤ 0x200A) ∨ r = 0x2028 ∨ r = 0x2029 ∨ r = 0x202F ∨
      r = 0x205F ∨ r = 0x3000 := by
  unfold IsSpace at hr
  split at hr
  · simp at hr; omega
  · simp at hr; omega

/-- A white-space rune is decoded back from its encoding, whatever follows. -/
theorem DecodeRune_space (r : Nat) (hr : IsSpace r = true) (rest : GoString) :
    DecodeRune (EncodeRune r ++ rest) = (r, (EncodeRune r).length) ∧
      0 < (EncodeRune r).length := by
  rcases IsSpace_cases r hr with h | h | h | h | h | h | h | h | h | h | h | h | h | h | h
  all_goals first
    | (subst h; simp [EncodeRune, DecodeRune, leadInfo])
    | (obtain ⟨h1, h2⟩ := h; interval_cases r <;> simp [EncodeRune, DecodeRune, leadInfo])

theorem trimLeftLoop_spaces (rs : List Nat) (hrs : ∀ r ∈ rs, IsSpace r = true) (fuel : Nat)
    (hf : (encodeRunes rs).length ≤ fuel) : trimLeftLoop fuel (encodeRunes rs) = [] := by
  induction rs generalizing fuel with
  | nil => cases fuel <;> rfl
  | cons r rest ih =>
    have hr := hrs r (List.mem_cons_self r rest)
    obtain ⟨hdec, hpos⟩ := DecodeRune_space r hr (encodeRunes rest)
    have hlen : (encodeRunes (r :: rest)).length =
        (EncodeRune r).length + (encodeRunes rest).length := by
      simp [encodeRunes]
    cases fuel with
    | zero => omega
    | succ f =>
      cases hs : EncodeRune r ++ encodeRunes rest with
      | nil =>
        have h0 : (EncodeRune r).length + (encodeRunes rest).length = 0 := by
          rw [← List.length_append, hs]; rfl
        omega
      | cons b bs =>
        have hstep : trimLeftLoop (f + 1) (b :: bs) =
            if IsSpace (DecodeRune (b :: bs)).1 = true then
              trimLeftLoop f ((b :: bs).drop (DecodeRune (b :: bs)).2)
            else b :: bs := rfl
        show trimLeftLoop (f + 1) (EncodeRune r ++ encodeRunes rest) = []
        rw [hs, hstep, ← hs, hdec]
        simp only [hr, if_true]
        rw [List.drop_left' rfl]
        exact ih (fun x hx => hrs x (List.mem_cons_of_mem r hx)) f (by omega)

/-- A query made of white space only is trimmed to the empty string. -/
theorem TrimSpace_spaces (rs : List Nat) (hrs : ∀ r ∈ rs, IsSpace r = true) :
    TrimSpace (encodeRunes rs) = str "" := by
  unfold TrimSpace
  simp only [trimLeftLoop_spaces rs hrs _ (le_refl _)]
  rfl

/-- C10, as the claim states it, fails for the handler: with the one entry
`Atom Text Editor` and the text of one blank, the handler appends the entry, because its
`LoCaseName` contains a blank and the text is not trimmed. -/
theorem C10_counterexample :
    ¬ ∀ (mapLower : GoString → GoString) (entries : List DtEntry) (rs : List Nat),
        (∀ r ∈ rs, IsSpace r = true) →
        searchChanged mapLower entries (encodeRunes rs) = [] := by
  intro hall
  have hbad := hall (fun s => s)
    [{ Icon := str "atom", Name := str "Atom Text Editor", Exec := str "atom %F",
       LoCaseName := str "atom text editor" }] [0x20] (by decide)
  revert hbad
  decide

/-- C10 (amended): for every query that is empty or consists only of white space,
`SearchCmdEntries` returns the empty list. The "changed" handler of `setupSearchLogic`
appends no entry when the text is empty; it does not trim the text, and for every text
whose lowercased form is not empty, a text of blanks included, it appends a row for each
entry whose `LoCaseName` contains the lowercased text. -/
theorem C10_blank_query {FI : Type} (env : Env FI) (h : Helpers)
    (mapLower : GoString → GoString) (entries : List DtEntry) (rs : List Nat)
    (hrs : ∀ r ∈ rs, IsSpace r = true) :
    SearchCmdEntries env h (encodeRunes rs) = [] ∧
    searchChanged mapLower entries (str "") = [] ∧
    (∀ text, ToLower mapLower text ≠ str "" →
      searchChanged mapLower entries text =
        (entries.filter (fun en => Contains en.LoCaseName (ToLower mapLower text))).map
          (fun en => (en.Icon, en.Name, en.Exec))) := by
  refine ⟨?_, rfl, ?_⟩
  · unfold SearchCmdEntries
    simp only [TrimSpace_spaces rs hrs, if_true]
  · intro text ht
    unfold searchChanged
    simp only [ht, if_false]

/-- Witness of C10 (amended): the query made of a blank, a tab and a no-break space. -/
theorem C10_blank_query_witness :
    SearchCmdEntries (envRef []) helpersRef (encodeRunes [0x20, 0x09, 0xA0]) = [] ∧
    searchChanged (fun s => s)
        [{ Icon := str "atom", Name := str "Atom Text Editor", Exec := str "atom %F",
           LoCaseName := str "atom text editor" }] (str "") = [] ∧
    (∀ text, ToLower (fun s => s) text ≠ str "" →
      searchChanged (fun s => s)
          [{ Icon := str "atom", Name := str "Atom Text Editor", Exec := str "atom %F",
             LoCaseName := str "atom text editor" }] text =
        (([{ Icon := str "atom", Name := str "Atom Text Editor", Exec := str "atom %F",
             LoCaseName := str "atom text editor" }] : List DtEntry).filter
          (fun en => Contains en.LoCaseName (ToLower (fun s => s) text))).map
          (fun en => (en.Icon, en.Name, en.Exec))) :=
  C10_blank_query (envRef []) helpersRef (fun s => s)
    [{ Icon := str "atom", Name := str "Atom Text Editor", Exec := str "atom %F",
       LoCaseName := str "atom text editor" }] [0x20, 0x09, 0xA0] (by decide)

end Projektor
